import Mathlib

/-!
# Verification of the Red-Black tree of `dsgo` (`src/trees/rbtree.go`)

A shallow embedding of the pointer-based red-black tree.  The Go heap is
modelled as an arena: `nodes : Nat → RBNode` together with an allocation
counter `size`; a Go pointer is an `Option Nat` index into the arena and Go
pointer equality is index equality.  Every Go statement is transcribed in
source order; a dereference of a `nil` pointer (a Go panic) makes the
operation return `none`, and the `for` loops run on fuel, so a loop that the
Go code would never leave also yields `none`.  `fixInsert` additionally
reports whether one of its defensive `nil` checks ever saw `nil`, and
`fixDelete` reports whether one of its `sibling == nil` early exits ran.
-/

/-- One tree vertex: `key`, `value`, a color (`true` = Red, `false` = Black,
as in the Go constants), and the three links, `none` standing for Go `nil`. -/
structure RBNode where
  key : Int
  value : Int
  color : Bool
  left : Option Nat
  right : Option Nat
  parent : Option Nat
deriving DecidableEq

instance : Inhabited RBNode := ⟨⟨0, 0, false, none, none, none⟩⟩

/-- The tree: the arena of all ever-allocated nodes, the allocation counter,
and the root pointer.  (The `threadSafe` flag and the lock of the Go struct
live in the wrapper `LockedRBTree` below.) -/
structure RBTree where
  nodes : Nat → RBNode
  size : Nat
  root : Option Nat

/-- The tree produced by `NewRBTree`: no allocations, `root = nil`. -/
def emptyTree : RBTree := ⟨fun _ => default, 0, none⟩

/-- Point update of the arena. -/
def upd (f : Nat → RBNode) (i : Nat) (v : RBNode) : Nat → RBNode :=
  fun j => if j = i then v else f j

def getN (t : RBTree) (i : Nat) : RBNode := t.nodes i

def setColor (t : RBTree) (i : Nat) (c : Bool) : RBTree :=
  { t with nodes := upd t.nodes i { t.nodes i with color := c } }

def setValue (t : RBTree) (i : Nat) (v : Int) : RBTree :=
  { t with nodes := upd t.nodes i { t.nodes i with value := v } }

def setLeft (t : RBTree) (i : Nat) (x : Option Nat) : RBTree :=
  { t with nodes := upd t.nodes i { t.nodes i with left := x } }

def setRight (t : RBTree) (i : Nat) (x : Option Nat) : RBTree :=
  { t with nodes := upd t.nodes i { t.nodes i with right := x } }

def setParent (t : RBTree) (i : Nat) (x : Option Nat) : RBTree :=
  { t with nodes := upd t.nodes i { t.nodes i with parent := x } }

def setRoot (t : RBTree) (x : Option Nat) : RBTree := { t with root := x }

/-- Go `p != nil && p.color == Red`. -/
def isRed (t : RBTree) (x : Option Nat) : Bool :=
  match x with
  | none => false
  | some i => (getN t i).color

/-- `rotateLeft` (rbtree.go:125-144).  `none` models the panic on
`node.right == nil` (the Go code reads `rightChild.left` unconditionally). -/
def rotateLeft (t : RBTree) (x : Nat) : Option RBTree :=
  match (getN t x).right with
  | none => none
  | some r =>
    -- node.right = rightChild.left
    let t1 := setRight t x (getN t r).left
    -- if rightChild.left != nil { rightChild.left.parent = node }
    let t2 := match (getN t1 r).left with
              | some rl => setParent t1 rl (some x)
              | none => t1
    -- rightChild.parent = node.parent
    let t3 := setParent t2 r (getN t2 x).parent
    -- re-link the parent's child slot (or the root)
    let t4 := match (getN t3 x).parent with
              | none => setRoot t3 (some r)
              | some p =>
                if (getN t3 p).left = some x then setLeft t3 p (some r)
                else setRight t3 p (some r)
    -- rightChild.left = node; node.parent = rightChild
    let t5 := setLeft t4 r (some x)
    some (setParent t5 x (some r))

/-- `rotateRight` (rbtree.go:146-165), the mirror image. -/
def rotateRight (t : RBTree) (x : Nat) : Option RBTree :=
  match (getN t x).left with
  | none => none
  | some l =>
    let t1 := setLeft t x (getN t l).right
    let t2 := match (getN t1 l).right with
              | some lr => setParent t1 lr (some x)
              | none => t1
    let t3 := setParent t2 l (getN t2 x).parent
    let t4 := match (getN t3 x).parent with
              | none => setRoot t3 (some l)
              | some p =>
                if (getN t3 p).right = some x then setRight t3 p (some l)
                else setLeft t3 p (some l)
    let t5 := setRight t4 l (some x)
    some (setParent t5 x (some l))

/-- The descent loop of `searchNoLock` (rbtree.go:176-188).  Outer `none`
means the fuel ran out (the Go loop spins on a cyclic heap); `some none` is
"not found", `some (some i)` is the node found. -/
def searchGo (t : RBTree) (k : Int) : Nat → Option Nat → Option (Option Nat)
  | _, none => some none
  | 0, some _ => none
  | fuel+1, some i =>
    if k < (getN t i).key then searchGo t k fuel (getN t i).left
    else if (getN t i).key < k then searchGo t k fuel (getN t i).right
    else some (some i)

/-- `searchNoLock`: start the descent at the root with ample fuel (the
descent of a well-formed tree visits each node at most once). -/
def searchNoLock (t : RBTree) (k : Int) : Option (Option Nat) :=
  searchGo t k (t.size + 1) t.root

/-- The descent loop of `Insert` (rbtree.go:53-65): either the key is found
at an existing node (`Sum.inl`), or a `nil` slot is reached and the new node
is to be attached under the last visited node (`Sum.inr`). -/
def insertLoop (t : RBTree) (k : Int) : Nat → Nat → Option (Nat ⊕ Nat)
  | 0, _ => none
  | fuel+1, cur =>
    if k < (getN t cur).key then
      match (getN t cur).left with
      | none => some (Sum.inr cur)
      | some l => insertLoop t k fuel l
    else if (getN t cur).key < k then
      match (getN t cur).right with
      | none => some (Sum.inr cur)
      | some r => insertLoop t k fuel r
    else some (Sum.inl cur)

/-- The `for` loop of `fixInsert` ends and `t.root.color = Black` runs
(rbtree.go:122; a `nil` root would be a panic there). -/
def fixInsertFinish (t : RBTree) (saw : Bool) : Option (RBTree × Bool) :=
  match t.root with
  | none => none
  | some r => some (setColor t r false, saw)

/-- The loop of `fixInsert` (rbtree.go:79-121).  The `Bool` accumulator
records whether one of the two defensive checks `node.parent != nil`
(line 92/112) or `node.parent.parent != nil` (line 94/114) found `nil`.
Reading `node.parent.parent.left` on line 80 with a `nil` grandparent is a
panic, modelled by `none`. -/
def fixInsertGo (t : RBTree) (x : Nat) (saw : Bool) : Nat → Option (RBTree × Bool)
  | 0 => none
  | fuel+1 =>
    -- loop condition: node != t.root && node.parent != nil && node.parent.color == Red
    if t.root = some x then fixInsertFinish t saw
    else
      match (getN t x).parent with
      | none => fixInsertFinish t saw
      | some p =>
        if (getN t p).color = false then fixInsertFinish t saw
        else
          match (getN t p).parent with
          | none => none
          | some g =>
            if (getN t g).left = some p then
              -- uncle := node.parent.parent.right
              if isRed t (getN t g).right then
                -- Case A: recolor and move to the grandparent
                let t1 := setColor t p false
                let t2 := match (getN t1 g).right with
                          | some u => setColor t1 u false
                          | none => t1
                let t3 := setColor t2 g true
                fixInsertGo t3 g saw fuel
              else
                -- if node == node.parent.right { node = node.parent; rotateLeft(node) }
                let step : Option (RBTree × Nat) :=
                  if (getN t p).right = some x then
                    match rotateLeft t p with
                    | none => none
                    | some t1 => some (t1, p)
                  else some (t, x)
                match step with
                | none => none
                | some (t1, x1) =>
                  match (getN t1 x1).parent with
                  | none => fixInsertGo t1 x1 true fuel
                  | some p1 =>
                    let t2 := setColor t1 p1 false
                    match (getN t2 p1).parent with
                    | none => fixInsertGo t2 x1 true fuel
                    | some g1 =>
                      let t3 := setColor t2 g1 true
                      match rotateRight t3 g1 with
                      | none => none
                      | some t4 => fixInsertGo t4 x1 saw fuel
            else
              -- mirror image: parent is the grandparent's right child
              if isRed t (getN t g).left then
                let t1 := setColor t p false
                let t2 := match (getN t1 g).left with
                          | some u => setColor t1 u false
                          | none => t1
                let t3 := setColor t2 g true
                fixInsertGo t3 g saw fuel
              else
                let step : Option (RBTree × Nat) :=
                  if (getN t p).left = some x then
                    match rotateRight t p with
                    | none => none
                    | some t1 => some (t1, p)
                  else some (t, x)
                match step with
                | none => none
                | some (t1, x1) =>
                  match (getN t1 x1).parent with
                  | none => fixInsertGo t1 x1 true fuel
                  | some p1 =>
                    let t2 := setColor t1 p1 false
                    match (getN t2 p1).parent with
                    | none => fixInsertGo t2 x1 true fuel
                    | some g1 =>
                      let t3 := setColor t2 g1 true
                      match rotateLeft t3 g1 with
                      | none => none
                      | some t4 => fixInsertGo t4 x1 saw fuel

def fixInsert (t : RBTree) (x : Nat) : Option (RBTree × Bool) :=
  fixInsertGo t x false (t.size + 3)

/-- `Insert` (rbtree.go:40-76), also reporting the defensive-check flag of
`fixInsert`.  A node is allocated in the arena exactly when the Go node
becomes linked into the tree (an unlinked allocation is unobservable). -/
def InsertI (t : RBTree) (k v : Int) : Option (RBTree × Bool) :=
  match t.root with
  | none =>
    some (⟨upd t.nodes t.size ⟨k, v, false, none, none, none⟩, t.size + 1, some t.size⟩, false)
  | some r =>
    match insertLoop t k (t.size + 1) r with
    | none => none
    | some (Sum.inl cur) => some (setValue t cur v, false)
    | some (Sum.inr par) =>
      let idx := t.size
      let t1 : RBTree := ⟨upd t.nodes idx ⟨k, v, true, none, none, some par⟩, t.size + 1, t.root⟩
      let t2 := if k < (getN t1 par).key then setLeft t1 par (some idx)
                else setRight t1 par (some idx)
      fixInsert t2 idx

def InsertRB (t : RBTree) (k v : Int) : Option RBTree := (InsertI t k v).map Prod.fst

/-- `minimum` (rbtree.go:350-355). -/
def minimumGo (t : RBTree) : Nat → Nat → Option Nat
  | 0, _ => none
  | fuel+1, i =>
    match (getN t i).left with
    | none => some i
    | some l => minimumGo t fuel l

/-- `transplant` (rbtree.go:242-253): replace `u` by `v` in `u`'s parent
slot (or at the root) and set `v.parent` when `v != nil`. -/
def transplant (t : RBTree) (u : Nat) (v : Option Nat) : RBTree :=
  let t1 := match (getN t u).parent with
            | none => setRoot t v
            | some p => if (getN t p).left = some u then setLeft t p v else setRight t p v
  match v with
  | none => t1
  | some vi => setParent t1 vi (getN t1 u).parent

/-- Loop exit of `fixDelete` plus the final `if node != nil { node.color = Black }`
(rbtree.go:345-347). -/
def fixDFinish (t : RBTree) (node : Option Nat) (saw : Bool) : Option (RBTree × Bool) :=
  match node with
  | none => some (t, saw)
  | some i => some (setColor t i false, saw)

/-- Cases B, C and D of the `fixDelete` body (rbtree.go:298-343), entered
with a non-nil `sibling` `s` and the (re)assigned `parent` `p1`.  Result:
`(tree, node, parent, break?, sibling-nil-break?)`. -/
def fixDeleteTail (t : RBTree) (node : Option Nat) (p1 s : Nat) :
    Option (RBTree × Option Nat × Option Nat × Bool × Bool) :=
  if !isRed t (getN t s).left && !isRed t (getN t s).right then
    -- Case B: recolor the sibling, move the extra black to the parent
    let t1 := setColor t s true
    some (t1, some p1, (getN t1 p1).parent, false, false)
  else
    if (getN t p1).right = some s then
      -- maybe Case C (sibling on the right, far child black): rotate the sibling
      let step : Option (RBTree × Option Nat) :=
        if !isRed t (getN t s).right then
          let t1 := match (getN t s).left with
                    | some sl => setColor t sl false
                    | none => t
          let t2 := setColor t1 s true
          match rotateRight t2 s with
          | none => none
          | some t3 => some (t3, (getN t3 p1).right)
        else some (t, some s)
      match step with
      | none => none
      | some (t3, none) => some (t3, node, some p1, true, true)
      | some (t3, some s1) =>
        -- Case D: final rotation around the parent, then node = t.root
        let t4 := setColor t3 s1 (getN t3 p1).color
        let t5 := setColor t4 p1 false
        let t6 := match (getN t5 s1).right with
                  | some sr => setColor t5 sr false
                  | none => t5
        match rotateLeft t6 p1 with
        | none => none
        | some t7 => some (t7, t7.root, some p1, false, false)
    else
      -- mirror image, sibling on the left
      let step : Option (RBTree × Option Nat) :=
        if !isRed t (getN t s).left then
          let t1 := match (getN t s).right with
                    | some sr => setColor t sr false
                    | none => t
          let t2 := setColor t1 s true
          match rotateLeft t2 s with
          | none => none
          | some t3 => some (t3, (getN t3 p1).left)
        else some (t, some s)
      match step with
      | none => none
      | some (t3, none) => some (t3, node, some p1, true, true)
      | some (t3, some s1) =>
        let t4 := setColor t3 s1 (getN t3 p1).color
        let t5 := setColor t4 p1 false
        let t6 := match (getN t5 s1).left with
                  | some sl => setColor t5 sl false
                  | none => t5
        match rotateRight t6 p1 with
        | none => none
        | some t7 => some (t7, t7.root, some p1, false, false)

/-- One execution of the `fixDelete` loop body (rbtree.go:257-343).
Result `(tree, node, parent, break?, sibling-nil-break?)`; `none` is a
panic.  The three `break`s on a `nil` sibling (lines 280, 294, 313/332)
set the last flag; the `break`s on a `nil` parent (line 259) and a `nil`
`node.parent` (line 269) do not. -/
def fixDeleteStep (t : RBTree) (node parent : Option Nat) :
    Option (RBTree × Option Nat × Option Nat × Bool × Bool) :=
  match parent with
  | none => some (t, node, parent, true, false)
  | some p =>
    let sp : Option (Option Nat × Nat) :=
      match node with
      | none =>
        -- if parent.left == nil || parent.left == node (node is nil here)
        if (getN t p).left = none then some ((getN t p).right, p)
        else some ((getN t p).left, p)
      | some x =>
        match (getN t x).parent with
        | none => none
        | some xp =>
          if (getN t xp).left = some x then some ((getN t xp).right, xp)
          else some ((getN t xp).left, xp)
    match sp with
    | none => some (t, node, parent, true, false)
    | some (sib?, p1) =>
      match sib? with
      | none => some (t, node, parent, true, true)
      | some s0 =>
        if (getN t s0).color = true then
          -- Case A: red sibling
          let t1 := setColor t s0 false
          let t2 := setColor t1 p1 true
          if (getN t2 p1).right = some s0 then
            match rotateLeft t2 p1 with
            | none => none
            | some t3 =>
              match (getN t3 p1).right with
              | none => some (t3, node, some p1, true, true)
              | some s1 => fixDeleteTail t3 node p1 s1
          else
            match rotateRight t2 p1 with
            | none => none
            | some t3 =>
              match (getN t3 p1).left with
              | none => some (t3, node, some p1, true, true)
              | some s1 => fixDeleteTail t3 node p1 s1
        else fixDeleteTail t node p1 s0

/-- The loop of `fixDelete` (rbtree.go:256-344). -/
def fixDeleteGo (t : RBTree) (node parent : Option Nat) (saw : Bool) :
    Nat → Option (RBTree × Bool)
  | 0 => none
  | fuel+1 =>
    -- loop condition: (node != t.root) && (node == nil || node.color == Black)
    if t.root = node then fixDFinish t node saw
    else if isRed t node then fixDFinish t node saw
    else
      match fixDeleteStep t node parent with
      | none => none
      | some (t1, node1, parent1, brk, snil) =>
        if brk then fixDFinish t1 node1 (saw || snil)
        else fixDeleteGo t1 node1 parent1 (saw || snil) fuel

def fixDelete (t : RBTree) (node parent : Option Nat) : Option (RBTree × Bool) :=
  fixDeleteGo t node parent false (t.size + 3)

/-- `deleteNode` (rbtree.go:202-240), reporting the sibling-nil flag of
`fixDelete`.  Reads and writes follow the Go statement order; `child` and
`childParent` are captured before any mutation, exactly as in the source. -/
def deleteNode (t : RBTree) (x : Nat) : Option (RBTree × Bool) :=
  match (getN t x).left with
  | none =>
    let t1 := transplant t x (getN t x).right
    if (getN t x).color = false then fixDelete t1 (getN t x).right (getN t x).parent
    else some (t1, false)
  | some xl =>
    match (getN t x).right with
    | none =>
      let t1 := transplant t x (some xl)
      if (getN t x).color = false then fixDelete t1 (some xl) (getN t x).parent
      else some (t1, false)
    | some xr =>
      match minimumGo t (t.size + 1) xr with
      | none => none
      | some s =>
        let origColor := (getN t s).color
        let child := (getN t s).right
        let childParent := (getN t s).parent
        let t1? : Option RBTree :=
          if (getN t s).parent = some x then
            match child with
            | some c => some (setParent t c (some s))
            | none => some t
          else
            let ta := transplant t s (getN t s).right
            let tb := setRight ta s (getN ta x).right
            match (getN tb s).right with
            | none => none
            | some sr => some (setParent tb sr (some s))
        match t1? with
        | none => none
        | some t1 =>
          let t2 := transplant t1 x (some s)
          let t3 := setLeft t2 s (getN t2 x).left
          match (getN t3 s).left with
          | none => none
          | some sl =>
            let t4 := setParent t3 sl (some s)
            let t5 := setColor t4 s (getN t4 x).color
            if origColor = false then fixDelete t5 child childParent
            else some (t5, false)

/-- `Delete` (rbtree.go:190-200) with the sibling-nil flag. -/
def DeleteI (t : RBTree) (k : Int) : Option (RBTree × Bool) :=
  match searchNoLock t k with
  | none => none
  | some none => some (t, false)
  | some (some i) => deleteNode t i

def Delete (t : RBTree) (k : Int) : Option RBTree := (DeleteI t k).map Prod.fst

/-- The tree together with the `threadSafe` flag of the Go struct.  The
`sync.RWMutex` has no observable single-threaded state. -/
structure LockedRBTree where
  tree : RBTree
  threadSafe : Bool

/-- `NewRBTree(threadSafe)`. -/
def NewRBTree (b : Bool) : LockedRBTree := ⟨emptyTree, b⟩

/-- `Search` (rbtree.go:167-173): take the read lock when `threadSafe`,
then delegate to `searchNoLock`.  Lock and unlock are no-ops on the
single-threaded state, so both branches delegate identically. -/
def WSearch (l : LockedRBTree) (k : Int) : Option (Option Nat) :=
  if l.threadSafe then searchNoLock l.tree k else searchNoLock l.tree k

/-- The locking wrapper of `Insert` (rbtree.go:41-44). -/
def WInsert (l : LockedRBTree) (k v : Int) : Option LockedRBTree :=
  if l.threadSafe then (InsertRB l.tree k v).map (fun c => ⟨c, l.threadSafe⟩)
  else (InsertRB l.tree k v).map (fun c => ⟨c, l.threadSafe⟩)

/-- The locking wrapper of `Delete` (rbtree.go:191-194). -/
def WDelete (l : LockedRBTree) (k : Int) : Option LockedRBTree :=
  if l.threadSafe then (Delete l.tree k).map (fun c => ⟨c, l.threadSafe⟩)
  else (Delete l.tree k).map (fun c => ⟨c, l.threadSafe⟩)

/-- A public operation on the tree. -/
inductive TreeOp where
  | ins (k v : Int)
  | del (k : Int)
deriving DecidableEq

/-- Run a sequence of operations on the core engine. -/
def runOps (t : RBTree) : List TreeOp → Option RBTree
  | [] => some t
  | .ins k v :: rest =>
    match InsertRB t k v with
    | none => none
    | some t1 => runOps t1 rest
  | .del k :: rest =>
    match Delete t k with
    | none => none
    | some t1 => runOps t1 rest

/-- Run a sequence of operations through the concurrency wrapper. -/
def runWOps (l : LockedRBTree) : List TreeOp → Option LockedRBTree
  | [] => some l
  | .ins k v :: rest =>
    match WInsert l k v with
    | none => none
    | some l1 => runWOps l1 rest
  | .del k :: rest =>
    match WDelete l k with
    | none => none
    | some l1 => runWOps l1 rest

/-- The shape of the node graph reachable from a pointer, extracted by
following `left`/`right`; each vertex carries its arena index. -/
inductive BT where
  | nil : BT
  | node : BT → Nat → BT → BT
deriving DecidableEq

/-- Extract the reachable structure; `none` when the fuel runs out, i.e.
when the child graph is deeper than the fuel (in particular on a cycle). -/
def toBT (t : RBTree) : Nat → Option Nat → Option BT
  | _, none => some .nil
  | 0, some _ => none
  | fuel+1, some i =>
    match toBT t fuel (getN t i).left, toBT t fuel (getN t i).right with
    | some l, some r => some (.node l i r)
    | _, _ => none

/-- In-order list of arena indexes. -/
def idxs : BT → List Nat
  | .nil => []
  | .node l i r => idxs l ++ i :: idxs r

/-- In-order list of keys. -/
def keysB (t : RBTree) (b : BT) : List Int := (idxs b).map fun i => (getN t i).key

/-- Every node's `parent` field points at its structural parent
(`p?` is the parent of the subtree's top). -/
def parentOkB (t : RBTree) : BT → Option Nat → Bool
  | .nil, _ => true
  | .node l i r, p? =>
    decide ((getN t i).parent = p?) && parentOkB t l (some i) && parentOkB t r (some i)

/-- Color of the top of a subtree; a `nil` leaf counts as Black. -/
def colorB (t : RBTree) : BT → Bool
  | .nil => false
  | .node _ i _ => (getN t i).color

/-- No Red node has a Red child. -/
def noRedRedB (t : RBTree) : BT → Bool
  | .nil => true
  | .node l i r =>
    (!((getN t i).color && (colorB t l || colorB t r))) && noRedRedB t l && noRedRedB t r

/-- Black height when all root-to-leaf paths agree, `none` otherwise. -/
def bhB (t : RBTree) : BT → Option Nat
  | .nil => some 1
  | .node l i r =>
    match bhB t l, bhB t r with
    | some a, some b =>
      if a = b then some (a + (if (getN t i).color then 0 else 1)) else none
    | _, _ => none

def strictAsc : List Int → Bool
  | [] => true
  | [_] => true
  | a :: b :: rest => decide (a < b) && strictAsc (b :: rest)

/-- All Red-Black invariants of the specification, decided on the reachable
structure: the structure is a finite tree of arena-allocated nodes with
consistent parent pointers and no sharing, the root (if any) is Black, no
Red node has a Red child, all paths have the same Black count, and the
in-order key sequence is strictly ascending. -/
def validRB (t : RBTree) : Bool :=
  match toBT t (t.size + 1) t.root with
  | none => false
  | some b =>
    (match t.root with | none => true | some r => !(getN t r).color)
    && parentOkB t b none
    && decide (idxs b).Nodup
    && (idxs b).all (fun i => decide (i < t.size))
    && noRedRedB t b
    && (bhB t b).isSome
    && strictAsc (keysB t b)

/-- Whether `Search` finds the key (the second Go return value). -/
def searchFound (t : RBTree) (k : Int) : Bool :=
  match searchNoLock t k with
  | some (some _) => true
  | _ => false

/-- In-order key list of the reachable structure (empty on extraction
failure). -/
def treeKeys (t : RBTree) : List Int :=
  match toBT t (t.size + 1) t.root with
  | some b => keysB t b
  | none => []

/-- The tree of spec scenario 1: Insert 5,3,7,1,9. -/
def tree5 : RBTree :=
  (runOps emptyTree [.ins 5 50, .ins 3 30, .ins 7 70, .ins 1 10, .ins 9 90]).getD emptyTree

/-- `[lo, lo+1, ..., lo+n-1]` as integers. -/
def intRange (lo : Int) (n : Nat) : List Int :=
  (List.range n).map fun (j : Nat) => lo + (j : Int)

/-- An abstract colored binary search tree, used to enumerate all small
Red-Black trees. -/
inductive KT where
  | nil : KT
  | node : KT → Int → Bool → KT → KT
deriving DecidableEq

/-- In-order keys of a `KT`. -/
def ktKeys : KT → List Int
  | .nil => []
  | .node l k _ r => ktKeys l ++ k :: ktKeys r

/-- Allocate a `KT` into arena assignments: returns the assignment list, the
subtree root index and the next free index. -/
def ktAlloc : KT → Nat → Option Nat → (List (Nat × RBNode) × Option Nat × Nat)
  | .nil, n, _ => ([], none, n)
  | .node l k c r, n, par =>
    let i := n
    let (al, li, n1) := ktAlloc l (n+1) (some i)
    let (ar, ri, n2) := ktAlloc r n1 (some i)
    ((i, ⟨k, k, c, li, ri, par⟩) :: (al ++ ar), some i, n2)

def applyAssign : List (Nat × RBNode) → (Nat → RBNode) → (Nat → RBNode)
  | [], f => f
  | (i, nd) :: rest, f => applyAssign rest (upd f i nd)

/-- The canonical arena layout of an abstract tree. -/
def mkArena (kt : KT) : RBTree :=
  let r := ktAlloc kt 0 none
  ⟨applyAssign r.1 (fun _ => default), r.2.2, r.2.1⟩

/-- Fueled enumeration of all colored binary search trees whose in-order
keys are exactly `intRange lo n`; complete whenever `n ≤ fuel`. -/
def genKTF : Nat → Int → Nat → List KT
  | _, _, 0 => [.nil]
  | 0, _, _+1 => []
  | fuel+1, lo, n+1 =>
    (List.range (n+1)).flatMap fun i =>
      (genKTF fuel lo i).flatMap fun l =>
        (genKTF fuel (lo + i + 1) (n - i)).flatMap fun r =>
          [KT.node l (lo + i) false r, KT.node l (lo + i) true r]

/-- All colored binary search trees whose in-order keys are exactly
`intRange lo n`. -/
def genKT (lo : Int) (n : Nat) : List KT := genKTF n lo n

/-- `Delete` of `k` runs to completion with no sibling-nil defensive break. -/
def deleteNoBreak (t : RBTree) (k : Int) : Bool :=
  match DeleteI t k with
  | some (_, false) => true
  | _ => false

/-- `rank` strictly decreases along `parent` pointers inside the index set
`S`; walking up from any member of `S` therefore terminates. -/
def RankOK (t : RBTree) (S : List Nat) (rank : Nat → Nat) : Prop :=
  ∀ i ∈ S, ∀ p, (getN t i).parent = some p → p ∈ S ∧ rank p < rank i

/-- Every parentless member of `S` is the root.  (Together with `RankOK`
this pins down the walk upward from any member of `S`.) -/
def RootOK (t : RBTree) (S : List Nat) : Prop :=
  ∀ i ∈ S, (getN t i).parent = none → t.root = some i

/-- Every child pointer of a member of `S` stays in `S` and strictly
increases `rank` (children sit strictly below their parents). -/
def ChildOK (t : RBTree) (S : List Nat) (rank : Nat → Nat) : Prop :=
  ∀ i ∈ S, ∀ c, ((getN t i).left = some c ∨ (getN t i).right = some c) →
    c ∈ S ∧ rank i < rank c

/-- Every parent pointer of a member of `S` is mirrored by a child slot of
the parent (the upward link is matched by a downward link). -/
def UpOK (t : RBTree) (S : List Nat) : Prop :=
  ∀ i ∈ S, ∀ p, (getN t i).parent = some p →
    (getN t p).left = some i ∨ (getN t p).right = some i

/-- Termination measure of the `fixDelete` loop: the rank of the node the
loop climbs from (`+1` when the anchor is the `parent` argument). -/
def fixDMeasure (rank : Nat → Nat) : Option Nat → Option Nat → Nat
  | some x, _ => rank x
  | none, some p => rank p + 1
  | none, none => 0

/-- The arena index at the top of an extracted shape (the pointer it was
extracted from). -/
def topB : BT → Option Nat
  | .nil => none
  | .node _ i _ => some i

/-- Number of nodes of an extracted shape. -/
def sizeB : BT → Nat
  | .nil => 0
  | .node l _ r => sizeB l + sizeB r + 1

/-- Number of nodes reachable below arena index `i` (0 if the extraction
fails). -/
def subSize (t : RBTree) (i : Nat) : Nat :=
  match toBT t (t.size + 1) (some i) with
  | some b => sizeB b
  | none => 0

/-- In-order list of the arena indexes of the reachable structure. -/
def treeIdxs (t : RBTree) : List Nat :=
  match toBT t (t.size + 1) t.root with
  | some b => idxs b
  | none => []

/-- The binary search descent on an extracted shape: the reference point for
`searchGo`. -/
def searchBT (t : RBTree) : BT → Int → Option Nat
  | .nil, _ => none
  | .node l i r, k =>
    if k < (getN t i).key then searchBT t l k
    else if (getN t i).key < k then searchBT t r k
    else some i

/-- The well-formedness bundle used by the termination and safety proofs:
the reachable structure extracts to `b`, parent pointers are consistent,
nodes are unshared, and all reachable indexes are allocated. -/
def WFb (t : RBTree) (b : BT) : Prop :=
  toBT t (t.size + 1) t.root = some b ∧ parentOkB t b none = true ∧
  (idxs b).Nodup ∧ ∀ i ∈ idxs b, i < t.size

/-- Rank of an arena index (`size + 1` minus the reachable subtree size):
strictly decreases from child to parent inside a well-formed tree. -/
def rankOf (t : RBTree) (i : Nat) : Nat := t.size + 1 - subSize t i

/-- Rank certificate for the state after the two-children splice of
`deleteNode`: the successor `s` takes over the deleted node `x`'s rank. -/
def rankDel (t : RBTree) (s x j : Nat) : Nat :=
  if j = s then rankOf t x else rankOf t j

/-- Insert 1..6 then Delete 6: every state on the way satisfies `validRB`. -/
def seqA : List TreeOp :=
  [.ins 1 10, .ins 2 20, .ins 3 30, .ins 4 40, .ins 5 50, .ins 6 60, .del 6]

/-- Insert 3,1,4,2: builds the valid tree `3B{1B{-,2R}, 4B}`. -/
def seqB : List TreeOp := [.ins 3 30, .ins 1 10, .ins 4 40, .ins 2 20]

/-! ## Arena access lemmas -/

theorem getN_setColor (t : RBTree) (i : Nat) (c : Bool) (j : Nat) :
    getN (setColor t i c) j = if j = i then { getN t i with color := c } else getN t j := rfl

theorem getN_setValue (t : RBTree) (i : Nat) (v : Int) (j : Nat) :
    getN (setValue t i v) j = if j = i then { getN t i with value := v } else getN t j := rfl

theorem getN_setLeft (t : RBTree) (i : Nat) (x : Option Nat) (j : Nat) :
    getN (setLeft t i x) j = if j = i then { getN t i with left := x } else getN t j := rfl

theorem getN_setRight (t : RBTree) (i : Nat) (x : Option Nat) (j : Nat) :
    getN (setRight t i x) j = if j = i then { getN t i with right := x } else getN t j := rfl

theorem getN_setParent (t : RBTree) (i : Nat) (x : Option Nat) (j : Nat) :
    getN (setParent t i x) j = if j = i then { getN t i with parent := x } else getN t j := rfl

theorem getN_setRoot (t : RBTree) (x : Option Nat) (j : Nat) :
    getN (setRoot t x) j = getN t j := rfl

theorem root_setColor (t : RBTree) (i : Nat) (c : Bool) : (setColor t i c).root = t.root := rfl
theorem root_setValue (t : RBTree) (i : Nat) (v : Int) : (setValue t i v).root = t.root := rfl
theorem root_setLeft (t : RBTree) (i : Nat) (x : Option Nat) : (setLeft t i x).root = t.root := rfl
theorem root_setRight (t : RBTree) (i : Nat) (x : Option Nat) : (setRight t i x).root = t.root := rfl
theorem root_setParent (t : RBTree) (i : Nat) (x : Option Nat) : (setParent t i x).root = t.root := rfl
theorem root_setRoot (t : RBTree) (x : Option Nat) : (setRoot t x).root = x := rfl

theorem size_setColor (t : RBTree) (i : Nat) (c : Bool) : (setColor t i c).size = t.size := rfl
theorem size_setValue (t : RBTree) (i : Nat) (v : Int) : (setValue t i v).size = t.size := rfl
theorem size_setLeft (t : RBTree) (i : Nat) (x : Option Nat) : (setLeft t i x).size = t.size := rfl
theorem size_setRight (t : RBTree) (i : Nat) (x : Option Nat) : (setRight t i x).size = t.size := rfl
theorem size_setParent (t : RBTree) (i : Nat) (x : Option Nat) : (setParent t i x).size = t.size := rfl
theorem size_setRoot (t : RBTree) (x : Option Nat) : (setRoot t x).size = t.size := rfl

/-! ## C6: Delete of an absent key -/

/-- C6: for every tree and every key `k` the initial search reports absent
(`searchNoLock` returns "not found"), `Delete` returns normally and the
resulting state is exactly the input state: no node and no link changed. -/
theorem C6_delete_absent_noop (t : RBTree) (k : Int)
    (h : searchNoLock t k = some none) : Delete t k = some t := by
  unfold Delete DeleteI
  rw [h]
  rfl

/-- C6 witness: on the populated `tree5` (keys 5,3,7,1,9), deleting the
absent key 4 is a no-op. -/
theorem C6_delete_absent_noop_witness :
    searchNoLock tree5 4 = some none ∧ Delete tree5 4 = some tree5 :=
  ⟨by decide, C6_delete_absent_noop tree5 4 (by decide)⟩

/-! ## C9: the concurrency wrapper adds no behavior -/

theorem WSearch_eq (l : LockedRBTree) (k : Int) : WSearch l k = searchNoLock l.tree k := by
  unfold WSearch; exact ite_self _

theorem WInsert_eq (l : LockedRBTree) (k v : Int) :
    WInsert l k v = (InsertRB l.tree k v).map (fun c => ⟨c, l.threadSafe⟩) := by
  unfold WInsert; exact ite_self _

theorem WDelete_eq (l : LockedRBTree) (k : Int) :
    WDelete l k = (Delete l.tree k).map (fun c => ⟨c, l.threadSafe⟩) := by
  unfold WDelete; exact ite_self _

theorem runWOps_tree (ops : List TreeOp) : ∀ (t : RBTree) (b : Bool),
    (runWOps ⟨t, b⟩ ops).map LockedRBTree.tree = runOps t ops := by
  induction ops with
  | nil => intro t b; rfl
  | cons op rest ih =>
    intro t b
    cases op with
    | ins k v =>
      show (match WInsert ⟨t, b⟩ k v with
            | none => none
            | some l1 => runWOps l1 rest).map LockedRBTree.tree
          = (match InsertRB t k v with
            | none => none
            | some t1 => runOps t1 rest)
      rw [WInsert_eq]
      cases InsertRB t k v with
      | none => rfl
      | some t1 => exact ih t1 b
    | del k =>
      show (match WDelete ⟨t, b⟩ k with
            | none => none
            | some l1 => runWOps l1 rest).map LockedRBTree.tree
          = (match Delete t k with
            | none => none
            | some t1 => runOps t1 rest)
      rw [WDelete_eq]
      cases Delete t k with
      | none => rfl
      | some t1 => exact ih t1 b

/-- C9: in single-threaded use, a tree created with `threadSafe = true` and
one with `threadSafe = false` compute identical results on every operation
sequence: the core state after any sequence equals the core engine run
(`runOps`) in both modes, and every subsequent `Search` answers the same,
because the wrapper only wraps the lock around the identical delegation. -/
theorem C9_wrapper_equivalence (t : RBTree) (ops : List TreeOp) :
    (runWOps ⟨t, true⟩ ops).map LockedRBTree.tree = runOps t ops ∧
    (runWOps ⟨t, false⟩ ops).map LockedRBTree.tree = runOps t ops ∧
    ∀ k, (runWOps ⟨t, true⟩ ops).map (fun l => WSearch l k)
       = (runWOps ⟨t, false⟩ ops).map (fun l => WSearch l k) := by
  refine ⟨runWOps_tree ops t true, runWOps_tree ops t false, fun k => ?_⟩
  have key : ∀ (o : Option LockedRBTree),
      o.map (fun l => WSearch l k)
        = (o.map LockedRBTree.tree).map (fun c => searchNoLock c k) := by
    intro o
    cases o with
    | none => rfl
    | some l => simp [WSearch_eq]
  rw [key, key, runWOps_tree ops t true, runWOps_tree ops t false]

/-! ## C4: inserting an existing key only overwrites the value -/

theorem searchGo_key (t : RBTree) (k : Int) :
    ∀ (f : Nat) (o : Option Nat) (i : Nat),
      searchGo t k f o = some (some i) → (getN t i).key = k := by
  intro f
  induction f with
  | zero =>
    intro o i h
    cases o with
    | none => simp [searchGo] at h
    | some c => simp [searchGo] at h
  | succ f ih =>
    intro o i h
    cases o with
    | none => simp [searchGo] at h
    | some c =>
      unfold searchGo at h
      split at h
      · exact ih _ i h
      · split at h
        · exact ih _ i h
        · simp only [Option.some.injEq] at h
          subst h
          omega

theorem insertLoop_of_search (t : RBTree) (k : Int) :
    ∀ (f : Nat) (c : Nat) (i : Nat),
      searchGo t k f (some c) = some (some i) → insertLoop t k f c = some (Sum.inl i) := by
  intro f
  induction f with
  | zero => intro c i h; simp [searchGo] at h
  | succ f ih =>
    intro c i h
    unfold searchGo at h
    unfold insertLoop
    split at h
    · rename_i hlt
      rw [if_pos hlt]
      cases hL : (getN t c).left with
      | none => rw [hL] at h; simp [searchGo] at h
      | some l => rw [hL] at h; exact ih l i h
    · rename_i hlt
      rw [if_neg hlt]
      split at h
      · rename_i hgt
        rw [if_pos hgt]
        cases hR : (getN t c).right with
        | none => rw [hR] at h; simp [searchGo] at h
        | some r => rw [hR] at h; exact ih r i h
      · rename_i hgt
        rw [if_neg hgt]
        simp only [Option.some.injEq] at h
        rw [h]

theorem searchGo_setValue (t : RBTree) (iv : Nat) (v : Int) (k : Int) :
    ∀ (f : Nat) (o : Option Nat), searchGo (setValue t iv v) k f o = searchGo t k f o := by
  intro f
  induction f with
  | zero => intro o; cases o <;> rfl
  | succ f ih =>
    intro o
    cases o with
    | none => rfl
    | some c =>
      have hk : (getN (setValue t iv v) c).key = (getN t c).key := by
        rw [getN_setValue]
        split
        · rename_i hc; subst hc; rfl
        · rfl
      have hl : (getN (setValue t iv v) c).left = (getN t c).left := by
        rw [getN_setValue]
        split
        · rename_i hc; subst hc; rfl
        · rfl
      have hr : (getN (setValue t iv v) c).right = (getN t c).right := by
        rw [getN_setValue]
        split
        · rename_i hc; subst hc; rfl
        · rfl
      unfold searchGo
      rw [hk, hl, hr, ih, ih]

/-- C4: if key `k` is already present at node `i`, `Insert k v` returns
exactly `setValue t i v`: the arena is unchanged except for the value field
of node `i` (shape, colors, links, all other nodes, the root and the node
count are untouched, and no fixup or rotation ran, since the result is the
bare field update), and a subsequent `Search` finds `v` at the same node. -/
theorem C4_insert_existing (t : RBTree) (k v : Int) (i : Nat)
    (h : searchNoLock t k = some (some i)) :
    InsertRB t k v = some (setValue t i v) ∧
    (setValue t i v).root = t.root ∧
    (setValue t i v).size = t.size ∧
    (∀ j, j ≠ i → getN (setValue t i v) j = getN t j) ∧
    getN (setValue t i v) i = { getN t i with value := v } ∧
    (getN t i).key = k ∧
    searchNoLock (setValue t i v) k = some (some i) ∧
    (getN (setValue t i v) i).value = v := by
  have hroot : ∃ r, t.root = some r := by
    cases hr : t.root with
    | none => unfold searchNoLock at h; rw [hr] at h; simp [searchGo] at h
    | some r => exact ⟨r, rfl⟩
  obtain ⟨r, hr⟩ := hroot
  unfold searchNoLock at h
  rw [hr] at h
  have hloop := insertLoop_of_search t k (t.size + 1) r i h
  constructor
  · simp only [InsertRB, InsertI, hr, hloop]
    rfl
  refine ⟨rfl, rfl, ?_, ?_, searchGo_key t k _ _ i h, ?_, ?_⟩
  · intro j hj
    rw [getN_setValue, if_neg hj]
  · rw [getN_setValue, if_pos rfl]
  · show searchGo (setValue t i v) k ((setValue t i v).size + 1) (setValue t i v).root = _
    rw [size_setValue, root_setValue, searchGo_setValue, hr]
    exact h
  · rw [getN_setValue, if_pos rfl]

/-- C4 witness: `tree5` holds key 3 (with value 30) at arena index 1;
inserting `(3, 99)` yields exactly `setValue tree5 1 99`. -/
theorem C4_insert_existing_witness :
    searchNoLock tree5 3 = some (some 1) ∧
    (InsertRB tree5 3 99 = some (setValue tree5 1 99) ∧
     (setValue tree5 1 99).root = tree5.root ∧
     (setValue tree5 1 99).size = tree5.size ∧
     (∀ j, j ≠ 1 → getN (setValue tree5 1 99) j = getN tree5 j) ∧
     getN (setValue tree5 1 99) 1 = { getN tree5 1 with value := 99 } ∧
     (getN tree5 1).key = 3 ∧
     searchNoLock (setValue tree5 1 99) 3 = some (some 1) ∧
     (getN (setValue tree5 1 99) 1).value = 99) :=
  ⟨by decide, C4_insert_existing tree5 3 99 1 (by decide)⟩

/-! ## C1, C2, C5: the `childParent = successor.parent` defect of `deleteNode`

When a node with two children is deleted and its in-order successor is its
direct right child with no right child of its own, `deleteNode` passes the
*deleted node itself* as the `parent` anchor to `fixDelete`
(`childParent := successor.parent = node`), so the fixup recolors and
rotates around a node that is no longer in the tree. -/

/-- C1: the Red-Black invariants are *not* preserved by every
Insert/Delete sequence from the empty tree: after `Insert 1..6; Delete 6`
every intermediate state satisfies `validRB`, but the next operation
`Delete 4` leaves a state violating the invariants (the node with key 5
stays Red with a Red child 3, and the Black counts of the two sides of the
root differ). -/
theorem C1_invariants_broken :
    (List.range 8).all
      (fun n => (runOps emptyTree (seqA.take n)).map validRB == some true) = true ∧
    (runOps emptyTree (seqA ++ [.del 4])).map validRB = some false :=
  ⟨by decide, by decide⟩

/-- C2: deleting a two-children node from a tree satisfying all invariants
does not behave as specified: on the valid tree built by `Insert 3,1,4,2`
(`3B{1B{-,2R},4B}`), `Delete 3` (key 3 has two children; its successor 4 is
its right child, Black, with no child) leaves key 3 still reachable by
`Search`, and the result violates `validRB` — instead of replacing node 3's
position by successor 4 and removing 4's former position. -/
theorem C2_two_children_delete_bug :
    (runOps emptyTree seqB).map validRB = some true ∧
    ((runOps emptyTree seqB).bind (fun t => Delete t 3)).map
        (fun u => (searchFound u 3, validRB u)) = some (true, false) :=
  ⟨by decide, by decide⟩

/-- C5: Insert-then-Delete of the same key is not search-equivalent to the
original tree: on the valid tree `T` built by `Insert 3,1,4,2`, the pair
`Insert (3, 99); Delete 3` leaves key 3 still found by `Search`, although
the claim requires `k` to be absent afterwards. -/
theorem C5_round_trip_bug :
    (runOps emptyTree seqB).map validRB = some true ∧
    (((runOps emptyTree seqB).bind (fun t => InsertRB t 3 99)).bind
        (fun t => Delete t 3)).map (fun u => searchFound u 3) = some true :=
  ⟨by decide, by decide⟩

/-! ## C3: the sibling-nil defensive breaks -/

/-- C3 counterexample: the defensive `sibling == nil` early exit *is*
executed on a reachable state: `Insert 3,1,4,2; Delete 3` reaches a
(corrupted) state from the empty tree, and on it `Delete 3` runs the
`sibling == nil` break at the top of the fixup loop (flag `true`). -/
theorem C3_sibling_nil_break_reachable :
    ((runOps emptyTree (seqB ++ [.del 3])).bind (fun t => DeleteI t 3)).map
        Prod.snd = some true := by decide

theorem intRange_succ (lo : Int) (n : Nat) :
    intRange lo (n+1) = lo :: intRange (lo + 1) n := by
  unfold intRange
  rw [List.range_succ_eq_map]
  simp only [List.map_cons, List.map_map, Nat.cast_zero, add_zero]
  refine congrArg (lo :: ·) (List.map_congr_left ?_)
  intro j hj
  simp only [Function.comp_apply]
  push_cast
  ring

theorem intRange_split : ∀ (A : List Int) (lo : Int) (n : Nat) (k : Int) (B : List Int),
    A ++ k :: B = intRange lo n →
    A = intRange lo A.length ∧ k = lo + (A.length : Int) ∧
    B = intRange (lo + (A.length : Int) + 1) (n - A.length - 1) ∧ A.length < n := by
  intro A
  induction A with
  | nil =>
    intro lo n k B h
    cases n with
    | zero => simp [intRange] at h
    | succ m =>
      rw [intRange_succ] at h
      simp only [List.nil_append, List.cons.injEq] at h
      obtain ⟨hk, hB⟩ := h
      refine ⟨rfl, ?_, ?_, ?_⟩
      · rw [show ((List.length ([] : List Int)) : Int) = 0 from rfl, add_zero]
        exact hk
      · rw [show ((List.length ([] : List Int)) : Int) = 0 from rfl]
        rw [show lo + 0 + 1 = lo + 1 from by ring]
        rw [show m + 1 - List.length ([] : List Int) - 1 = m from by simp]
        exact hB
      · show 0 < m + 1
        omega
  | cons a A ih =>
    intro lo n k B h
    cases n with
    | zero => simp [intRange] at h
    | succ m =>
      rw [intRange_succ] at h
      simp only [List.cons_append, List.cons.injEq] at h
      obtain ⟨ha, htail⟩ := h
      obtain ⟨hA, hk, hB, hlen⟩ := ih (lo+1) m k B htail
      subst ha
      refine ⟨?_, ?_, ?_, ?_⟩
      · rw [List.length_cons, intRange_succ]
        exact congrArg (a :: ·) hA
      · rw [List.length_cons]; push_cast; omega
      · rw [List.length_cons]
        have h1 : a + ((A.length + 1 : Nat) : Int) + 1 = a + 1 + (A.length : Int) + 1 := by
          push_cast; ring
        have h2 : m + 1 - (A.length + 1) - 1 = m - A.length - 1 := by omega
        rw [h1, h2]
        exact hB
      · rw [List.length_cons]; omega

theorem genKTF_complete : ∀ (kt : KT) (fuel : Nat) (lo : Int) (n : Nat),
    n ≤ fuel → ktKeys kt = intRange lo n → kt ∈ genKTF fuel lo n := by
  intro kt
  induction kt with
  | nil =>
    intro fuel lo n hf hk
    have hn : n = 0 := by
      have hlen := congrArg List.length hk
      simp only [ktKeys, List.length_nil, intRange, List.length_map, List.length_range] at hlen
      omega
    subst hn
    cases fuel <;> simp [genKTF]
  | node l k c r ihl ihr =>
    intro fuel lo n hf hk
    rw [ktKeys] at hk
    obtain ⟨hA, hkk, hB, hlen⟩ := intRange_split (ktKeys l) lo n k (ktKeys r) hk
    cases n with
    | zero => omega
    | succ m =>
      cases fuel with
      | zero => omega
      | succ fu =>
        show _ ∈ genKTF (fu+1) lo (m+1)
        unfold genKTF
        rw [List.mem_flatMap]
        refine ⟨(ktKeys l).length, by rw [List.mem_range]; omega, ?_⟩
        rw [List.mem_flatMap]
        refine ⟨l, ihl fu lo (ktKeys l).length (by omega) hA, ?_⟩
        rw [List.mem_flatMap]
        refine ⟨r, ihr fu (lo + ((ktKeys l).length : Int) + 1) (m - (ktKeys l).length)
          (by omega) ?_, ?_⟩
        · have h2 : m + 1 - (ktKeys l).length - 1 = m - (ktKeys l).length := by omega
          rw [← h2]
          exact hB
        · cases c <;> simp [hkk]

theorem genKT_complete (kt : KT) (lo : Int) (n : Nat) (hk : ktKeys kt = intRange lo n) :
    kt ∈ genKT lo n :=
  genKTF_complete kt n lo n le_rfl hk

theorem c3_of_all (L : List KT) (ks : List Int) (kt : KT) (k : Int)
    (hall : L.all
      (fun kt => !validRB (mkArena kt) || ks.all (fun k => deleteNoBreak (mkArena kt) k)) = true)
    (hmem : kt ∈ L) (hv : validRB (mkArena kt) = true) (hkm : k ∈ ks) :
    deleteNoBreak (mkArena kt) k = true := by
  rw [List.all_eq_true] at hall
  have h2 := hall kt hmem
  rw [hv] at h2
  simp only [Bool.not_true, Bool.false_or] at h2
  rw [List.all_eq_true] at h2
  exact h2 k hkm

theorem c3_check1 : (genKT 1 1).all
    (fun kt => !validRB (mkArena kt) ||
      (intRange 1 1).all (fun k => deleteNoBreak (mkArena kt) k)) = true := by decide

theorem c3_check2 : (genKT 1 2).all
    (fun kt => !validRB (mkArena kt) ||
      (intRange 1 2).all (fun k => deleteNoBreak (mkArena kt) k)) = true := by decide

theorem c3_check3 : (genKT 1 3).all
    (fun kt => !validRB (mkArena kt) ||
      (intRange 1 3).all (fun k => deleteNoBreak (mkArena kt) k)) = true := by decide

theorem c3_check4 : (genKT 1 4).all
    (fun kt => !validRB (mkArena kt) ||
      (intRange 1 4).all (fun k => deleteNoBreak (mkArena kt) k)) = true := by decide

set_option maxRecDepth 4000 in
set_option maxHeartbeats 8000000 in
theorem c3_check5 : (genKT 1 5).all
    (fun kt => !validRB (mkArena kt) ||
      (intRange 1 5).all (fun k => deleteNoBreak (mkArena kt) k)) = true := by decide

/-- Supporting bounded verification for the sibling-nil guards: on trees that
actually satisfy the Red-Black invariants the break was never observed; here
this is settled exhaustively for every valid tree whose keys are `1..n` with
`n ≤ 5` (canonically allocated): deleting any present key executes no
`sibling == nil` defensive break. -/
theorem C3_no_break_on_valid_small (kt : KT) (n : Nat) (hn : n ≤ 5)
    (hk : ktKeys kt = intRange 1 n) (hv : validRB (mkArena kt) = true)
    (k : Int) (hkm : k ∈ ktKeys kt) : deleteNoBreak (mkArena kt) k = true := by
  have hmem : kt ∈ genKT 1 n := genKT_complete kt 1 n hk
  rw [hk] at hkm
  interval_cases n
  · simp [intRange] at hkm
  · exact c3_of_all _ _ kt k c3_check1 hmem hv hkm
  · exact c3_of_all _ _ kt k c3_check2 hmem hv hkm
  · exact c3_of_all _ _ kt k c3_check3 hmem hv hkm
  · exact c3_of_all _ _ kt k c3_check4 hmem hv hkm
  · exact c3_of_all _ _ kt k c3_check5 hmem hv hkm

/-- Instance of the bounded no-break result: the valid two-node tree
`1B{-,2R}` with `Delete 1`. -/
theorem C3_no_break_on_valid_small_witness :
    (2 ≤ 5 ∧ ktKeys (KT.node .nil 1 false (KT.node .nil 2 true .nil)) = intRange 1 2 ∧
     validRB (mkArena (KT.node .nil 1 false (KT.node .nil 2 true .nil))) = true ∧
     (1 : Int) ∈ ktKeys (KT.node .nil 1 false (KT.node .nil 2 true .nil))) ∧
    deleteNoBreak (mkArena (KT.node .nil 1 false (KT.node .nil 2 true .nil))) 1 = true :=
  ⟨⟨by omega, by decide, by decide, by decide⟩,
   C3_no_break_on_valid_small _ 2 (by omega) (by decide) (by decide) 1 (by decide)⟩

/-! ## C7: Search is a correct, effect-free binary-search descent -/

theorem searchGo_toBT (t : RBTree) (k : Int) :
    ∀ (f : Nat) (o : Option Nat) (b : BT), toBT t f o = some b →
      searchGo t k f o = some (searchBT t b k) := by
  intro f
  induction f with
  | zero =>
    intro o b hb
    cases o with
    | none => cases hb; rfl
    | some i => simp [toBT] at hb
  | succ f ih =>
    intro o b hb
    cases o with
    | none => cases hb; rfl
    | some i =>
      unfold toBT at hb
      cases hL : toBT t f (getN t i).left with
      | none => rw [hL] at hb; cases hR : toBT t f (getN t i).right <;> rw [hR] at hb <;> simp at hb
      | some bl =>
        cases hR : toBT t f (getN t i).right with
        | none => rw [hL, hR] at hb; simp at hb
        | some br =>
          rw [hL, hR] at hb
          simp only [Option.some.injEq] at hb
          subst hb
          unfold searchGo searchBT
          split
          · exact ih _ bl hL
          · split
            · exact ih _ br hR
            · rfl

theorem searchBT_found (t : RBTree) (k : Int) :
    ∀ (b : BT) (i : Nat), searchBT t b k = some i →
      i ∈ idxs b ∧ (getN t i).key = k := by
  intro b
  induction b with
  | nil => intro i h; simp [searchBT] at h
  | node l j r ihl ihr =>
    intro i h
    unfold searchBT at h
    split at h
    · obtain ⟨h1, h2⟩ := ihl i h
      refine ⟨?_, h2⟩
      simp only [idxs, List.mem_append, List.mem_cons]
      exact Or.inl h1
    · split at h
      · obtain ⟨h1, h2⟩ := ihr i h
        refine ⟨?_, h2⟩
        simp only [idxs, List.mem_append, List.mem_cons]
        exact Or.inr (Or.inr h1)
      · rename_i h1 h2
        simp only [Option.some.injEq] at h
        subst h
        refine ⟨?_, by omega⟩
        simp [idxs]

theorem strictAsc_chain : ∀ (l : List Int), strictAsc l = true ↔ List.Chain' (· < ·) l := by
  intro l
  induction l with
  | nil => simp [strictAsc]
  | cons a l ih =>
    cases l with
    | nil => simp [strictAsc]
    | cons b l2 =>
      rw [strictAsc, Bool.and_eq_true, decide_eq_true_eq, List.chain'_cons, ih]

theorem strictAsc_pairwise (l : List Int) (h : strictAsc l = true) :
    List.Pairwise (· < ·) l := by
  rw [strictAsc_chain] at h
  exact List.chain'_iff_pairwise.mp h

theorem keysB_node (t : RBTree) (l : BT) (j : Nat) (r : BT) :
    keysB t (.node l j r) = keysB t l ++ (getN t j).key :: keysB t r := by
  simp [keysB, idxs]

theorem searchBT_none (t : RBTree) (k : Int) :
    ∀ (b : BT), List.Pairwise (· < ·) (keysB t b) → searchBT t b k = none →
      k ∉ keysB t b := by
  intro b
  induction b with
  | nil => intro _ _; simp [keysB, idxs]
  | node l j r ihl ihr =>
    intro hp h hk
    rw [keysB_node] at hp hk
    rw [List.pairwise_append] at hp
    obtain ⟨hpl, hpr', hcross⟩ := hp
    rw [List.pairwise_cons] at hpr'
    obtain ⟨hjr, hpr⟩ := hpr'
    unfold searchBT at h
    split at h
    · rename_i hlt
      rcases List.mem_append.mp hk with hkl | hkjr
      · exact ihl hpl h hkl
      · rcases List.mem_cons.mp hkjr with heq | hkr
        · omega
        · have := hjr _ hkr
          omega
    · split at h
      · rename_i hlt hgt
        rcases List.mem_append.mp hk with hkl | hkjr
        · have := hcross _ hkl ((getN t j).key) (List.mem_cons_self _ _)
          omega
        · rcases List.mem_cons.mp hkjr with heq | hkr
          · omega
          · exact ihr hpr h hkr
      · simp at h

/-- C7: `Search` is a pure binary-search descent.  In the embedding the
search functions return only the answer and no tree, so they cannot mutate
any node or the root; this theorem settles the functional part: on an empty
tree the descent reports not-found, and on a tree satisfying the invariants
the answer is `none` exactly when the key is absent from the in-order key
list, and any found index is a tree node carrying exactly the searched key
(whose stored value is what Go returns). -/
theorem C7_search_correct (t : RBTree) (k : Int) (h : validRB t = true) :
    (t.root = none → searchNoLock t k = some none) ∧
    ∃ r, searchNoLock t k = some r ∧
      (r = none ↔ k ∉ treeKeys t) ∧
      (∀ i, r = some i → i ∈ treeIdxs t ∧ (getN t i).key = k) := by
  constructor
  · intro hr
    unfold searchNoLock
    rw [hr]
    rfl
  · unfold validRB at h
    cases hb : toBT t (t.size + 1) t.root with
    | none => rw [hb] at h; simp at h
    | some b =>
      rw [hb] at h
      have hasc : strictAsc (keysB t b) = true := by
        simp only [Bool.and_eq_true] at h
        tauto
      have hkeys : treeKeys t = keysB t b := by unfold treeKeys; rw [hb]
      have hidxs : treeIdxs t = idxs b := by unfold treeIdxs; rw [hb]
      refine ⟨searchBT t b k, searchGo_toBT t k _ _ b hb, ?_, ?_⟩
      · cases hs : searchBT t b k with
        | none =>
          simp only [true_iff]
          rw [hkeys]
          exact searchBT_none t k b (strictAsc_pairwise _ hasc) hs
        | some i =>
          obtain ⟨hm, hkey⟩ := searchBT_found t k b i hs
          constructor
          · intro hcontra
            exact absurd hcontra (Option.some_ne_none i)
          · intro hnot
            exfalso
            apply hnot
            rw [hkeys]
            exact List.mem_map.mpr ⟨i, hm, hkey⟩
      · intro i hi
        obtain ⟨hm, hkey⟩ := searchBT_found t k b i hi
        rw [hidxs]
        exact ⟨hm, hkey⟩

/-- C7 witness: searching 7 on the valid `tree5` (spec scenario 1). -/
theorem C7_search_correct_witness :
    validRB tree5 = true ∧
    ((tree5.root = none → searchNoLock tree5 7 = some none) ∧
     ∃ r, searchNoLock tree5 7 = some r ∧
       (r = none ↔ (7 : Int) ∉ treeKeys tree5) ∧
       (∀ i, r = some i → i ∈ treeIdxs tree5 ∧ (getN tree5 i).key = 7)) :=
  ⟨by decide, C7_search_correct tree5 7 (by decide)⟩

/-! ## Field preservation under the setters -/

theorem parent_setColor (t : RBTree) (i : Nat) (c : Bool) (j : Nat) :
    (getN (setColor t i c) j).parent = (getN t j).parent := by
  rw [getN_setColor]; split
  · rename_i h; subst h; rfl
  · rfl

theorem left_setColor (t : RBTree) (i : Nat) (c : Bool) (j : Nat) :
    (getN (setColor t i c) j).left = (getN t j).left := by
  rw [getN_setColor]; split
  · rename_i h; subst h; rfl
  · rfl

theorem right_setColor (t : RBTree) (i : Nat) (c : Bool) (j : Nat) :
    (getN (setColor t i c) j).right = (getN t j).right := by
  rw [getN_setColor]; split
  · rename_i h; subst h; rfl
  · rfl

theorem key_setColor (t : RBTree) (i : Nat) (c : Bool) (j : Nat) :
    (getN (setColor t i c) j).key = (getN t j).key := by
  rw [getN_setColor]; split
  · rename_i h; subst h; rfl
  · rfl

theorem color_setColor_self (t : RBTree) (i : Nat) (c : Bool) :
    (getN (setColor t i c) i).color = c := by
  rw [getN_setColor, if_pos rfl]

theorem color_setColor_other (t : RBTree) (i : Nat) (c : Bool) (j : Nat) (h : j ≠ i) :
    (getN (setColor t i c) j).color = (getN t j).color := by
  rw [getN_setColor, if_neg h]

theorem color_setLeft (t : RBTree) (i : Nat) (x : Option Nat) (j : Nat) :
    (getN (setLeft t i x) j).color = (getN t j).color := by
  rw [getN_setLeft]; split
  · rename_i h; subst h; rfl
  · rfl

theorem color_setRight (t : RBTree) (i : Nat) (x : Option Nat) (j : Nat) :
    (getN (setRight t i x) j).color = (getN t j).color := by
  rw [getN_setRight]; split
  · rename_i h; subst h; rfl
  · rfl

theorem color_setParent (t : RBTree) (i : Nat) (x : Option Nat) (j : Nat) :
    (getN (setParent t i x) j).color = (getN t j).color := by
  rw [getN_setParent]; split
  · rename_i h; subst h; rfl
  · rfl

theorem parent_setLeft (t : RBTree) (i : Nat) (x : Option Nat) (j : Nat) :
    (getN (setLeft t i x) j).parent = (getN t j).parent := by
  rw [getN_setLeft]; split
  · rename_i h; subst h; rfl
  · rfl

theorem parent_setRight (t : RBTree) (i : Nat) (x : Option Nat) (j : Nat) :
    (getN (setRight t i x) j).parent = (getN t j).parent := by
  rw [getN_setRight]; split
  · rename_i h; subst h; rfl
  · rfl

theorem parent_setParent_self (t : RBTree) (i : Nat) (x : Option Nat) :
    (getN (setParent t i x) i).parent = x := by
  rw [getN_setParent, if_pos rfl]

theorem parent_setParent_other (t : RBTree) (i : Nat) (x : Option Nat) (j : Nat) (h : j ≠ i) :
    (getN (setParent t i x) j).parent = (getN t j).parent := by
  rw [getN_setParent, if_neg h]

theorem left_setLeft_self (t : RBTree) (i : Nat) (x : Option Nat) :
    (getN (setLeft t i x) i).left = x := by
  rw [getN_setLeft, if_pos rfl]

theorem left_setLeft_other (t : RBTree) (i : Nat) (x : Option Nat) (j : Nat) (h : j ≠ i) :
    (getN (setLeft t i x) j).left = (getN t j).left := by
  rw [getN_setLeft, if_neg h]

theorem right_setRight_self (t : RBTree) (i : Nat) (x : Option Nat) :
    (getN (setRight t i x) i).right = x := by
  rw [getN_setRight, if_pos rfl]

theorem right_setRight_other (t : RBTree) (i : Nat) (x : Option Nat) (j : Nat) (h : j ≠ i) :
    (getN (setRight t i x) j).right = (getN t j).right := by
  rw [getN_setRight, if_neg h]

theorem left_setRight (t : RBTree) (i : Nat) (x : Option Nat) (j : Nat) :
    (getN (setRight t i x) j).left = (getN t j).left := by
  rw [getN_setRight]; split
  · rename_i h; subst h; rfl
  · rfl

theorem right_setLeft (t : RBTree) (i : Nat) (x : Option Nat) (j : Nat) :
    (getN (setLeft t i x) j).right = (getN t j).right := by
  rw [getN_setLeft]; split
  · rename_i h; subst h; rfl
  · rfl

theorem left_setParent (t : RBTree) (i : Nat) (x : Option Nat) (j : Nat) :
    (getN (setParent t i x) j).left = (getN t j).left := by
  rw [getN_setParent]; split
  · rename_i h; subst h; rfl
  · rfl

theorem right_setParent (t : RBTree) (i : Nat) (x : Option Nat) (j : Nat) :
    (getN (setParent t i x) j).right = (getN t j).right := by
  rw [getN_setParent]; split
  · rename_i h; subst h; rfl
  · rfl

theorem RankOK_setColor (t : RBTree) (i : Nat) (c : Bool) (S : List Nat) (rank : Nat → Nat)
    (h : RankOK t S rank) : RankOK (setColor t i c) S rank := by
  intro j hj p hp
  rw [parent_setColor] at hp
  exact h j hj p hp

theorem isRed_setColor_true (t : RBTree) (i : Nat) (j : Nat)
    (h : isRed t (some j) = true ∨ j = i) : isRed (setColor t i true) (some j) = true := by
  show (getN (setColor t i true) j).color = true
  by_cases hji : j = i
  · subst hji; exact color_setColor_self t j true
  · rw [color_setColor_other t i true j hji]
    rcases h with h | h
    · exact h
    · exact absurd h hji

/-! ## Extraction facts -/

theorem toBT_top (t : RBTree) :
    ∀ (f : Nat) (o : Option Nat) (b : BT), toBT t f o = some b → topB b = o := by
  intro f o b hb
  cases o with
  | none =>
    cases f with
    | zero => cases hb; rfl
    | succ f => cases hb; rfl
  | some i =>
    cases f with
    | zero => simp [toBT] at hb
    | succ f =>
      unfold toBT at hb
      cases hL : toBT t f (getN t i).left with
      | none => rw [hL] at hb; cases hR : toBT t f (getN t i).right <;> rw [hR] at hb <;> simp at hb
      | some bl =>
        cases hR : toBT t f (getN t i).right with
        | none => rw [hL, hR] at hb; simp at hb
        | some br =>
          rw [hL, hR] at hb
          simp only [Option.some.injEq] at hb
          subst hb
          rfl

theorem toBT_mono (t : RBTree) :
    ∀ (f : Nat) (o : Option Nat) (b : BT), toBT t f o = some b → toBT t (f+1) o = some b := by
  intro f
  induction f with
  | zero =>
    intro o b hb
    cases o with
    | none => cases hb; rfl
    | some i => simp [toBT] at hb
  | succ f ih =>
    intro o b hb
    cases o with
    | none => cases hb; rfl
    | some i =>
      unfold toBT at hb
      cases hL : toBT t f (getN t i).left with
      | none => rw [hL] at hb; cases hR : toBT t f (getN t i).right <;> rw [hR] at hb <;> simp at hb
      | some bl =>
        cases hR : toBT t f (getN t i).right with
        | none => rw [hL, hR] at hb; simp at hb
        | some br =>
          rw [hL, hR] at hb
          show toBT t (f+1+1) (some i) = some b
          unfold toBT
          rw [ih _ bl hL, ih _ br hR]
          exact hb

theorem toBT_le (t : RBTree) (f f2 : Nat) (h : f ≤ f2) :
    ∀ (o : Option Nat) (b : BT), toBT t f o = some b → toBT t f2 o = some b := by
  induction h with
  | refl => intro o b hb; exact hb
  | step h2 ih =>
    intro o b hb
    exact toBT_mono t _ o b (ih o b hb)

theorem toBT_unique (t : RBTree) :
    ∀ (f : Nat) (o : Option Nat) (b : BT), toBT t f o = some b →
      ∀ (f2 : Nat) (b2 : BT), toBT t f2 o = some b2 → b2 = b := by
  intro f
  induction f with
  | zero =>
    intro o b hb f2 b2 hb2
    cases o with
    | none =>
      cases hb
      cases f2 with
      | zero => cases hb2; rfl
      | succ f2 => cases hb2; rfl
    | some i => simp [toBT] at hb
  | succ f ih =>
    intro o b hb f2 b2 hb2
    cases o with
    | none =>
      cases hb
      cases f2 with
      | zero => cases hb2; rfl
      | succ f2 => cases hb2; rfl
    | some i =>
      cases f2 with
      | zero => simp [toBT] at hb2
      | succ f2 =>
        unfold toBT at hb hb2
        cases hL : toBT t f (getN t i).left with
        | none => rw [hL] at hb; cases hR : toBT t f (getN t i).right <;> rw [hR] at hb <;> simp at hb
        | some bl =>
          cases hR : toBT t f (getN t i).right with
          | none => rw [hL, hR] at hb; simp at hb
          | some br =>
            rw [hL, hR] at hb
            cases hL2 : toBT t f2 (getN t i).left with
            | none =>
              rw [hL2] at hb2
              cases hR2 : toBT t f2 (getN t i).right <;> rw [hR2] at hb2 <;> simp at hb2
            | some bl2 =>
              cases hR2 : toBT t f2 (getN t i).right with
              | none => rw [hL2, hR2] at hb2; simp at hb2
              | some br2 =>
                rw [hL2, hR2] at hb2
                simp only [Option.some.injEq] at hb hb2
                subst hb
                subst hb2
                rw [ih _ bl hL f2 bl2 hL2, ih _ br hR f2 br2 hR2]

theorem sizeB_eq_length : ∀ (b : BT), sizeB b = (idxs b).length := by
  intro b
  induction b with
  | nil => rfl
  | node l i r ihl ihr =>
    simp only [sizeB, idxs, List.length_append, List.length_cons, ihl, ihr]
    omega

/-- Central structural lemma: every reachable index has its own successful
extraction (with in-order indexes a sublist of the whole), and is either the
top (with the ambient parent pointer) or the left/right child of another
reachable index that its `parent` field points back to. -/
theorem wf_edges (t : RBTree) :
    ∀ (f : Nat) (o : Option Nat) (b : BT) (p0 : Option Nat),
      toBT t f o = some b → parentOkB t b p0 = true →
      ∀ x ∈ idxs b,
        (∃ bx, toBT t f (some x) = some bx ∧ (idxs bx).Sublist (idxs b)) ∧
        (((getN t x).parent = p0 ∧ topB b = some x) ∨
          (∃ p, (getN t x).parent = some p ∧ p ∈ idxs b ∧
            ((getN t p).left = some x ∨ (getN t p).right = some x))) := by
  intro f
  induction f with
  | zero =>
    intro o b p0 hb hp x hx
    cases o with
    | none => cases hb; simp [idxs] at hx
    | some i => simp [toBT] at hb
  | succ f ih =>
    intro o b p0 hb hp x hx
    cases o with
    | none => cases hb; simp [idxs] at hx
    | some i =>
      have hb' := hb
      unfold toBT at hb'
      cases hL : toBT t f (getN t i).left with
      | none => rw [hL] at hb'; cases hR : toBT t f (getN t i).right <;> rw [hR] at hb' <;> simp at hb'
      | some bl =>
        cases hR : toBT t f (getN t i).right with
        | none => rw [hL, hR] at hb'; simp at hb'
        | some br =>
          rw [hL, hR] at hb'
          simp only [Option.some.injEq] at hb'
          subst hb'
          unfold parentOkB at hp
          rw [Bool.and_eq_true, Bool.and_eq_true] at hp
          obtain ⟨⟨hpi, hpbl⟩, hpbr⟩ := hp
          simp only [idxs, List.mem_append, List.mem_cons] at hx
          rcases hx with hx | hx | hx
          · -- x in the left subtree
            obtain ⟨⟨bx, hbx, hsub⟩, hedge⟩ := ih _ bl (some i) hL hpbl x hx
            refine ⟨⟨bx, toBT_mono t f _ bx hbx, ?_⟩, ?_⟩
            · simp only [idxs]
              exact hsub.trans ((List.sublist_append_left _ _))
            · rcases hedge with ⟨hpar, htop⟩ | ⟨p, hpar, hpmem, hslot⟩
              · refine Or.inr ⟨i, hpar, ?_, Or.inl ?_⟩
                · simp [idxs]
                · rw [toBT_top t f _ bl hL] at htop
                  exact htop.symm ▸ rfl
              · refine Or.inr ⟨p, hpar, ?_, hslot⟩
                simp only [idxs, List.mem_append, List.mem_cons]
                exact Or.inl hpmem
          · -- x is the top
            subst hx
            refine ⟨⟨BT.node bl x br, hb, List.Sublist.refl _⟩,
              Or.inl ⟨of_decide_eq_true hpi, rfl⟩⟩
          · -- x in the right subtree
            obtain ⟨⟨bx, hbx, hsub⟩, hedge⟩ := ih _ br (some i) hR hpbr x hx
            refine ⟨⟨bx, toBT_mono t f _ bx hbx, ?_⟩, ?_⟩
            · simp only [idxs]
              refine hsub.trans ?_
              exact (List.sublist_cons_self i (idxs br)).trans
                (List.sublist_append_right (idxs bl) (i :: idxs br))
            · rcases hedge with ⟨hpar, htop⟩ | ⟨p, hpar, hpmem, hslot⟩
              · refine Or.inr ⟨i, hpar, ?_, Or.inr ?_⟩
                · simp [idxs]
                · rw [toBT_top t f _ br hR] at htop
                  exact htop.symm ▸ rfl
              · refine Or.inr ⟨p, hpar, ?_, hslot⟩
                simp only [idxs, List.mem_append, List.mem_cons]
                exact Or.inr (Or.inr hpmem)

theorem validRB_wfb (t : RBTree) (h : validRB t = true) :
    ∃ b, WFb t b ∧ ∀ r, t.root = some r → (getN t r).color = false := by
  unfold validRB at h
  cases hb : toBT t (t.size + 1) t.root with
  | none => rw [hb] at h; simp at h
  | some b =>
    rw [hb] at h
    simp only [Bool.and_eq_true] at h
    obtain ⟨⟨⟨⟨⟨⟨hroot, hpo⟩, hnd⟩, hall⟩, hE⟩, hF⟩, hasc⟩ := h
    refine ⟨b, ⟨hb, hpo, of_decide_eq_true hnd, ?_⟩, ?_⟩
    · intro i hi
      rw [List.all_eq_true] at hall
      exact of_decide_eq_true (hall i hi)
    · intro r hr
      rw [hr] at hroot
      simp only [Bool.not_eq_true'] at hroot
      exact hroot

theorem nodup_length_le (l : List Nat) (n : Nat) (hnd : l.Nodup)
    (hlt : ∀ i ∈ l, i < n) : l.length ≤ n := by
  have hsub : l ⊆ List.range n := by
    intro i hi
    rw [List.mem_range]
    exact hlt i hi
  have := List.Subperm.length_le (List.Nodup.subperm hnd hsub)
  simpa using this

/-- Member extraction at full fuel, together with the size inequalities. -/
theorem wfb_member (t : RBTree) (b : BT) (hw : WFb t b) (x : Nat) (hx : x ∈ idxs b) :
    ∃ bx, toBT t (t.size + 1) (some x) = some bx ∧ (idxs bx).Sublist (idxs b) ∧
      subSize t x = sizeB bx ∧ 1 ≤ subSize t x ∧ subSize t x ≤ t.size := by
  obtain ⟨⟨bx, hbx, hsub⟩, -⟩ := wf_edges t (t.size + 1) t.root b none hw.1 hw.2.1 x hx
  have htop := toBT_top t _ _ _ hbx
  have hsz : subSize t x = sizeB bx := by
    unfold subSize
    rw [hbx]
  refine ⟨bx, hbx, hsub, hsz, ?_, ?_⟩
  · rw [hsz]
    cases bx with
    | nil => simp [topB] at htop
    | node l j r => simp [sizeB]
  · rw [hsz, sizeB_eq_length]
    have h1 : (idxs bx).length ≤ (idxs b).length := hsub.length_le
    have h2 : (idxs b).length ≤ t.size := nodup_length_le _ _ hw.2.2.1 hw.2.2.2
    omega

/-- A child pointer of a reachable index leads to a reachable index with a
strictly smaller reachable subtree. -/
theorem wfb_child (t : RBTree) (b : BT) (hw : WFb t b) (x : Nat) (hx : x ∈ idxs b)
    (c : Nat) (hc : (getN t x).left = some c ∨ (getN t x).right = some c) :
    c ∈ idxs b ∧ subSize t c < subSize t x := by
  obtain ⟨bx, hbx, hsub, hsz, -, -⟩ := wfb_member t b hw x hx
  have htop := toBT_top t _ _ _ hbx
  cases bx with
  | nil => simp [topB] at htop
  | node bl j br =>
    simp only [topB, Option.some.injEq] at htop
    subst htop
    have hbx' := hbx
    unfold toBT at hbx'
    cases hL : toBT t t.size (getN t j).left with
    | none =>
      rw [hL] at hbx'
      cases hR : toBT t t.size (getN t j).right <;> rw [hR] at hbx' <;> simp at hbx'
    | some bl2 =>
      cases hR : toBT t t.size (getN t j).right with
      | none => rw [hL, hR] at hbx'; simp at hbx'
      | some br2 =>
        rw [hL, hR] at hbx'
        simp only [Option.some.injEq, BT.node.injEq] at hbx'
        obtain ⟨hbl, -, hbr⟩ := hbx'
        subst hbl
        subst hbr
        rcases hc with hc | hc
        · rw [hc] at hL
          have htopc := toBT_top t _ _ _ hL
          cases hLc : bl2 with
          | nil => rw [hLc] at htopc; simp [topB] at htopc
          | node cl cj cr =>
            rw [hLc] at htopc
            simp only [topB, Option.some.injEq] at htopc
            subst htopc
            rw [hLc] at hL hsub hsz
            have hszc : subSize t cj = sizeB (BT.node cl cj cr) := by
              unfold subSize
              rw [toBT_mono t _ _ _ hL]
            constructor
            · have hcm : cj ∈ idxs (BT.node (BT.node cl cj cr) j br2) := by simp [idxs]
              exact hsub.subset hcm
            · rw [hszc, hsz]
              simp only [sizeB]
              omega
        · rw [hc] at hR
          have htopc := toBT_top t _ _ _ hR
          cases hRc : br2 with
          | nil => rw [hRc] at htopc; simp [topB] at htopc
          | node cl cj cr =>
            rw [hRc] at htopc
            simp only [topB, Option.some.injEq] at htopc
            subst htopc
            rw [hRc] at hR hsub hsz
            have hszc : subSize t cj = sizeB (BT.node cl cj cr) := by
              unfold subSize
              rw [toBT_mono t _ _ _ hR]
            constructor
            · have hcm : cj ∈ idxs (BT.node bl2 j (BT.node cl cj cr)) := by simp [idxs]
              exact hsub.subset hcm
            · rw [hszc, hsz]
              simp only [sizeB]
              omega

theorem wfb_rankOK (t : RBTree) (b : BT) (hw : WFb t b) :
    RankOK t (idxs b) (rankOf t) := by
  intro i hi p hp
  obtain ⟨-, hedge⟩ := wf_edges t (t.size + 1) t.root b none hw.1 hw.2.1 i hi
  rcases hedge with ⟨hpar, -⟩ | ⟨p2, hpar, hpmem, hslot⟩
  · rw [hp] at hpar; cases hpar
  · rw [hp] at hpar
    injection hpar with hpe
    subst hpe
    obtain ⟨-, hlt⟩ := wfb_child t b hw p hpmem i hslot
    obtain ⟨-, -, -, -, hge1, hle⟩ := wfb_member t b hw p hpmem
    refine ⟨hpmem, ?_⟩
    unfold rankOf
    omega

theorem wfb_childOK (t : RBTree) (b : BT) (hw : WFb t b) :
    ChildOK t (idxs b) (rankOf t) := by
  intro i hi c hc
  obtain ⟨hcm, hlt⟩ := wfb_child t b hw i hi c hc
  obtain ⟨-, -, -, -, hge1, hle⟩ := wfb_member t b hw i hi
  refine ⟨hcm, ?_⟩
  unfold rankOf
  omega

theorem wfb_rootOK (t : RBTree) (b : BT) (hw : WFb t b) :
    RootOK t (idxs b) := by
  intro i hi hp
  obtain ⟨-, hedge⟩ := wf_edges t (t.size + 1) t.root b none hw.1 hw.2.1 i hi
  rcases hedge with ⟨-, htop⟩ | ⟨p2, hpar, -, -⟩
  · have htr := toBT_top t _ _ _ hw.1
    rw [htr] at htop
    exact htop
  · rw [hp] at hpar; cases hpar

theorem wfb_root_mem (t : RBTree) (b : BT) (hw : WFb t b) (r : Nat)
    (hr : t.root = some r) : r ∈ idxs b ∧ (getN t r).parent = none := by
  have htop := toBT_top t _ _ _ hw.1
  rw [hr] at htop
  cases b with
  | nil => simp [topB] at htop
  | node bl j br =>
    simp only [topB, Option.some.injEq] at htop
    subst htop
    have hpo := hw.2.1
    unfold parentOkB at hpo
    rw [Bool.and_eq_true, Bool.and_eq_true] at hpo
    refine ⟨by simp [idxs], of_decide_eq_true hpo.1.1⟩

theorem wfb_rank_le (t : RBTree) (b : BT) (hw : WFb t b) (x : Nat) (hx : x ∈ idxs b) :
    rankOf t x ≤ t.size := by
  obtain ⟨-, -, -, -, hge1, -⟩ := wfb_member t b hw x hx
  unfold rankOf
  omega

/-! ## Totality of the descent loops on extractable structures -/

theorem insertLoop_spec (t : RBTree) (k : Int) :
    ∀ (f : Nat) (c : Nat) (bc : BT), toBT t f (some c) = some bc →
      (∃ i, insertLoop t k f c = some (Sum.inl i)) ∨
      (∃ p, insertLoop t k f c = some (Sum.inr p) ∧ p ∈ idxs bc) := by
  intro f
  induction f with
  | zero => intro c bc hb; simp [toBT] at hb
  | succ f ih =>
    intro c bc hb
    unfold toBT at hb
    cases hL : toBT t f (getN t c).left with
    | none => rw [hL] at hb; cases hR : toBT t f (getN t c).right <;> rw [hR] at hb <;> simp at hb
    | some bl =>
      cases hR : toBT t f (getN t c).right with
      | none => rw [hL, hR] at hb; simp at hb
      | some br =>
        rw [hL, hR] at hb
        simp only [Option.some.injEq] at hb
        subst hb
        unfold insertLoop
        split
        · cases hcl : (getN t c).left with
          | none =>
            refine Or.inr ⟨c, rfl, ?_⟩
            simp [idxs]
          | some l =>
            rw [hcl] at hL
            rcases ih l bl hL with ⟨i, hi⟩ | ⟨p, hp, hpm⟩
            · exact Or.inl ⟨i, hi⟩
            · refine Or.inr ⟨p, hp, ?_⟩
              simp only [idxs, List.mem_append, List.mem_cons]
              exact Or.inl hpm
        · split
          · cases hcr : (getN t c).right with
            | none =>
              refine Or.inr ⟨c, rfl, ?_⟩
              simp [idxs]
            | some r =>
              rw [hcr] at hR
              rcases ih r br hR with ⟨i, hi⟩ | ⟨p, hp, hpm⟩
              · exact Or.inl ⟨i, hi⟩
              · refine Or.inr ⟨p, hp, ?_⟩
                simp only [idxs, List.mem_append, List.mem_cons]
                exact Or.inr (Or.inr hpm)
          · exact Or.inl ⟨c, rfl⟩

theorem minimumGo_spec (t : RBTree) :
    ∀ (f : Nat) (j : Nat) (bj : BT), toBT t f (some j) = some bj →
      ∃ s, minimumGo t f j = some s ∧ s ∈ idxs bj := by
  intro f
  induction f with
  | zero => intro j bj hb; simp [toBT] at hb
  | succ f ih =>
    intro j bj hb
    unfold toBT at hb
    cases hL : toBT t f (getN t j).left with
    | none => rw [hL] at hb; cases hR : toBT t f (getN t j).right <;> rw [hR] at hb <;> simp at hb
    | some bl =>
      cases hR : toBT t f (getN t j).right with
      | none => rw [hL, hR] at hb; simp at hb
      | some br =>
        rw [hL, hR] at hb
        simp only [Option.some.injEq] at hb
        subst hb
        unfold minimumGo
        cases hjl : (getN t j).left with
        | none =>
          refine ⟨j, rfl, ?_⟩
          simp [idxs]
        | some l =>
          rw [hjl] at hL
          obtain ⟨s, hs, hsm⟩ := ih l bl hL
          refine ⟨s, hs, ?_⟩
          simp only [idxs, List.mem_append, List.mem_cons]
          exact Or.inl hsm

/-! ## Rotation effects

Field-level description of `rotateLeft t a` when `a.right = b`, under the
disjointness facts available at the call sites (the rotated pair, `b`'s
inner child and `a`'s parent are pairwise distinct nodes). -/

theorem rotateLeft_spec (t : RBTree) (a b : Nat)
    (hab : (getN t a).right = some b) (hba : b ≠ a)
    (hcl : ∀ c, (getN t b).left = some c → c ≠ a ∧ c ≠ b)
    (hq : ∀ q, (getN t a).parent = some q → q ≠ a ∧ q ≠ b ∧ (getN t b).left ≠ some q) :
    ∃ ts, rotateLeft t a = some ts ∧
      ts.size = t.size ∧
      (∀ j, (getN ts j).color = (getN t j).color) ∧
      (getN ts a).parent = some b ∧
      (getN ts b).parent = (getN t a).parent ∧
      (∀ j, j ≠ a → j ≠ b → (getN t b).left ≠ some j →
        (getN ts j).parent = (getN t j).parent) ∧
      ts.root = (if (getN t a).parent = none then some b else t.root) ∧
      (getN ts b).right = (getN t b).right ∧
      (∀ q, (getN t a).parent = some q →
        ((getN t q).left = some a → (getN ts q).left = some b) ∧
        ((getN t q).left ≠ some a → (getN ts q).right = some b)) := by
  cases hcleq : (getN t b).left with
  | none =>
    cases hpa : (getN t a).parent with
    | none =>
      refine ⟨setParent (setLeft (setRoot (setParent (setRight t a none) b none) (some b))
        b (some a)) a (some b), ?_, rfl, ?_, ?_, ?_, ?_, ?_, ?_, ?_⟩
      · unfold rotateLeft
        rw [hab]
        simp only [left_setRight, parent_setRight, hcleq, hpa,
          parent_setParent_other _ b _ a (Ne.symm hba)]
      · intro j
        simp only [color_setParent, color_setLeft, getN_setRoot, color_setRight]
      · exact parent_setParent_self _ a (some b)
      · rw [parent_setParent_other _ a _ b hba, parent_setLeft, getN_setRoot,
          parent_setParent_self]
      · intro j hja hjb hjc
        rw [parent_setParent_other _ a _ j hja, parent_setLeft, getN_setRoot,
          parent_setParent_other _ b _ j hjb, parent_setRight]
      · rfl
      · rw [right_setParent, right_setLeft, getN_setRoot, right_setParent,
          right_setRight_other _ a _ b hba]
      · intro q2 hq2
        cases hq2
    | some q =>
      obtain ⟨hqa, hqb, hqc⟩ := hq q hpa
      by_cases hsl : (getN t q).left = some a
      · refine ⟨setParent (setLeft (setLeft (setParent (setRight t a none) b (some q))
          q (some b)) b (some a)) a (some b), ?_, rfl, ?_, ?_, ?_, ?_, ?_, ?_, ?_⟩
        · unfold rotateLeft
          rw [hab]
          simp only [left_setRight, parent_setRight, left_setParent, hcleq, hpa, hsl,
            parent_setParent_other _ b _ a (Ne.symm hba), if_pos]
        · intro j
          simp only [color_setParent, color_setLeft, color_setRight]
        · exact parent_setParent_self _ a (some b)
        · rw [parent_setParent_other _ a _ b hba, parent_setLeft, parent_setLeft,
            parent_setParent_self]
        · intro j hja hjb hjc
          rw [parent_setParent_other _ a _ j hja, parent_setLeft, parent_setLeft,
            parent_setParent_other _ b _ j hjb, parent_setRight]
        · rfl
        · rw [right_setParent, right_setLeft, right_setLeft, right_setParent,
            right_setRight_other _ a _ b hba]
        · intro q2 hq2
          injection hq2 with hq2e
          subst hq2e
          constructor
          · intro hsl2
            rw [left_setParent, left_setLeft_other _ b _ q hqb, left_setLeft_self]
          · intro hsl2
            exact absurd hsl hsl2
      · refine ⟨setParent (setLeft (setRight (setParent (setRight t a none) b (some q))
          q (some b)) b (some a)) a (some b), ?_, rfl, ?_, ?_, ?_, ?_, ?_, ?_, ?_⟩
        · unfold rotateLeft
          rw [hab]
          simp only [left_setRight, parent_setRight, left_setParent, hcleq, hpa,
            parent_setParent_other _ b _ a (Ne.symm hba), if_neg hsl]
        · intro j
          simp only [color_setParent, color_setLeft, color_setRight]
        · exact parent_setParent_self _ a (some b)
        · rw [parent_setParent_other _ a _ b hba, parent_setLeft, parent_setRight,
            parent_setParent_self]
        · intro j hja hjb hjc
          rw [parent_setParent_other _ a _ j hja, parent_setLeft, parent_setRight,
            parent_setParent_other _ b _ j hjb, parent_setRight]
        · rfl
        · rw [right_setParent, right_setLeft, right_setRight_other _ q _ b (Ne.symm hqb),
            right_setParent, right_setRight_other _ a _ b hba]
        · intro q2 hq2
          injection hq2 with hq2e
          subst hq2e
          constructor
          · intro hsl2
            exact absurd hsl2 hsl
          · intro hsl2
            rw [right_setParent, right_setLeft, right_setRight_self]
  | some c =>
    obtain ⟨hca, hcb⟩ := hcl c hcleq
    cases hpa : (getN t a).parent with
    | none =>
      refine ⟨setParent (setLeft (setRoot (setParent (setParent (setRight t a (some c))
        c (some a)) b none) (some b)) b (some a)) a (some b), ?_, rfl, ?_, ?_, ?_, ?_,
        ?_, ?_, ?_⟩
      · unfold rotateLeft
        rw [hab]
        simp only [left_setRight, parent_setRight, hcleq, hpa,
          parent_setParent_other _ b _ a (Ne.symm hba),
          parent_setParent_other _ c _ a (Ne.symm hca)]
      · intro j
        simp only [color_setParent, color_setLeft, getN_setRoot, color_setRight]
      · exact parent_setParent_self _ a (some b)
      · rw [parent_setParent_other _ a _ b hba, parent_setLeft, getN_setRoot,
          parent_setParent_self]
      · intro j hja hjb hjc
        have hjc2 : j ≠ c := by
          intro he
          apply hjc
          rw [he]
        rw [parent_setParent_other _ a _ j hja, parent_setLeft, getN_setRoot,
          parent_setParent_other _ b _ j hjb, parent_setParent_other _ c _ j hjc2,
          parent_setRight]
      · rfl
      · rw [right_setParent, right_setLeft, getN_setRoot, right_setParent,
          right_setParent, right_setRight_other _ a _ b hba]
      · intro q2 hq2
        cases hq2
    | some q =>
      obtain ⟨hqa, hqb, hqc⟩ := hq q hpa
      have hqc2 : q ≠ c := by
        intro he
        apply hqc
        rw [he]
        exact hcleq
      by_cases hsl : (getN t q).left = some a
      · refine ⟨setParent (setLeft (setLeft (setParent (setParent (setRight t a (some c))
          c (some a)) b (some q)) q (some b)) b (some a)) a (some b), ?_, rfl, ?_, ?_,
          ?_, ?_, ?_, ?_, ?_⟩
        · unfold rotateLeft
          rw [hab]
          simp only [left_setRight, parent_setRight, left_setParent, hcleq, hpa, hsl,
            parent_setParent_other _ b _ a (Ne.symm hba),
            parent_setParent_other _ c _ a (Ne.symm hca), if_pos]
        · intro j
          simp only [color_setParent, color_setLeft, color_setRight]
        · exact parent_setParent_self _ a (some b)
        · rw [parent_setParent_other _ a _ b hba, parent_setLeft, parent_setLeft,
            parent_setParent_self]
        · intro j hja hjb hjc
          have hjc2 : j ≠ c := by
            intro he
            apply hjc
            rw [he]
          rw [parent_setParent_other _ a _ j hja, parent_setLeft, parent_setLeft,
            parent_setParent_other _ b _ j hjb, parent_setParent_other _ c _ j hjc2,
            parent_setRight]
        · rfl
        · rw [right_setParent, right_setLeft, right_setLeft, right_setParent,
            right_setParent, right_setRight_other _ a _ b hba]
        · intro q2 hq2
          injection hq2 with hq2e
          subst hq2e
          constructor
          · intro hsl2
            rw [left_setParent, left_setLeft_other _ b _ q hqb, left_setLeft_self]
          · intro hsl2
            exact absurd hsl hsl2
      · refine ⟨setParent (setLeft (setRight (setParent (setParent (setRight t a (some c))
          c (some a)) b (some q)) q (some b)) b (some a)) a (some b), ?_, rfl, ?_, ?_,
          ?_, ?_, ?_, ?_, ?_⟩
        · unfold rotateLeft
          rw [hab]
          simp only [left_setRight, parent_setRight, left_setParent, hcleq, hpa,
            parent_setParent_other _ b _ a (Ne.symm hba),
            parent_setParent_other _ c _ a (Ne.symm hca), if_neg hsl]
        · intro j
          simp only [color_setParent, color_setLeft, color_setRight]
        · exact parent_setParent_self _ a (some b)
        · rw [parent_setParent_other _ a _ b hba, parent_setLeft, parent_setRight,
            parent_setParent_self]
        · intro j hja hjb hjc
          have hjc2 : j ≠ c := by
            intro he
            apply hjc
            rw [he]
          rw [parent_setParent_other _ a _ j hja, parent_setLeft, parent_setRight,
            parent_setParent_other _ b _ j hjb, parent_setParent_other _ c _ j hjc2,
            parent_setRight]
        · rfl
        · rw [right_setParent, right_setLeft, right_setRight_other _ q _ b (Ne.symm hqb),
            right_setParent, right_setParent, right_setRight_other _ a _ b hba]
        · intro q2 hq2
          injection hq2 with hq2e
          subst hq2e
          constructor
          · intro hsl2
            exact absurd hsl2 hsl
          · intro hsl2
            rw [right_setParent, right_setLeft, right_setRight_self]

/-- Mirror image of `rotateLeft_spec`: `rotateRight t a` when `a.left = b`. -/
theorem rotateRight_spec (t : RBTree) (a b : Nat)
    (hab : (getN t a).left = some b) (hba : b ≠ a)
    (hcl : ∀ c, (getN t b).right = some c → c ≠ a ∧ c ≠ b)
    (hq : ∀ q, (getN t a).parent = some q → q ≠ a ∧ q ≠ b ∧ (getN t b).right ≠ some q) :
    ∃ ts, rotateRight t a = some ts ∧
      ts.size = t.size ∧
      (∀ j, (getN ts j).color = (getN t j).color) ∧
      (getN ts a).parent = some b ∧
      (getN ts b).parent = (getN t a).parent ∧
      (∀ j, j ≠ a → j ≠ b → (getN t b).right ≠ some j →
        (getN ts j).parent = (getN t j).parent) ∧
      ts.root = (if (getN t a).parent = none then some b else t.root) ∧
      (getN ts b).left = (getN t b).left ∧
      (∀ q, (getN t a).parent = some q →
        ((getN t q).right = some a → (getN ts q).right = some b) ∧
        ((getN t q).right ≠ some a → (getN ts q).left = some b)) := by
  cases hcleq : (getN t b).right with
  | none =>
    cases hpa : (getN t a).parent with
    | none =>
      refine ⟨setParent (setRight (setRoot (setParent (setLeft t a none) b none) (some b))
        b (some a)) a (some b), ?_, rfl, ?_, ?_, ?_, ?_, ?_, ?_, ?_⟩
      · unfold rotateRight
        rw [hab]
        simp only [right_setLeft, parent_setLeft, hcleq, hpa,
          parent_setParent_other _ b _ a (Ne.symm hba)]
      · intro j
        simp only [color_setParent, color_setRight, getN_setRoot, color_setLeft]
      · exact parent_setParent_self _ a (some b)
      · rw [parent_setParent_other _ a _ b hba, parent_setRight, getN_setRoot,
          parent_setParent_self]
      · intro j hja hjb hjc
        rw [parent_setParent_other _ a _ j hja, parent_setRight, getN_setRoot,
          parent_setParent_other _ b _ j hjb, parent_setLeft]
      · rfl
      · rw [left_setParent, left_setRight, getN_setRoot, left_setParent,
          left_setLeft_other _ a _ b hba]
      · intro q2 hq2
        cases hq2
    | some q =>
      obtain ⟨hqa, hqb, hqc⟩ := hq q hpa
      by_cases hsl : (getN t q).right = some a
      · refine ⟨setParent (setRight (setRight (setParent (setLeft t a none) b (some q))
          q (some b)) b (some a)) a (some b), ?_, rfl, ?_, ?_, ?_, ?_, ?_, ?_, ?_⟩
        · unfold rotateRight
          rw [hab]
          simp only [right_setLeft, parent_setLeft, right_setParent, hcleq, hpa, hsl,
            parent_setParent_other _ b _ a (Ne.symm hba), if_pos]
        · intro j
          simp only [color_setParent, color_setRight, color_setLeft]
        · exact parent_setParent_self _ a (some b)
        · rw [parent_setParent_other _ a _ b hba, parent_setRight, parent_setRight,
            parent_setParent_self]
        · intro j hja hjb hjc
          rw [parent_setParent_other _ a _ j hja, parent_setRight, parent_setRight,
            parent_setParent_other _ b _ j hjb, parent_setLeft]
        · rfl
        · rw [left_setParent, left_setRight, left_setRight, left_setParent,
            left_setLeft_other _ a _ b hba]
        · intro q2 hq2
          injection hq2 with hq2e
          subst hq2e
          constructor
          · intro hsl2
            rw [right_setParent, right_setRight_other _ b _ q hqb, right_setRight_self]
          · intro hsl2
            exact absurd hsl hsl2
      · refine ⟨setParent (setRight (setLeft (setParent (setLeft t a none) b (some q))
          q (some b)) b (some a)) a (some b), ?_, rfl, ?_, ?_, ?_, ?_, ?_, ?_, ?_⟩
        · unfold rotateRight
          rw [hab]
          simp only [right_setLeft, parent_setLeft, right_setParent, hcleq, hpa,
            parent_setParent_other _ b _ a (Ne.symm hba), if_neg hsl]
        · intro j
          simp only [color_setParent, color_setRight, color_setLeft]
        · exact parent_setParent_self _ a (some b)
        · rw [parent_setParent_other _ a _ b hba, parent_setRight, parent_setLeft,
            parent_setParent_self]
        · intro j hja hjb hjc
          rw [parent_setParent_other _ a _ j hja, parent_setRight, parent_setLeft,
            parent_setParent_other _ b _ j hjb, parent_setLeft]
        · rfl
        · rw [left_setParent, left_setRight, left_setLeft_other _ q _ b (Ne.symm hqb),
            left_setParent, left_setLeft_other _ a _ b hba]
        · intro q2 hq2
          injection hq2 with hq2e
          subst hq2e
          constructor
          · intro hsl2
            exact absurd hsl2 hsl
          · intro hsl2
            rw [left_setParent, left_setRight, left_setLeft_self]
  | some c =>
    obtain ⟨hca, hcb⟩ := hcl c hcleq
    cases hpa : (getN t a).parent with
    | none =>
      refine ⟨setParent (setRight (setRoot (setParent (setParent (setLeft t a (some c))
        c (some a)) b none) (some b)) b (some a)) a (some b), ?_, rfl, ?_, ?_, ?_, ?_,
        ?_, ?_, ?_⟩
      · unfold rotateRight
        rw [hab]
        simp only [right_setLeft, parent_setLeft, hcleq, hpa,
          parent_setParent_other _ b _ a (Ne.symm hba),
          parent_setParent_other _ c _ a (Ne.symm hca)]
      · intro j
        simp only [color_setParent, color_setRight, getN_setRoot, color_setLeft]
      · exact parent_setParent_self _ a (some b)
      · rw [parent_setParent_other _ a _ b hba, parent_setRight, getN_setRoot,
          parent_setParent_self]
      · intro j hja hjb hjc
        have hjc2 : j ≠ c := by
          intro he
          apply hjc
          rw [he]
        rw [parent_setParent_other _ a _ j hja, parent_setRight, getN_setRoot,
          parent_setParent_other _ b _ j hjb, parent_setParent_other _ c _ j hjc2,
          parent_setLeft]
      · rfl
      · rw [left_setParent, left_setRight, getN_setRoot, left_setParent,
          left_setParent, left_setLeft_other _ a _ b hba]
      · intro q2 hq2
        cases hq2
    | some q =>
      obtain ⟨hqa, hqb, hqc⟩ := hq q hpa
      have hqc2 : q ≠ c := by
        intro he
        apply hqc
        rw [he]
        exact hcleq
      by_cases hsl : (getN t q).right = some a
      · refine ⟨setParent (setRight (setRight (setParent (setParent (setLeft t a (some c))
          c (some a)) b (some q)) q (some b)) b (some a)) a (some b), ?_, rfl, ?_, ?_,
          ?_, ?_, ?_, ?_, ?_⟩
        · unfold rotateRight
          rw [hab]
          simp only [right_setLeft, parent_setLeft, right_setParent, hcleq, hpa, hsl,
            parent_setParent_other _ b _ a (Ne.symm hba),
            parent_setParent_other _ c _ a (Ne.symm hca), if_pos]
        · intro j
          simp only [color_setParent, color_setRight, color_setLeft]
        · exact parent_setParent_self _ a (some b)
        · rw [parent_setParent_other _ a _ b hba, parent_setRight, parent_setRight,
            parent_setParent_self]
        · intro j hja hjb hjc
          have hjc2 : j ≠ c := by
            intro he
            apply hjc
            rw [he]
          rw [parent_setParent_other _ a _ j hja, parent_setRight, parent_setRight,
            parent_setParent_other _ b _ j hjb, parent_setParent_other _ c _ j hjc2,
            parent_setLeft]
        · rfl
        · rw [left_setParent, left_setRight, left_setRight, left_setParent,
            left_setParent, left_setLeft_other _ a _ b hba]
        · intro q2 hq2
          injection hq2 with hq2e
          subst hq2e
          constructor
          · intro hsl2
            rw [right_setParent, right_setRight_other _ b _ q hqb, right_setRight_self]
          · intro hsl2
            exact absurd hsl hsl2
      · refine ⟨setParent (setRight (setLeft (setParent (setParent (setLeft t a (some c))
          c (some a)) b (some q)) q (some b)) b (some a)) a (some b), ?_, rfl, ?_, ?_,
          ?_, ?_, ?_, ?_, ?_⟩
        · unfold rotateRight
          rw [hab]
          simp only [right_setLeft, parent_setLeft, right_setParent, hcleq, hpa,
            parent_setParent_other _ b _ a (Ne.symm hba),
            parent_setParent_other _ c _ a (Ne.symm hca), if_neg hsl]
        · intro j
          simp only [color_setParent, color_setRight, color_setLeft]
        · exact parent_setParent_self _ a (some b)
        · rw [parent_setParent_other _ a _ b hba, parent_setRight, parent_setLeft,
            parent_setParent_self]
        · intro j hja hjb hjc
          have hjc2 : j ≠ c := by
            intro he
            apply hjc
            rw [he]
          rw [parent_setParent_other _ a _ j hja, parent_setRight, parent_setLeft,
            parent_setParent_other _ b _ j hjb, parent_setParent_other _ c _ j hjc2,
            parent_setLeft]
        · rfl
        · rw [left_setParent, left_setRight, left_setLeft_other _ q _ b (Ne.symm hqb),
            left_setParent, left_setParent, left_setLeft_other _ a _ b hba]
        · intro q2 hq2
          injection hq2 with hq2e
          subst hq2e
          constructor
          · intro hsl2
            exact absurd hsl2 hsl
          · intro hsl2
            rw [left_setParent, left_setRight, left_setLeft_self]


/-! ## Preservation of the walk invariants under recoloring -/

theorem ChildOK_setColor (t : RBTree) (i : Nat) (c : Bool) (S : List Nat) (rank : Nat → Nat)
    (h : ChildOK t S rank) : ChildOK (setColor t i c) S rank := by
  intro j hj d hd
  rw [left_setColor, right_setColor] at hd
  exact h j hj d hd

theorem UpOK_setColor (t : RBTree) (i : Nat) (c : Bool) (S : List Nat)
    (h : UpOK t S) : UpOK (setColor t i c) S := by
  intro j hj p hp
  rw [parent_setColor] at hp
  rw [left_setColor, right_setColor]
  exact h j hj p hp

theorem RootOK_setColor (t : RBTree) (i : Nat) (c : Bool) (S : List Nat)
    (h : RootOK t S) : RootOK (setColor t i c) S := by
  intro j hj hp
  rw [parent_setColor] at hp
  rw [root_setColor]
  exact h j hj hp

/-! ## Rotations: totality on a non-nil child, colors untouched -/

theorem rotateLeft_some (t : RBTree) (x r : Nat) (h : (getN t x).right = some r) :
    ∃ ts, rotateLeft t x = some ts := by
  unfold rotateLeft
  rw [h]
  exact ⟨_, rfl⟩

theorem rotateRight_some (t : RBTree) (x l : Nat) (h : (getN t x).left = some l) :
    ∃ ts, rotateRight t x = some ts := by
  unfold rotateRight
  rw [h]
  exact ⟨_, rfl⟩

theorem rotateLeft_color (t : RBTree) (x : Nat) (ts : RBTree)
    (h : rotateLeft t x = some ts) (j : Nat) :
    (getN ts j).color = (getN t j).color := by
  unfold rotateLeft at h
  cases hxr : (getN t x).right with
  | none => rw [hxr] at h; cases h
  | some r =>
    rw [hxr] at h
    simp only [Option.some.injEq] at h
    subst h
    simp only [color_setParent, color_setLeft]
    split
    · simp only [getN_setRoot, color_setParent]
      split
      · simp only [color_setParent, color_setRight]
      · simp only [color_setRight]
    · split
      · simp only [color_setLeft, color_setParent]
        split
        · simp only [color_setParent, color_setRight]
        · simp only [color_setRight]
      · simp only [color_setRight, color_setParent]
        split
        · simp only [color_setParent, color_setRight]
        · simp only [color_setRight]

theorem rotateRight_color (t : RBTree) (x : Nat) (ts : RBTree)
    (h : rotateRight t x = some ts) (j : Nat) :
    (getN ts j).color = (getN t j).color := by
  unfold rotateRight at h
  cases hxl : (getN t x).left with
  | none => rw [hxl] at h; cases h
  | some l =>
    rw [hxl] at h
    simp only [Option.some.injEq] at h
    subst h
    simp only [color_setParent, color_setRight]
    split
    · simp only [getN_setRoot, color_setParent]
      split
      · simp only [color_setParent, color_setLeft]
      · simp only [color_setLeft]
    · split
      · simp only [color_setRight, color_setParent]
        split
        · simp only [color_setParent, color_setLeft]
        · simp only [color_setLeft]
      · simp only [color_setLeft, color_setParent]
        split
        · simp only [color_setParent, color_setLeft]
        · simp only [color_setLeft]

/-! ## The minimum descent exits on a nil left child -/

theorem minimumGo_left_none (t : RBTree) :
    ∀ (f : Nat) (j s : Nat), minimumGo t f j = some s → (getN t s).left = none := by
  intro f
  induction f with
  | zero => intro j s h; simp [minimumGo] at h
  | succ f ih =>
    intro j s h
    unfold minimumGo at h
    cases hjl : (getN t j).left with
    | none => rw [hjl] at h; injection h with h; subst h; exact hjl
    | some l => rw [hjl] at h; exact ih l s h

/-- A hit of the reference descent is a member of the shape. -/
theorem searchBT_mem (t : RBTree) :
    ∀ (b : BT) (k : Int) (i : Nat), searchBT t b k = some i → i ∈ idxs b := by
  intro b
  induction b with
  | nil => intro k i h; simp [searchBT] at h
  | node l j r ihl ihr =>
    intro k i h
    unfold searchBT at h
    by_cases h1 : k < (getN t j).key
    · rw [if_pos h1] at h
      simp only [idxs, List.mem_append, List.mem_cons]
      exact Or.inl (ihl k i h)
    · rw [if_neg h1] at h
      by_cases h2 : (getN t j).key < k
      · rw [if_pos h2] at h
        simp only [idxs, List.mem_append, List.mem_cons]
        exact Or.inr (Or.inr (ihr k i h))
      · rw [if_neg h2] at h
        injection h with h
        subst h
        simp [idxs]

/-! ## Field effect of `transplant` -/

theorem transplant_size (t : RBTree) (u : Nat) (v : Option Nat) :
    (transplant t u v).size = t.size := by
  unfold transplant
  cases hup : (getN t u).parent with
  | none =>
    dsimp only
    cases v with
    | none => rfl
    | some vi => simp only [size_setParent, size_setRoot]
  | some p =>
    dsimp only
    by_cases hsl : (getN t p).left = some u
    · rw [if_pos hsl]
      cases v with
      | none => rfl
      | some vi => simp only [size_setParent, size_setLeft]
    · rw [if_neg hsl]
      cases v with
      | none => rfl
      | some vi => simp only [size_setParent, size_setRight]

theorem transplant_pre_parent (t : RBTree) (u : Nat) (v : Option Nat) (i : Nat) :
    (getN (match (getN t u).parent with
      | none => setRoot t v
      | some p => if (getN t p).left = some u then setLeft t p v
                  else setRight t p v) i).parent = (getN t i).parent := by
  cases hup : (getN t u).parent with
  | none => rw [getN_setRoot]
  | some p =>
    dsimp only
    by_cases hsl : (getN t p).left = some u
    · rw [if_pos hsl, parent_setLeft]
    · rw [if_neg hsl, parent_setRight]

theorem transplant_parent (t : RBTree) (u : Nat) (v : Option Nat) (j : Nat) :
    (getN (transplant t u v) j).parent =
      if v = some j then (getN t u).parent else (getN t j).parent := by
  unfold transplant
  cases v with
  | none =>
    rw [if_neg (by simp)]
    exact transplant_pre_parent t u none j
  | some vi =>
    by_cases hj : j = vi
    · subst hj
      rw [if_pos rfl, parent_setParent_self]
      exact transplant_pre_parent t u (some j) u
    · rw [if_neg (by simp [Ne.symm hj])]
      rw [parent_setParent_other _ vi _ j hj]
      exact transplant_pre_parent t u (some vi) j

theorem transplant_left (t : RBTree) (u : Nat) (v : Option Nat) (j : Nat) :
    (getN (transplant t u v) j).left =
      if (getN t u).parent = some j ∧ (getN t j).left = some u then v
      else (getN t j).left := by
  unfold transplant
  have hpost : ∀ (t' : RBTree) (i : Nat),
      (getN (match v with | none => t' | some vi => setParent t' vi (getN t' u).parent) i).left
        = (getN t' i).left := by
    intro t' i
    cases v with
    | none => rfl
    | some vi => rw [left_setParent]
  rw [hpost]
  cases hup : (getN t u).parent with
  | none =>
    rw [getN_setRoot, if_neg (by simp)]
  | some p =>
    dsimp only
    by_cases hsl : (getN t p).left = some u
    · rw [if_pos hsl]
      by_cases hj : j = p
      · subst hj
        rw [left_setLeft_self, if_pos ⟨rfl, hsl⟩]
      · rw [left_setLeft_other _ p _ j hj,
          if_neg (by intro hc; exact hj (by injection hc.1 with h2; exact h2.symm))]
    · rw [if_neg hsl, left_setRight]
      by_cases hj : j = p
      · subst hj
        rw [if_neg (by intro hc; exact hsl hc.2)]
      · rw [if_neg (by intro hc; exact hj (by injection hc.1 with h2; exact h2.symm))]

theorem transplant_right (t : RBTree) (u : Nat) (v : Option Nat) (j : Nat) :
    (getN (transplant t u v) j).right =
      if (getN t u).parent = some j ∧ ¬((getN t j).left = some u) then v
      else (getN t j).right := by
  unfold transplant
  have hpost : ∀ (t' : RBTree) (i : Nat),
      (getN (match v with | none => t' | some vi => setParent t' vi (getN t' u).parent) i).right
        = (getN t' i).right := by
    intro t' i
    cases v with
    | none => rfl
    | some vi => rw [right_setParent]
  rw [hpost]
  cases hup : (getN t u).parent with
  | none =>
    rw [getN_setRoot, if_neg (by simp)]
  | some p =>
    dsimp only
    by_cases hsl : (getN t p).left = some u
    · rw [if_pos hsl, right_setLeft]
      by_cases hj : j = p
      · subst hj
        rw [if_neg (by intro hc; exact hc.2 hsl)]
      · rw [if_neg (by intro hc; exact hj (by injection hc.1 with h2; exact h2.symm))]
    · rw [if_neg hsl]
      by_cases hj : j = p
      · subst hj
        rw [right_setRight_self, if_pos ⟨rfl, hsl⟩]
      · rw [right_setRight_other _ p _ j hj,
          if_neg (by intro hc; exact hj (by injection hc.1 with h2; exact h2.symm))]

theorem transplant_color (t : RBTree) (u : Nat) (v : Option Nat) (j : Nat) :
    (getN (transplant t u v) j).color = (getN t j).color := by
  unfold transplant
  have hpost : ∀ (t' : RBTree) (i : Nat),
      (getN (match v with | none => t' | some vi => setParent t' vi (getN t' u).parent) i).color
        = (getN t' i).color := by
    intro t' i
    cases v with
    | none => rfl
    | some vi => rw [color_setParent]
  rw [hpost]
  cases hup : (getN t u).parent with
  | none => rw [getN_setRoot]
  | some p =>
    dsimp only
    by_cases hsl : (getN t p).left = some u
    · rw [if_pos hsl, color_setLeft]
    · rw [if_neg hsl, color_setRight]

/-! ## `parentOkB` descends to reachable subtrees -/

theorem parentOk_sub (t : RBTree) :
    ∀ (f : Nat) (o : Option Nat) (b : BT) (p0 : Option Nat),
      toBT t f o = some b → parentOkB t b p0 = true →
      ∀ x ∈ idxs b, ∃ bx, toBT t f (some x) = some bx ∧
        parentOkB t bx (getN t x).parent = true := by
  intro f
  induction f with
  | zero =>
    intro o b p0 hb hp x hx
    cases o with
    | none => cases hb; simp [idxs] at hx
    | some i => simp [toBT] at hb
  | succ f ih =>
    intro o b p0 hb hp x hx
    cases o with
    | none => cases hb; simp [idxs] at hx
    | some i =>
      have hb' := hb
      unfold toBT at hb'
      cases hL : toBT t f (getN t i).left with
      | none => rw [hL] at hb'; cases hR : toBT t f (getN t i).right <;> rw [hR] at hb' <;> simp at hb'
      | some bl =>
        cases hR : toBT t f (getN t i).right with
        | none => rw [hL, hR] at hb'; simp at hb'
        | some br =>
          rw [hL, hR] at hb'
          simp only [Option.some.injEq] at hb'
          subst hb'
          unfold parentOkB at hp
          rw [Bool.and_eq_true, Bool.and_eq_true] at hp
          obtain ⟨⟨hpi, hpbl⟩, hpbr⟩ := hp
          simp only [idxs, List.mem_append, List.mem_cons] at hx
          rcases hx with hx | hx | hx
          · obtain ⟨bx, hbx, hpx⟩ := ih _ bl (some i) hL hpbl x hx
            exact ⟨bx, toBT_mono t f _ bx hbx, hpx⟩
          · subst hx
            refine ⟨BT.node bl x br, hb, ?_⟩
            unfold parentOkB
            rw [Bool.and_eq_true, Bool.and_eq_true]
            exact ⟨⟨by simp, hpbl⟩, hpbr⟩
          · obtain ⟨bx, hbx, hpx⟩ := ih _ br (some i) hR hpbr x hx
            exact ⟨bx, toBT_mono t f _ bx hbx, hpx⟩

theorem wfb_upOK (t : RBTree) (b : BT) (hw : WFb t b) : UpOK t (idxs b) := by
  intro i hi p hp
  obtain ⟨-, hedge⟩ := wf_edges t (t.size + 1) t.root b none hw.1 hw.2.1 i hi
  rcases hedge with ⟨hpar, -⟩ | ⟨p2, hpar, -, hslot⟩
  · rw [hp] at hpar; cases hpar
  · rw [hp] at hpar
    injection hpar with hpe
    subst hpe
    exact hslot

/-! ## Totality of the insert fixup -/

/-- One loop entry of `fixInsertGo` exits through `fixInsertFinish` when the
node is the root, or its parent is Black; the flag is returned unchanged. -/
theorem fixInsertGo_exit (t : RBTree) (x : Nat) (saw : Bool) (m : Nat)
    (hroot : ∃ rr, t.root = some rr)
    (hexit : t.root = some x ∨ ∃ p, (getN t x).parent = some p ∧ (getN t p).color = false) :
    ∃ t2, fixInsertGo t x saw (m+1) = some (t2, saw) := by
  obtain ⟨rr, hrr⟩ := hroot
  unfold fixInsertGo
  by_cases hrx : t.root = some x
  · rw [if_pos hrx]
    exact ⟨setColor t rr false, by unfold fixInsertFinish; rw [hrr]⟩
  · rw [if_neg hrx]
    rcases hexit with he | ⟨p, hp, hpc⟩
    · exact absurd he hrx
    · rw [hp]
      dsimp only
      rw [if_pos hpc]
      exact ⟨setColor t rr false, by unfold fixInsertFinish; rw [hrr]⟩

/-- The loop of `fixInsert` runs to completion without a panic and without
raising the defensive flag, on any state whose parent pointers decrease a
rank inside `S`, whose child pointers stay in `S` and increase it, whose
upward links are mirrored by child slots, whose only parentless member is
the root, and whose root is Black (or the node itself). -/
theorem fixInsertGo_total (S : List Nat) (rank : Nat → Nat) :
    ∀ (fuel : Nat) (t : RBTree) (x : Nat) (saw : Bool),
      RankOK t S rank → ChildOK t S rank → UpOK t S → RootOK t S →
      (∃ r0, t.root = some r0 ∧ ((getN t r0).color = false ∨ r0 = x)) →
      x ∈ S → rank x + 2 ≤ fuel →
      ∃ t2, fixInsertGo t x saw fuel = some (t2, saw) := by
  intro fuel
  induction fuel with
  | zero => intro t x saw _ _ _ _ _ _ hf; omega
  | succ n ih =>
    intro t x saw hRank hChild hUp hRoot hRF hxS hf
    obtain ⟨r0, hr0, hr0c⟩ := hRF
    unfold fixInsertGo
    by_cases hrx : t.root = some x
    · rw [if_pos hrx]
      exact ⟨setColor t x false, by unfold fixInsertFinish; rw [hrx]⟩
    · rw [if_neg hrx]
      cases hxp : (getN t x).parent with
      | none =>
        dsimp only
        exact ⟨setColor t r0 false, by unfold fixInsertFinish; rw [hr0]⟩
      | some p =>
        dsimp only
        obtain ⟨hpS, hpx⟩ := hRank x hxS p hxp
        by_cases hpc : (getN t p).color = false
        · rw [if_pos hpc]
          exact ⟨setColor t r0 false, by unfold fixInsertFinish; rw [hr0]⟩
        · rw [if_neg hpc]
          cases hgp : (getN t p).parent with
          | none =>
            exfalso
            have hro := hRoot p hpS hgp
            rw [hro] at hr0
            injection hr0 with he
            subst he
            rcases hr0c with hc | hc
            · exact hpc hc
            · subst hc
              omega
          | some g =>
            dsimp only
            obtain ⟨hgS, hgpl⟩ := hRank p hpS g hgp
            have hxnep : x ≠ p := by intro he; rw [he] at hpx; omega
            have hpg : p ≠ g := by intro he; rw [he] at hgpl; omega
            have hxg : x ≠ g := by intro he; rw [he] at hpx; omega
            by_cases hgl : (getN t g).left = some p
            · rw [if_pos hgl]
              by_cases hu : isRed t (getN t g).right = true
              · -- Case A: red uncle, recolor and climb to the grandparent
                rw [if_pos hu]
                cases hur : (getN t g).right with
                | none => rw [hur] at hu; simp [isRed] at hu
                | some u =>
                  simp only [right_setColor]
                  rw [hur]
                  dsimp only
                  refine ih _ g saw
                    (RankOK_setColor _ _ _ _ _ (RankOK_setColor _ _ _ _ _
                      (RankOK_setColor _ _ _ _ _ hRank)))
                    (ChildOK_setColor _ _ _ _ _ (ChildOK_setColor _ _ _ _ _
                      (ChildOK_setColor _ _ _ _ _ hChild)))
                    (UpOK_setColor _ _ _ _ (UpOK_setColor _ _ _ _
                      (UpOK_setColor _ _ _ _ hUp)))
                    (RootOK_setColor _ _ _ _ (RootOK_setColor _ _ _ _
                      (RootOK_setColor _ _ _ _ hRoot)))
                    ⟨r0, ?_, ?_⟩ hgS (by omega)
                  · rw [root_setColor, root_setColor, root_setColor]
                    exact hr0
                  · by_cases hrg : r0 = g
                    · exact Or.inr hrg
                    · left
                      rw [color_setColor_other _ g _ r0 hrg]
                      by_cases hru : r0 = u
                      · rw [hru, color_setColor_self]
                      · rw [color_setColor_other _ u _ r0 hru]
                        by_cases hrp : r0 = p
                        · rw [hrp, color_setColor_self]
                        · rw [color_setColor_other _ p _ r0 hrp]
                          rcases hr0c with hc | hc
                          · exact hc
                          · rw [hc] at hr0
                            exact absurd hr0 hrx
              · rw [if_neg hu]
                have hcl : ∀ c, (getN t x).left = some c → c ≠ p ∧ c ≠ x := by
                  intro c hc
                  obtain ⟨-, hlt⟩ := hChild x hxS c (Or.inl hc)
                  exact ⟨by intro he; rw [he] at hlt; omega,
                    by intro he; rw [he] at hlt; omega⟩
                have hq : ∀ q, (getN t p).parent = some q →
                    q ≠ p ∧ q ≠ x ∧ (getN t x).left ≠ some q := by
                  intro q hqe
                  rw [hgp] at hqe
                  injection hqe with hqe
                  subst hqe
                  refine ⟨Ne.symm hpg, Ne.symm hxg, ?_⟩
                  intro hc
                  obtain ⟨-, hlt⟩ := hChild x hxS g (Or.inl hc)
                  omega
                by_cases hpr : (getN t p).right = some x
                · -- Case B: left-rotate at the parent, then right-rotate at the grandparent
                  obtain ⟨t1, ht1, ht1sz, ht1col, ht1pa, ht1pb, ht1fr, ht1rt, ht1br, ht1q⟩ :=
                    rotateLeft_spec t p x hpr hxnep hcl hq
                  rw [if_pos hpr, ht1]
                  dsimp only
                  rw [ht1pa]
                  dsimp only
                  rw [parent_setColor, ht1pb, hgp]
                  dsimp only
                  have hab3 : (getN (setColor (setColor t1 x false) g true) g).left = some x := by
                    rw [left_setColor, left_setColor]
                    exact (ht1q g hgp).1 hgl
                  have hxr3 : (getN (setColor (setColor t1 x false) g true) x).right
                      = (getN t x).right := by
                    rw [right_setColor, right_setColor]
                    exact ht1br
                  have hcl3 : ∀ c, (getN (setColor (setColor t1 x false) g true) x).right = some c →
                      c ≠ g ∧ c ≠ x := by
                    intro c hc
                    rw [hxr3] at hc
                    obtain ⟨-, hlt⟩ := hChild x hxS c (Or.inr hc)
                    exact ⟨by intro he; rw [he] at hlt; omega,
                      by intro he; rw [he] at hlt; omega⟩
                  have hgpar3 : (getN (setColor (setColor t1 x false) g true) g).parent
                      = (getN t g).parent := by
                    rw [parent_setColor, parent_setColor]
                    refine ht1fr g (Ne.symm hpg) (Ne.symm hxg) ?_
                    intro hc
                    obtain ⟨-, hlt⟩ := hChild x hxS g (Or.inl hc)
                    omega
                  have hq3 : ∀ q, (getN (setColor (setColor t1 x false) g true) g).parent = some q →
                      q ≠ g ∧ q ≠ x ∧
                      (getN (setColor (setColor t1 x false) g true) x).right ≠ some q := by
                    intro q hqe
                    rw [hgpar3] at hqe
                    obtain ⟨hqS, hql⟩ := hRank g hgS q hqe
                    refine ⟨by intro he; rw [he] at hql; omega,
                      by intro he; rw [he] at hql; omega, ?_⟩
                    rw [hxr3]
                    intro hc
                    obtain ⟨-, hlt⟩ := hChild x hxS q (Or.inr hc)
                    omega
                  obtain ⟨t4, ht4, ht4sz, ht4col, ht4pa, ht4pb, ht4fr, ht4rt, ht4bl, ht4q⟩ :=
                    rotateRight_spec (setColor (setColor t1 x false) g true) g x hab3
                      (Ne.symm hxg).symm hcl3 hq3
                  rw [ht4]
                  dsimp only
                  obtain ⟨m, hm⟩ : ∃ m, n = m + 1 := ⟨n - 1, by omega⟩
                  subst hm
                  apply fixInsertGo_exit
                  · rw [ht4rt]
                    by_cases hnone :
                        (getN (setColor (setColor t1 x false) g true) g).parent = none
                    · rw [if_pos hnone]
                      exact ⟨x, rfl⟩
                    · rw [if_neg hnone, root_setColor, root_setColor, ht1rt, hgp]
                      rw [if_neg (by simp)]
                      exact ⟨r0, hr0⟩
                  · right
                    refine ⟨x, ?_, ?_⟩
                    · rw [ht4fr p hpg (Ne.symm hxnep) ?_, parent_setColor, parent_setColor]
                      · exact ht1pa
                      · rw [hxr3]
                        intro hc
                        obtain ⟨-, hlt⟩ := hChild x hxS p (Or.inr hc)
                        omega
                    · rw [ht4col x, color_setColor_other _ g _ x hxg, color_setColor_self]
                · -- Case C: single right rotation at the grandparent
                  rw [if_neg hpr]
                  dsimp only
                  rw [hxp]
                  dsimp only
                  rw [parent_setColor, hgp]
                  dsimp only
                  have hab3 : (getN (setColor (setColor t p false) g true) g).left = some p := by
                    rw [left_setColor, left_setColor]
                    exact hgl
                  have hcl3 : ∀ c, (getN (setColor (setColor t p false) g true) p).right = some c →
                      c ≠ g ∧ c ≠ p := by
                    intro c hc
                    rw [right_setColor, right_setColor] at hc
                    obtain ⟨-, hlt⟩ := hChild p hpS c (Or.inr hc)
                    exact ⟨by intro he; rw [he] at hlt; omega,
                      by intro he; rw [he] at hlt; omega⟩
                  have hq3 : ∀ q, (getN (setColor (setColor t p false) g true) g).parent = some q →
                      q ≠ g ∧ q ≠ p ∧
                      (getN (setColor (setColor t p false) g true) p).right ≠ some q := by
                    intro q hqe
                    rw [parent_setColor, parent_setColor] at hqe
                    obtain ⟨hqS, hql⟩ := hRank g hgS q hqe
                    refine ⟨by intro he; rw [he] at hql; omega,
                      by intro he; rw [he] at hql; omega, ?_⟩
                    rw [right_setColor, right_setColor]
                    intro hc
                    obtain ⟨-, hlt⟩ := hChild p hpS q (Or.inr hc)
                    omega
                  obtain ⟨t4, ht4, ht4sz, ht4col, ht4pa, ht4pb, ht4fr, ht4rt, ht4bl, ht4q⟩ :=
                    rotateRight_spec (setColor (setColor t p false) g true) g p hab3 hpg hcl3 hq3
                  rw [ht4]
                  dsimp only
                  obtain ⟨m, hm⟩ : ∃ m, n = m + 1 := ⟨n - 1, by omega⟩
                  subst hm
                  apply fixInsertGo_exit
                  · rw [ht4rt]
                    by_cases hnone : (getN (setColor (setColor t p false) g true) g).parent = none
                    · rw [if_pos hnone]
                      exact ⟨p, rfl⟩
                    · rw [if_neg hnone, root_setColor, root_setColor]
                      exact ⟨r0, hr0⟩
                  · right
                    refine ⟨p, ?_, ?_⟩
                    · rw [ht4fr x hxg hxnep
                        (by rw [right_setColor, right_setColor]; exact hpr),
                        parent_setColor, parent_setColor]
                      exact hxp
                    · rw [ht4col p, color_setColor_other _ g _ p hpg, color_setColor_self]
            · -- mirror image: the parent is the grandparent's right child
              rw [if_neg hgl]
              have hgr : (getN t g).right = some p := by
                rcases hUp p hpS g hgp with hsl | hsr
                · exact absurd hsl hgl
                · exact hsr
              by_cases hu : isRed t (getN t g).left = true
              · rw [if_pos hu]
                cases hul : (getN t g).left with
                | none => rw [hul] at hu; simp [isRed] at hu
                | some u =>
                  simp only [left_setColor]
                  rw [hul]
                  dsimp only
                  refine ih _ g saw
                    (RankOK_setColor _ _ _ _ _ (RankOK_setColor _ _ _ _ _
                      (RankOK_setColor _ _ _ _ _ hRank)))
                    (ChildOK_setColor _ _ _ _ _ (ChildOK_setColor _ _ _ _ _
                      (ChildOK_setColor _ _ _ _ _ hChild)))
                    (UpOK_setColor _ _ _ _ (UpOK_setColor _ _ _ _
                      (UpOK_setColor _ _ _ _ hUp)))
                    (RootOK_setColor _ _ _ _ (RootOK_setColor _ _ _ _
                      (RootOK_setColor _ _ _ _ hRoot)))
                    ⟨r0, ?_, ?_⟩ hgS (by omega)
                  · rw [root_setColor, root_setColor, root_setColor]
                    exact hr0
                  · by_cases hrg : r0 = g
                    · exact Or.inr hrg
                    · left
                      rw [color_setColor_other _ g _ r0 hrg]
                      by_cases hru : r0 = u
                      · rw [hru, color_setColor_self]
                      · rw [color_setColor_other _ u _ r0 hru]
                        by_cases hrp : r0 = p
                        · rw [hrp, color_setColor_self]
                        · rw [color_setColor_other _ p _ r0 hrp]
                          rcases hr0c with hc | hc
                          · exact hc
                          · rw [hc] at hr0
                            exact absurd hr0 hrx
              · rw [if_neg hu]
                have hcl : ∀ c, (getN t x).right = some c → c ≠ p ∧ c ≠ x := by
                  intro c hc
                  obtain ⟨-, hlt⟩ := hChild x hxS c (Or.inr hc)
                  exact ⟨by intro he; rw [he] at hlt; omega,
                    by intro he; rw [he] at hlt; omega⟩
                have hq : ∀ q, (getN t p).parent = some q →
                    q ≠ p ∧ q ≠ x ∧ (getN t x).right ≠ some q := by
                  intro q hqe
                  rw [hgp] at hqe
                  injection hqe with hqe
                  subst hqe
                  refine ⟨Ne.symm hpg, Ne.symm hxg, ?_⟩
                  intro hc
                  obtain ⟨-, hlt⟩ := hChild x hxS g (Or.inr hc)
                  omega
                by_cases hpl : (getN t p).left = some x
                · -- mirror Case B: right-rotate at the parent, then left-rotate at the grandparent
                  obtain ⟨t1, ht1, ht1sz, ht1col, ht1pa, ht1pb, ht1fr, ht1rt, ht1bl, ht1q⟩ :=
                    rotateRight_spec t p x hpl hxnep hcl hq
                  rw [if_pos hpl, ht1]
                  dsimp only
                  rw [ht1pa]
                  dsimp only
                  rw [parent_setColor, ht1pb, hgp]
                  dsimp only
                  have hab3 : (getN (setColor (setColor t1 x false) g true) g).right = some x := by
                    rw [right_setColor, right_setColor]
                    exact (ht1q g hgp).1 hgr
                  have hxl3 : (getN (setColor (setColor t1 x false) g true) x).left
                      = (getN t x).left := by
                    rw [left_setColor, left_setColor]
                    exact ht1bl
                  have hcl3 : ∀ c, (getN (setColor (setColor t1 x false) g true) x).left = some c →
                      c ≠ g ∧ c ≠ x := by
                    intro c hc
                    rw [hxl3] at hc
                    obtain ⟨-, hlt⟩ := hChild x hxS c (Or.inl hc)
                    exact ⟨by intro he; rw [he] at hlt; omega,
                      by intro he; rw [he] at hlt; omega⟩
                  have hgpar3 : (getN (setColor (setColor t1 x false) g true) g).parent
                      = (getN t g).parent := by
                    rw [parent_setColor, parent_setColor]
                    refine ht1fr g (Ne.symm hpg) (Ne.symm hxg) ?_
                    intro hc
                    obtain ⟨-, hlt⟩ := hChild x hxS g (Or.inr hc)
                    omega
                  have hq3 : ∀ q, (getN (setColor (setColor t1 x false) g true) g).parent = some q →
                      q ≠ g ∧ q ≠ x ∧
                      (getN (setColor (setColor t1 x false) g true) x).left ≠ some q := by
                    intro q hqe
                    rw [hgpar3] at hqe
                    obtain ⟨hqS, hql⟩ := hRank g hgS q hqe
                    refine ⟨by intro he; rw [he] at hql; omega,
                      by intro he; rw [he] at hql; omega, ?_⟩
                    rw [hxl3]
                    intro hc
                    obtain ⟨-, hlt⟩ := hChild x hxS q (Or.inl hc)
                    omega
                  obtain ⟨t4, ht4, ht4sz, ht4col, ht4pa, ht4pb, ht4fr, ht4rt, ht4br, ht4q⟩ :=
                    rotateLeft_spec (setColor (setColor t1 x false) g true) g x hab3
                      (Ne.symm hxg).symm hcl3 hq3
                  rw [ht4]
                  dsimp only
                  obtain ⟨m, hm⟩ : ∃ m, n = m + 1 := ⟨n - 1, by omega⟩
                  subst hm
                  apply fixInsertGo_exit
                  · rw [ht4rt]
                    by_cases hnone :
                        (getN (setColor (setColor t1 x false) g true) g).parent = none
                    · rw [if_pos hnone]
                      exact ⟨x, rfl⟩
                    · rw [if_neg hnone, root_setColor, root_setColor, ht1rt, hgp]
                      rw [if_neg (by simp)]
                      exact ⟨r0, hr0⟩
                  · right
                    refine ⟨x, ?_, ?_⟩
                    · rw [ht4fr p hpg (Ne.symm hxnep) ?_, parent_setColor, parent_setColor]
                      · exact ht1pa
                      · rw [hxl3]
                        intro hc
                        obtain ⟨-, hlt⟩ := hChild x hxS p (Or.inl hc)
                        omega
                    · rw [ht4col x, color_setColor_other _ g _ x hxg, color_setColor_self]
                · -- mirror Case C: single left rotation at the grandparent
                  rw [if_neg hpl]
                  dsimp only
                  rw [hxp]
                  dsimp only
                  rw [parent_setColor, hgp]
                  dsimp only
                  have hab3 : (getN (setColor (setColor t p false) g true) g).right = some p := by
                    rw [right_setColor, right_setColor]
                    exact hgr
                  have hcl3 : ∀ c, (getN (setColor (setColor t p false) g true) p).left = some c →
                      c ≠ g ∧ c ≠ p := by
                    intro c hc
                    rw [left_setColor, left_setColor] at hc
                    obtain ⟨-, hlt⟩ := hChild p hpS c (Or.inl hc)
                    exact ⟨by intro he; rw [he] at hlt; omega,
                      by intro he; rw [he] at hlt; omega⟩
                  have hq3 : ∀ q, (getN (setColor (setColor t p false) g true) g).parent = some q →
                      q ≠ g ∧ q ≠ p ∧
                      (getN (setColor (setColor t p false) g true) p).left ≠ some q := by
                    intro q hqe
                    rw [parent_setColor, parent_setColor] at hqe
                    obtain ⟨hqS, hql⟩ := hRank g hgS q hqe
                    refine ⟨by intro he; rw [he] at hql; omega,
                      by intro he; rw [he] at hql; omega, ?_⟩
                    rw [left_setColor, left_setColor]
                    intro hc
                    obtain ⟨-, hlt⟩ := hChild p hpS q (Or.inl hc)
                    omega
                  obtain ⟨t4, ht4, ht4sz, ht4col, ht4pa, ht4pb, ht4fr, ht4rt, ht4br, ht4q⟩ :=
                    rotateLeft_spec (setColor (setColor t p false) g true) g p hab3 hpg hcl3 hq3
                  rw [ht4]
                  dsimp only
                  obtain ⟨m, hm⟩ : ∃ m, n = m + 1 := ⟨n - 1, by omega⟩
                  subst hm
                  apply fixInsertGo_exit
                  · rw [ht4rt]
                    by_cases hnone : (getN (setColor (setColor t p false) g true) g).parent = none
                    · rw [if_pos hnone]
                      exact ⟨p, rfl⟩
                    · rw [if_neg hnone, root_setColor, root_setColor]
                      exact ⟨r0, hr0⟩
                  · right
                    refine ⟨p, ?_, ?_⟩
                    · rw [ht4fr x hxg hxnep
                        (by rw [left_setColor, left_setColor]; exact hpl),
                        parent_setColor, parent_setColor]
                      exact hxp
                    · rw [ht4col p, color_setColor_other _ g _ p hpg, color_setColor_self]

/-! ## Totality of Insert on a valid tree -/

/-- Sharpened descent: at the attach point the slot on the descending side
is `nil` (this is the slot the code then overwrites). -/
theorem insertLoop_attach (t : RBTree) (k : Int) :
    ∀ (f : Nat) (c : Nat) (bc : BT), toBT t f (some c) = some bc →
      (∃ i, insertLoop t k f c = some (Sum.inl i)) ∨
      (∃ p, insertLoop t k f c = some (Sum.inr p) ∧ p ∈ idxs bc ∧
        ((k < (getN t p).key ∧ (getN t p).left = none) ∨
         ((getN t p).key < k ∧ (getN t p).right = none))) := by
  intro f
  induction f with
  | zero => intro c bc hb; simp [toBT] at hb
  | succ f ih =>
    intro c bc hb
    unfold toBT at hb
    cases hL : toBT t f (getN t c).left with
    | none => rw [hL] at hb; cases hR : toBT t f (getN t c).right <;> rw [hR] at hb <;> simp at hb
    | some bl =>
      cases hR : toBT t f (getN t c).right with
      | none => rw [hL, hR] at hb; simp at hb
      | some br =>
        rw [hL, hR] at hb
        simp only [Option.some.injEq] at hb
        subst hb
        unfold insertLoop
        by_cases h1 : k < (getN t c).key
        · rw [if_pos h1]
          cases hcl : (getN t c).left with
          | none =>
            exact Or.inr ⟨c, rfl, by simp [idxs], Or.inl ⟨h1, hcl⟩⟩
          | some l =>
            rw [hcl] at hL
            rcases ih l bl hL with ⟨i, hi⟩ | ⟨p, hp, hpm, hps⟩
            · exact Or.inl ⟨i, hi⟩
            · refine Or.inr ⟨p, hp, ?_, hps⟩
              simp only [idxs, List.mem_append, List.mem_cons]
              exact Or.inl hpm
        · rw [if_neg h1]
          by_cases h2 : (getN t c).key < k
          · rw [if_pos h2]
            cases hcr : (getN t c).right with
            | none =>
              exact Or.inr ⟨c, rfl, by simp [idxs], Or.inr ⟨h2, hcr⟩⟩
            | some r =>
              rw [hcr] at hR
              rcases ih r br hR with ⟨i, hi⟩ | ⟨p, hp, hpm, hps⟩
              · exact Or.inl ⟨i, hi⟩
              · refine Or.inr ⟨p, hp, ?_, hps⟩
                simp only [idxs, List.mem_append, List.mem_cons]
                exact Or.inr (Or.inr hpm)
          · rw [if_neg h2]
            exact Or.inl ⟨c, rfl⟩

/-- Running the insert fixup from a freshly attached Red leaf of a valid
tree completes with the defensive flag down.  `t2` is the attached state,
described by its fields relative to the valid base tree `t`. -/
theorem attach_fix_total (t : RBTree) (b : BT) (hw : WFb t b)
    (r : Nat) (hr : t.root = some r) (hrc : (getN t r).color = false)
    (par : Nat) (hpm : par ∈ idxs b)
    (t2 : RBTree)
    (hroot2 : t2.root = t.root)
    (hother : ∀ j, j ≠ par → j ≠ t.size → getN t2 j = getN t j)
    (hn_p : (getN t2 t.size).parent = some par)
    (hn_l : (getN t2 t.size).left = none)
    (hn_r : (getN t2 t.size).right = none)
    (hp_p : (getN t2 par).parent = (getN t par).parent)
    (hp_c : (getN t2 par).color = (getN t par).color)
    (hparslot :
      ((getN t2 par).left = some t.size ∧ (getN t2 par).right = (getN t par).right ∧
        (getN t par).left = none) ∨
      ((getN t2 par).right = some t.size ∧ (getN t2 par).left = (getN t par).left ∧
        (getN t par).right = none)) :
    ∃ u, fixInsertGo t2 t.size false (t.size + 1 + 3) = some (u, false) := by
  have hallS : ∀ j ∈ idxs b, j < t.size := hw.2.2.2
  have hparlt : par < t.size := hallS par hpm
  refine fixInsertGo_total (t.size :: idxs b)
    (fun j => if j = t.size then rankOf t par + 1 else rankOf t j)
    (t.size + 1 + 3) t2 t.size false ?_ ?_ ?_ ?_ ?_ (List.mem_cons_self _ _) ?_
  · -- RankOK
    intro j hj p hp
    dsimp only
    rcases List.mem_cons.mp hj with hj | hj
    · subst hj
      rw [hn_p] at hp
      injection hp with hp
      subst hp
      refine ⟨List.mem_cons_of_mem _ hpm, ?_⟩
      rw [if_pos rfl, if_neg (by omega : par ≠ t.size)]
      omega
    · have hjlt := hallS j hj
      have hjne : j ≠ t.size := by omega
      by_cases hjp : j = par
      · subst hjp
        rw [hp_p] at hp
        obtain ⟨hpS, hplt⟩ := wfb_rankOK t b hw j hj p hp
        have hplt2 := hallS p hpS
        refine ⟨List.mem_cons_of_mem _ hpS, ?_⟩
        rw [if_neg (by omega : p ≠ t.size), if_neg hjne]
        exact hplt
      · rw [hother j hjp hjne] at hp
        obtain ⟨hpS, hplt⟩ := wfb_rankOK t b hw j hj p hp
        have hplt2 := hallS p hpS
        refine ⟨List.mem_cons_of_mem _ hpS, ?_⟩
        rw [if_neg (by omega : p ≠ t.size), if_neg hjne]
        exact hplt
  · -- ChildOK
    intro j hj c hc
    dsimp only
    rcases List.mem_cons.mp hj with hj | hj
    · subst hj
      rw [hn_l, hn_r] at hc
      rcases hc with hc | hc
      · exact Option.noConfusion hc
      · exact Option.noConfusion hc
    · have hjlt := hallS j hj
      have hjne : j ≠ t.size := by omega
      by_cases hjp : j = par
      · subst hjp
        rcases hparslot with ⟨hL2, hR2, -⟩ | ⟨hR2, hL2, -⟩
        · rw [hL2, hR2] at hc
          rcases hc with hc | hc
          · injection hc with hc
            subst hc
            refine ⟨List.mem_cons_self _ _, ?_⟩
            rw [if_neg hjne, if_pos rfl]
            omega
          · obtain ⟨hcS, hclt⟩ := wfb_childOK t b hw j hj c (Or.inr hc)
            have hclt2 := hallS c hcS
            refine ⟨List.mem_cons_of_mem _ hcS, ?_⟩
            rw [if_neg hjne, if_neg (by omega : c ≠ t.size)]
            exact hclt
        · rw [hL2, hR2] at hc
          rcases hc with hc | hc
          · obtain ⟨hcS, hclt⟩ := wfb_childOK t b hw j hj c (Or.inl hc)
            have hclt2 := hallS c hcS
            refine ⟨List.mem_cons_of_mem _ hcS, ?_⟩
            rw [if_neg hjne, if_neg (by omega : c ≠ t.size)]
            exact hclt
          · injection hc with hc
            subst hc
            refine ⟨List.mem_cons_self _ _, ?_⟩
            rw [if_neg hjne, if_pos rfl]
            omega
      · rw [hother j hjp hjne] at hc
        obtain ⟨hcS, hclt⟩ := wfb_childOK t b hw j hj c hc
        have hclt2 := hallS c hcS
        refine ⟨List.mem_cons_of_mem _ hcS, ?_⟩
        rw [if_neg hjne, if_neg (by omega : c ≠ t.size)]
        exact hclt
  · -- UpOK
    intro j hj p hp
    rcases List.mem_cons.mp hj with hj | hj
    · subst hj
      rw [hn_p] at hp
      injection hp with hp
      subst hp
      rcases hparslot with ⟨hL2, -, -⟩ | ⟨hR2, -, -⟩
      · exact Or.inl hL2
      · exact Or.inr hR2
    · have hjlt := hallS j hj
      have hjne : j ≠ t.size := by omega
      by_cases hjp : j = par
      · subst hjp
        rw [hp_p] at hp
        obtain ⟨hpS, hplt⟩ := wfb_rankOK t b hw j hj p hp
        have hup := wfb_upOK t b hw j hj p hp
        by_cases hppar : p = j
        · exfalso
          rw [hppar] at hplt
          omega
        · have hpne : p ≠ t.size := by
            have := hallS p hpS
            omega
          rw [hother p hppar hpne]
          exact hup
      · rw [hother j hjp hjne] at hp
        obtain ⟨hpS, hplt⟩ := wfb_rankOK t b hw j hj p hp
        have hup := wfb_upOK t b hw j hj p hp
        by_cases hppar : p = par
        · subst hppar
          rcases hparslot with ⟨hL2, hR2, hLold⟩ | ⟨hR2, hL2, hRold⟩
          · rcases hup with hup | hup
            · rw [hLold] at hup
              exact Option.noConfusion hup
            · rw [hR2]
              exact Or.inr hup
          · rcases hup with hup | hup
            · rw [hL2]
              exact Or.inl hup
            · rw [hRold] at hup
              exact Option.noConfusion hup
        · have hpne : p ≠ t.size := by
            have := hallS p hpS
            omega
          rw [hother p hppar hpne]
          exact hup
  · -- RootOK
    intro j hj hp
    rw [hroot2]
    rcases List.mem_cons.mp hj with hj | hj
    · subst hj
      rw [hn_p] at hp
      exact Option.noConfusion hp
    · have hjne : j ≠ t.size := by have := hallS j hj; omega
      by_cases hjp : j = par
      · subst hjp
        rw [hp_p] at hp
        exact wfb_rootOK t b hw j hj hp
      · rw [hother j hjp hjne] at hp
        exact wfb_rootOK t b hw j hj hp
  · -- the root is unchanged and Black
    refine ⟨r, by rw [hroot2]; exact hr, Or.inl ?_⟩
    have hrS : r ∈ idxs b := (wfb_root_mem t b hw r hr).1
    have hrne : r ≠ t.size := by have := hallS r hrS; omega
    by_cases hrpar : r = par
    · rw [hrpar] at hrc ⊢
      rw [hp_c]
      exact hrc
    · rw [hother r hrpar hrne]
      exact hrc
  · -- fuel
    have hle := wfb_rank_le t b hw par hpm
    dsimp only
    rw [if_pos rfl]
    omega

/-- `Insert` on a valid tree completes (`some`) with the defensive flag of
the fixup down (`false`). -/
theorem insertI_total (t : RBTree) (k v : Int) (h : validRB t = true) :
    ∃ u, InsertI t k v = some (u, false) := by
  obtain ⟨b, hw, hrb⟩ := validRB_wfb t h
  unfold InsertI
  cases hr : t.root with
  | none => exact ⟨_, rfl⟩
  | some r =>
    dsimp only
    have hbr : toBT t (t.size + 1) (some r) = some b := by
      have h1 := hw.1
      rw [hr] at h1
      exact h1
    rcases insertLoop_attach t k (t.size + 1) r b hbr with ⟨i, hi⟩ | ⟨par, hp, hpm, hslot⟩
    · refine ⟨setValue t i v, ?_⟩
      rw [hi]
    · rw [hp]
      dsimp only
      have hparlt : par < t.size := hw.2.2.2 par hpm
      have hget1 : ∀ j,
          getN (RBTree.mk (upd t.nodes t.size (RBNode.mk k v true none none (some par)))
            (t.size + 1) (some r)) j
          = if j = t.size then RBNode.mk k v true none none (some par) else getN t j :=
        fun _ => rfl
      have hkeq : (getN (RBTree.mk (upd t.nodes t.size
          (RBNode.mk k v true none none (some par))) (t.size + 1) (some r)) par).key
          = (getN t par).key := by
        rw [hget1 par, if_neg (by omega : par ≠ t.size)]
      by_cases hkk : k < (getN (RBTree.mk (upd t.nodes t.size
          (RBNode.mk k v true none none (some par))) (t.size + 1) (some r)) par).key
      · rw [if_pos hkk]
        rw [hkeq] at hkk
        have hLold : (getN t par).left = none := by
          rcases hslot with ⟨-, hl⟩ | ⟨hgt, -⟩
          · exact hl
          · exfalso
            omega
        obtain ⟨u, hu⟩ := attach_fix_total t b hw r hr (hrb r hr) par hpm
          (setLeft (RBTree.mk (upd t.nodes t.size (RBNode.mk k v true none none (some par)))
            (t.size + 1) (some r)) par (some t.size))
          (by rw [root_setLeft]; exact hr.symm)
          (by
            intro j hjp hjn
            rw [getN_setLeft, if_neg hjp, hget1 j, if_neg hjn])
          (by
            rw [getN_setLeft, if_neg (by omega : t.size ≠ par), hget1 t.size, if_pos rfl])
          (by
            rw [getN_setLeft, if_neg (by omega : t.size ≠ par), hget1 t.size, if_pos rfl])
          (by
            rw [getN_setLeft, if_neg (by omega : t.size ≠ par), hget1 t.size, if_pos rfl])
          (by
            rw [getN_setLeft, if_pos rfl]
            dsimp only
            rw [hget1 par, if_neg (by omega : par ≠ t.size)])
          (by
            rw [getN_setLeft, if_pos rfl]
            dsimp only
            rw [hget1 par, if_neg (by omega : par ≠ t.size)])
          (Or.inl ⟨by rw [getN_setLeft, if_pos rfl], by
            rw [getN_setLeft, if_pos rfl]
            dsimp only
            rw [hget1 par, if_neg (by omega : par ≠ t.size)], hLold⟩)
        exact ⟨u, hu⟩
      · rw [if_neg hkk]
        rw [hkeq] at hkk
        have hRold : (getN t par).right = none := by
          rcases hslot with ⟨hlt, -⟩ | ⟨-, hrn⟩
          · exact absurd hlt hkk
          · exact hrn
        obtain ⟨u, hu⟩ := attach_fix_total t b hw r hr (hrb r hr) par hpm
          (setRight (RBTree.mk (upd t.nodes t.size (RBNode.mk k v true none none (some par)))
            (t.size + 1) (some r)) par (some t.size))
          (by rw [root_setRight]; exact hr.symm)
          (by
            intro j hjp hjn
            rw [getN_setRight, if_neg hjp, hget1 j, if_neg hjn])
          (by
            rw [getN_setRight, if_neg (by omega : t.size ≠ par), hget1 t.size, if_pos rfl])
          (by
            rw [getN_setRight, if_neg (by omega : t.size ≠ par), hget1 t.size, if_pos rfl])
          (by
            rw [getN_setRight, if_neg (by omega : t.size ≠ par), hget1 t.size, if_pos rfl])
          (by
            rw [getN_setRight, if_pos rfl]
            dsimp only
            rw [hget1 par, if_neg (by omega : par ≠ t.size)])
          (by
            rw [getN_setRight, if_pos rfl]
            dsimp only
            rw [hget1 par, if_neg (by omega : par ≠ t.size)])
          (Or.inr ⟨by rw [getN_setRight, if_pos rfl], by
            rw [getN_setRight, if_pos rfl]
            dsimp only
            rw [hget1 par, if_neg (by omega : par ≠ t.size)], hRold⟩)
        exact ⟨u, hu⟩

/-! ## Totality of the delete fixup -/

theorem fixDFinish_some (t : RBTree) (node : Option Nat) (saw : Bool) :
    ∃ res, fixDFinish t node saw = some res := by
  unfold fixDFinish
  cases node with
  | none => exact ⟨_, rfl⟩
  | some i => exact ⟨_, rfl⟩

/-- Cases B/C/D of the delete-fixup body never panic, and the continuing
outcomes are: pure recoloring with the climb moving to `p1` (case B), or
`node = root` (case D); everything else breaks out. -/
theorem fixDeleteTail_spec (t : RBTree) (node : Option Nat) (p1 s : Nat)
    (hs : (getN t p1).right = some s ∨ (getN t p1).left = some s) :
    ∃ t2 n2 pr2 brk snil, fixDeleteTail t node p1 s = some (t2, n2, pr2, brk, snil) ∧
      (brk = true ∨
        (t2 = setColor t s true ∧ n2 = some p1 ∧ pr2 = (getN t p1).parent) ∨
        n2 = t2.root) := by
  unfold fixDeleteTail
  by_cases hB : (!isRed t (getN t s).left && !isRed t (getN t s).right) = true
  · rw [if_pos hB]
    dsimp only
    exact ⟨_, _, _, _, _, rfl, Or.inr (Or.inl ⟨rfl, rfl, parent_setColor t s true p1⟩)⟩
  · rw [if_neg hB]
    have hred : isRed t (getN t s).left = true ∨ isRed t (getN t s).right = true := by
      by_cases hL : isRed t (getN t s).left = true
      · exact Or.inl hL
      · by_cases hR : isRed t (getN t s).right = true
        · exact Or.inr hR
        · exfalso
          apply hB
          rw [Bool.not_eq_true] at hL hR
          rw [hL, hR]
          rfl
    by_cases hligne : (getN t p1).right = some s
    · rw [if_pos hligne]
      by_cases hsr : (!isRed t (getN t s).right) = true
      · rw [if_pos hsr]
        have hslred : isRed t (getN t s).left = true := by
          rcases hred with h | h
          · exact h
          · rw [Bool.not_eq_true'] at hsr
            rw [h] at hsr
            cases hsr
        cases hsl : (getN t s).left with
        | none => rw [hsl] at hslred; simp [isRed] at hslred
        | some sl =>
          dsimp only
          have hsleft : (getN (setColor (setColor t sl false) s true) s).left = some sl := by
            rw [left_setColor, left_setColor]
            exact hsl
          obtain ⟨t3, ht3⟩ := rotateRight_some _ s sl hsleft
          rw [ht3]
          dsimp only
          cases hs1 : (getN t3 p1).right with
          | none => exact ⟨_, _, _, _, _, rfl, Or.inl rfl⟩
          | some s1 =>
            dsimp only
            cases hsr2 : (getN (setColor (setColor t3 s1 (getN t3 p1).color) p1 false) s1).right with
            | some sr =>
              dsimp only
              have h6 : (getN (setColor (setColor (setColor t3 s1 (getN t3 p1).color) p1 false)
                  sr false) p1).right = some s1 := by
                rw [right_setColor, right_setColor, right_setColor]
                exact hs1
              obtain ⟨t7, ht7⟩ := rotateLeft_some _ p1 s1 h6
              rw [ht7]
              exact ⟨_, _, _, _, _, rfl, Or.inr (Or.inr rfl)⟩
            | none =>
              dsimp only
              have h6 : (getN (setColor (setColor t3 s1 (getN t3 p1).color) p1 false) p1).right
                  = some s1 := by
                rw [right_setColor, right_setColor]
                exact hs1
              obtain ⟨t7, ht7⟩ := rotateLeft_some _ p1 s1 h6
              rw [ht7]
              exact ⟨_, _, _, _, _, rfl, Or.inr (Or.inr rfl)⟩
      · rw [if_neg hsr]
        dsimp only
        cases hsr2 : (getN (setColor (setColor t s (getN t p1).color) p1 false) s).right with
        | some sr =>
          dsimp only
          have h6 : (getN (setColor (setColor (setColor t s (getN t p1).color) p1 false)
              sr false) p1).right = some s := by
            rw [right_setColor, right_setColor, right_setColor]
            exact hligne
          obtain ⟨t7, ht7⟩ := rotateLeft_some _ p1 s h6
          rw [ht7]
          exact ⟨_, _, _, _, _, rfl, Or.inr (Or.inr rfl)⟩
        | none =>
          dsimp only
          have h6 : (getN (setColor (setColor t s (getN t p1).color) p1 false) p1).right
              = some s := by
            rw [right_setColor, right_setColor]
            exact hligne
          obtain ⟨t7, ht7⟩ := rotateLeft_some _ p1 s h6
          rw [ht7]
          exact ⟨_, _, _, _, _, rfl, Or.inr (Or.inr rfl)⟩
    · rw [if_neg hligne]
      have hsleft0 : (getN t p1).left = some s := by
        rcases hs with h | h
        · exact absurd h hligne
        · exact h
      by_cases hsl : (!isRed t (getN t s).left) = true
      · rw [if_pos hsl]
        have hsrred : isRed t (getN t s).right = true := by
          rcases hred with h | h
          · rw [Bool.not_eq_true'] at hsl
            rw [h] at hsl
            cases hsl
          · exact h
        cases hsrw : (getN t s).right with
        | none => rw [hsrw] at hsrred; simp [isRed] at hsrred
        | some sr =>
          dsimp only
          have hsright : (getN (setColor (setColor t sr false) s true) s).right = some sr := by
            rw [right_setColor, right_setColor]
            exact hsrw
          obtain ⟨t3, ht3⟩ := rotateLeft_some _ s sr hsright
          rw [ht3]
          dsimp only
          cases hs1 : (getN t3 p1).left with
          | none => exact ⟨_, _, _, _, _, rfl, Or.inl rfl⟩
          | some s1 =>
            dsimp only
            cases hsr2 : (getN (setColor (setColor t3 s1 (getN t3 p1).color) p1 false) s1).left with
            | some sl =>
              dsimp only
              have h6 : (getN (setColor (setColor (setColor t3 s1 (getN t3 p1).color) p1 false)
                  sl false) p1).left = some s1 := by
                rw [left_setColor, left_setColor, left_setColor]
                exact hs1
              obtain ⟨t7, ht7⟩ := rotateRight_some _ p1 s1 h6
              rw [ht7]
              exact ⟨_, _, _, _, _, rfl, Or.inr (Or.inr rfl)⟩
            | none =>
              dsimp only
              have h6 : (getN (setColor (setColor t3 s1 (getN t3 p1).color) p1 false) p1).left
                  = some s1 := by
                rw [left_setColor, left_setColor]
                exact hs1
              obtain ⟨t7, ht7⟩ := rotateRight_some _ p1 s1 h6
              rw [ht7]
              exact ⟨_, _, _, _, _, rfl, Or.inr (Or.inr rfl)⟩
      · rw [if_neg hsl]
        dsimp only
        cases hsr2 : (getN (setColor (setColor t s (getN t p1).color) p1 false) s).left with
        | some sl =>
          dsimp only
          have h6 : (getN (setColor (setColor (setColor t s (getN t p1).color) p1 false)
              sl false) p1).left = some s := by
            rw [left_setColor, left_setColor, left_setColor]
            exact hsleft0
          obtain ⟨t7, ht7⟩ := rotateRight_some _ p1 s h6
          rw [ht7]
          exact ⟨_, _, _, _, _, rfl, Or.inr (Or.inr rfl)⟩
        | none =>
          dsimp only
          have h6 : (getN (setColor (setColor t s (getN t p1).color) p1 false) p1).left
              = some s := by
            rw [left_setColor, left_setColor]
            exact hsleft0
          obtain ⟨t7, ht7⟩ := rotateRight_some _ p1 s h6
          rw [ht7]
          exact ⟨_, _, _, _, _, rfl, Or.inr (Or.inr rfl)⟩

/-- The sibling dispatch of the delete-fixup body (red-sibling preparation
followed by the tail), for a sibling read out of one of `p1`'s slots. -/
theorem fixDeleteStep_core (t : RBTree) (node : Option Nat) (p1 s0 : Nat)
    (hslot : (getN t p1).right = some s0 ∨ (getN t p1).left = some s0) :
    ∃ t2 n2 pr2 brk snil,
      (if (getN t s0).color = true then
        if (getN (setColor (setColor t s0 false) p1 true) p1).right = some s0 then
          match rotateLeft (setColor (setColor t s0 false) p1 true) p1 with
          | none => none
          | some t3 =>
            match (getN t3 p1).right with
            | none => some (t3, node, some p1, true, true)
            | some s1 => fixDeleteTail t3 node p1 s1
        else
          match rotateRight (setColor (setColor t s0 false) p1 true) p1 with
          | none => none
          | some t3 =>
            match (getN t3 p1).left with
            | none => some (t3, node, some p1, true, true)
            | some s1 => fixDeleteTail t3 node p1 s1
      else fixDeleteTail t node p1 s0) = some (t2, n2, pr2, brk, snil) ∧
      (brk = true ∨
        (∃ s1, t2 = setColor t s1 true ∧ n2 = some p1) ∨
        isRed t2 n2 = true ∨
        n2 = t2.root) := by
  by_cases hs0red : (getN t s0).color = true
  · rw [if_pos hs0red]
    by_cases hpr : (getN (setColor (setColor t s0 false) p1 true) p1).right = some s0
    · rw [if_pos hpr]
      obtain ⟨t3, ht3⟩ := rotateLeft_some _ p1 s0 hpr
      rw [ht3]
      dsimp only
      have hcol3 : (getN t3 p1).color = true := by
        rw [rotateLeft_color _ _ _ ht3 p1]
        exact color_setColor_self _ p1 true
      cases hs1 : (getN t3 p1).right with
      | none => exact ⟨_, _, _, _, _, rfl, Or.inl rfl⟩
      | some s1 =>
        dsimp only
        obtain ⟨t2, n2, pr2, brk, snil, htail, hd⟩ :=
          fixDeleteTail_spec t3 node p1 s1 (Or.inl hs1)
        refine ⟨t2, n2, pr2, brk, snil, htail, ?_⟩
        rcases hd with hb | ⟨he, hn, -⟩ | hroot
        · exact Or.inl hb
        · refine Or.inr (Or.inr (Or.inl ?_))
          rw [he, hn]
          exact isRed_setColor_true t3 s1 p1 (Or.inl hcol3)
        · exact Or.inr (Or.inr (Or.inr hroot))
    · rw [if_neg hpr]
      have hleft : (getN (setColor (setColor t s0 false) p1 true) p1).left = some s0 := by
        rcases hslot with h | h
        · exfalso
          apply hpr
          rw [right_setColor, right_setColor]
          exact h
        · rw [left_setColor, left_setColor]
          exact h
      obtain ⟨t3, ht3⟩ := rotateRight_some _ p1 s0 hleft
      rw [ht3]
      dsimp only
      have hcol3 : (getN t3 p1).color = true := by
        rw [rotateRight_color _ _ _ ht3 p1]
        exact color_setColor_self _ p1 true
      cases hs1 : (getN t3 p1).left with
      | none => exact ⟨_, _, _, _, _, rfl, Or.inl rfl⟩
      | some s1 =>
        dsimp only
        obtain ⟨t2, n2, pr2, brk, snil, htail, hd⟩ :=
          fixDeleteTail_spec t3 node p1 s1 (Or.inr hs1)
        refine ⟨t2, n2, pr2, brk, snil, htail, ?_⟩
        rcases hd with hb | ⟨he, hn, -⟩ | hroot
        · exact Or.inl hb
        · refine Or.inr (Or.inr (Or.inl ?_))
          rw [he, hn]
          exact isRed_setColor_true t3 s1 p1 (Or.inl hcol3)
        · exact Or.inr (Or.inr (Or.inr hroot))
  · rw [if_neg hs0red]
    obtain ⟨t2, n2, pr2, brk, snil, htail, hd⟩ := fixDeleteTail_spec t node p1 s0 hslot
    refine ⟨t2, n2, pr2, brk, snil, htail, ?_⟩
    rcases hd with hb | ⟨he, hn, -⟩ | hroot
    · exact Or.inl hb
    · exact Or.inr (Or.inl ⟨s0, he, hn⟩)
    · exact Or.inr (Or.inr (Or.inr hroot))

/-- One pass of the delete-fixup loop body never panics; it either breaks,
recolors one node and climbs to a strictly smaller rank, or reaches a state
the next loop entry exits from (a Red node, or the root). -/
theorem fixDeleteStep_spec (S : List Nat) (rank : Nat → Nat) (t : RBTree)
    (node parent : Option Nat)
    (hRank : RankOK t S rank)
    (hnode : ∀ x, node = some x → x ∈ S)
    (hpar : ∀ p, node = none → parent = some p → p ∈ S) :
    ∃ t2 n2 pr2 brk snil, fixDeleteStep t node parent = some (t2, n2, pr2, brk, snil) ∧
      (brk = true ∨
        (∃ s1 p1, t2 = setColor t s1 true ∧ n2 = some p1 ∧ p1 ∈ S ∧
          rank p1 < fixDMeasure rank node parent) ∨
        isRed t2 n2 = true ∨
        n2 = t2.root) := by
  unfold fixDeleteStep
  cases parent with
  | none => exact ⟨_, _, _, _, _, rfl, Or.inl rfl⟩
  | some p =>
    dsimp only
    cases node with
    | none =>
      dsimp only
      have hpS : p ∈ S := hpar p rfl rfl
      by_cases hpl : (getN t p).left = none
      · rw [if_pos hpl]
        dsimp only
        cases hsib : (getN t p).right with
        | none => exact ⟨_, _, _, _, _, rfl, Or.inl rfl⟩
        | some s0 =>
          dsimp only
          obtain ⟨t2, n2, pr2, brk, snil, heq, hd⟩ :=
            fixDeleteStep_core t none p s0 (Or.inl hsib)
          refine ⟨t2, n2, pr2, brk, snil, heq, ?_⟩
          rcases hd with hb | ⟨s1, he, hn⟩ | hr | hroot
          · exact Or.inl hb
          · exact Or.inr (Or.inl ⟨s1, p, he, hn, hpS, by show rank p < rank p + 1; omega⟩)
          · exact Or.inr (Or.inr (Or.inl hr))
          · exact Or.inr (Or.inr (Or.inr hroot))
      · rw [if_neg hpl]
        dsimp only
        cases hsib : (getN t p).left with
        | none => exact absurd hsib hpl
        | some s0 =>
          dsimp only
          obtain ⟨t2, n2, pr2, brk, snil, heq, hd⟩ :=
            fixDeleteStep_core t none p s0 (Or.inr hsib)
          refine ⟨t2, n2, pr2, brk, snil, heq, ?_⟩
          rcases hd with hb | ⟨s1, he, hn⟩ | hr | hroot
          · exact Or.inl hb
          · exact Or.inr (Or.inl ⟨s1, p, he, hn, hpS, by show rank p < rank p + 1; omega⟩)
          · exact Or.inr (Or.inr (Or.inl hr))
          · exact Or.inr (Or.inr (Or.inr hroot))
    | some x =>
      dsimp only
      have hxS := hnode x rfl
      cases hxp : (getN t x).parent with
      | none =>
        dsimp only
        exact ⟨_, _, _, _, _, rfl, Or.inl rfl⟩
      | some xp =>
        dsimp only
        obtain ⟨hxpS, hxplt⟩ := hRank x hxS xp hxp
        by_cases hxpl : (getN t xp).left = some x
        · rw [if_pos hxpl]
          dsimp only
          cases hsib : (getN t xp).right with
          | none => exact ⟨_, _, _, _, _, rfl, Or.inl rfl⟩
          | some s0 =>
            dsimp only
            obtain ⟨t2, n2, pr2, brk, snil, heq, hd⟩ :=
              fixDeleteStep_core t (some x) xp s0 (Or.inl hsib)
            refine ⟨t2, n2, pr2, brk, snil, heq, ?_⟩
            rcases hd with hb | ⟨s1, he, hn⟩ | hr | hroot
            · exact Or.inl hb
            · exact Or.inr (Or.inl ⟨s1, xp, he, hn, hxpS,
                by show rank xp < rank x; exact hxplt⟩)
            · exact Or.inr (Or.inr (Or.inl hr))
            · exact Or.inr (Or.inr (Or.inr hroot))
        · rw [if_neg hxpl]
          dsimp only
          cases hsib : (getN t xp).left with
          | none => exact ⟨_, _, _, _, _, rfl, Or.inl rfl⟩
          | some s0 =>
            dsimp only
            obtain ⟨t2, n2, pr2, brk, snil, heq, hd⟩ :=
              fixDeleteStep_core t (some x) xp s0 (Or.inr hsib)
            refine ⟨t2, n2, pr2, brk, snil, heq, ?_⟩
            rcases hd with hb | ⟨s1, he, hn⟩ | hr | hroot
            · exact Or.inl hb
            · exact Or.inr (Or.inl ⟨s1, xp, he, hn, hxpS,
                by show rank xp < rank x; exact hxplt⟩)
            · exact Or.inr (Or.inr (Or.inl hr))
            · exact Or.inr (Or.inr (Or.inr hroot))

/-- The delete-fixup loop runs to completion (no panic) on any state whose
parent pointers decrease a rank inside `S`, starting from an anchor of `S`,
with fuel covering the anchor's rank. -/
theorem fixDeleteGo_total (S : List Nat) (rank : Nat → Nat) :
    ∀ (fuel : Nat) (t : RBTree) (node parent : Option Nat) (saw : Bool),
      RankOK t S rank →
      (∀ x, node = some x → x ∈ S) →
      (∀ p, node = none → parent = some p → p ∈ S) →
      fixDMeasure rank node parent + 2 ≤ fuel →
      ∃ res, fixDeleteGo t node parent saw fuel = some res := by
  intro fuel
  induction fuel with
  | zero => intro t node parent saw _ _ _ hf; omega
  | succ n ih =>
    intro t node parent saw hRank hnode hpar hf
    unfold fixDeleteGo
    by_cases hroot : t.root = node
    · rw [if_pos hroot]
      exact fixDFinish_some t node saw
    · rw [if_neg hroot]
      by_cases hred : isRed t node = true
      · rw [if_pos hred]
        exact fixDFinish_some t node saw
      · rw [if_neg hred]
        obtain ⟨t2, n2, pr2, brk, snil, hstep, hd⟩ :=
          fixDeleteStep_spec S rank t node parent hRank hnode hpar
        rw [hstep]
        dsimp only
        by_cases hbv : brk = true
        · rw [hbv, if_pos rfl]
          exact fixDFinish_some t2 n2 (saw || snil)
        · rw [Bool.not_eq_true] at hbv
          rw [hbv, if_neg (by simp)]
          rcases hd with hb | ⟨s1, p1, he, hn, hp1S, hlt⟩ | hr | hroot2
          · rw [hb] at hbv
            cases hbv
          · rw [he, hn]
            refine ih (setColor t s1 true) (some p1) pr2 (saw || snil)
              (RankOK_setColor _ _ _ _ _ hRank) ?_ ?_ ?_
            · intro y hy
              injection hy with hy
              rw [← hy]
              exact hp1S
            · intro q hcon
              cases hcon
            · show rank p1 + 2 ≤ n
              omega
          · obtain ⟨m, hm⟩ : ∃ m, n = m + 1 := ⟨n - 1, by omega⟩
            subst hm
            unfold fixDeleteGo
            by_cases hroot2 : t2.root = n2
            · rw [if_pos hroot2]
              exact fixDFinish_some t2 n2 (saw || snil)
            · rw [if_neg hroot2, if_pos hr]
              exact fixDFinish_some t2 n2 (saw || snil)
          · obtain ⟨m, hm⟩ : ∃ m, n = m + 1 := ⟨n - 1, by omega⟩
            subst hm
            unfold fixDeleteGo
            rw [hroot2, if_pos rfl]
            exact fixDFinish_some t2 t2.root (saw || snil)

/-! ## Unconditional if-forms of the slot writers, and extraction helpers -/

theorem parent_setParent (t : RBTree) (i : Nat) (x : Option Nat) (j : Nat) :
    (getN (setParent t i x) j).parent = if j = i then x else (getN t j).parent := by
  by_cases h : j = i
  · rw [if_pos h, h, parent_setParent_self]
  · rw [if_neg h, parent_setParent_other _ _ _ _ h]

theorem left_setLeft (t : RBTree) (i : Nat) (x : Option Nat) (j : Nat) :
    (getN (setLeft t i x) j).left = if j = i then x else (getN t j).left := by
  by_cases h : j = i
  · rw [if_pos h, h, left_setLeft_self]
  · rw [if_neg h, left_setLeft_other _ _ _ _ h]

theorem right_setRight (t : RBTree) (i : Nat) (x : Option Nat) (j : Nat) :
    (getN (setRight t i x) j).right = if j = i then x else (getN t j).right := by
  by_cases h : j = i
  · rw [if_pos h, h, right_setRight_self]
  · rw [if_neg h, right_setRight_other _ _ _ _ h]

theorem toBT_none (t : RBTree) (f : Nat) : toBT t f none = some BT.nil := by
  cases f <;> rfl

theorem topB_mem (b : BT) (y : Nat) (h : topB b = some y) : y ∈ idxs b := by
  cases b with
  | nil => simp [topB] at h
  | node l i r =>
    simp only [topB, Option.some.injEq] at h
    subst h
    simp [idxs]

theorem toBT_node (t : RBTree) (f : Nat) (i : Nat) (b : BT)
    (h : toBT t (f+1) (some i) = some b) :
    ∃ bl br, toBT t f (getN t i).left = some bl ∧ toBT t f (getN t i).right = some br ∧
      b = BT.node bl i br := by
  unfold toBT at h
  cases hL : toBT t f (getN t i).left with
  | none => rw [hL] at h; cases hR : toBT t f (getN t i).right <;> rw [hR] at h <;> simp at h
  | some bl =>
    cases hR : toBT t f (getN t i).right with
    | none => rw [hL, hR] at h; simp at h
    | some br =>
      rw [hL, hR] at h
      simp only [Option.some.injEq] at h
      exact ⟨bl, br, rfl, rfl, h.symm⟩

theorem subSize_of (t : RBTree) (f : Nat) (hf : f ≤ t.size + 1) (y : Nat) (by2 : BT)
    (h : toBT t f (some y) = some by2) : subSize t y = sizeB by2 := by
  unfold subSize
  rw [toBT_le t f (t.size+1) hf _ _ h]

theorem parentOk_node (t : RBTree) (l : BT) (i : Nat) (r : BT) (p0 : Option Nat)
    (h : parentOkB t (BT.node l i r) p0 = true) :
    (getN t i).parent = p0 ∧ parentOkB t l (some i) = true ∧ parentOkB t r (some i) = true := by
  unfold parentOkB at h
  rw [Bool.and_eq_true, Bool.and_eq_true] at h
  exact ⟨of_decide_eq_true h.1.1, h.1.2, h.2⟩


theorem rankDel_self (t : RBTree) (s x : Nat) : rankDel t s x s = rankOf t x := by
  unfold rankDel
  rw [if_pos rfl]

theorem rankDel_other (t : RBTree) (s x y : Nat) (h : y ≠ s) : rankDel t s x y = rankOf t y := by
  unfold rankDel
  rw [if_neg h]

/-! ## Totality of deleteNode on a valid tree -/

theorem deleteNode_total (t : RBTree) (b : BT) (hw : WFb t b) (x : Nat)
    (hx : x ∈ idxs b) : ∃ res, deleteNode t x = some res := by
  have hRank := wfb_rankOK t b hw
  have hChild := wfb_childOK t b hw
  have hall : ∀ j ∈ idxs b, j < t.size := hw.2.2.2
  unfold deleteNode
  cases hxl : (getN t x).left with
  | none =>
    dsimp only
    by_cases hxc : (getN t x).color = false
    · rw [if_pos hxc]
      unfold fixDelete
      refine fixDeleteGo_total (idxs b) (rankOf t) _ _ _ _ _ ?_ ?_ ?_ ?_
      · intro j hj p hp
        rw [transplant_parent] at hp
        by_cases hvj : (getN t x).right = some j
        · rw [if_pos hvj] at hp
          obtain ⟨hpS, hplt⟩ := hRank x hx p hp
          obtain ⟨hjS2, hjlt⟩ := hChild x hx j (Or.inr hvj)
          exact ⟨hpS, by omega⟩
        · rw [if_neg hvj] at hp
          exact hRank j hj p hp
      · intro y hy
        exact (hChild x hx y (Or.inr hy)).1
      · intro p hn hp
        exact (hRank x hx p hp).1
      · rw [transplant_size]
        cases hcr : (getN t x).right with
        | none =>
          cases hcp : (getN t x).parent with
          | none => show 0 + 2 ≤ t.size + 3; omega
          | some p =>
            have hle := wfb_rank_le t b hw p (hRank x hx p hcp).1
            show rankOf t p + 1 + 2 ≤ t.size + 3
            omega
        | some c =>
          have hle := wfb_rank_le t b hw c (hChild x hx c (Or.inr hcr)).1
          show rankOf t c + 2 ≤ t.size + 3
          omega
    · rw [if_neg hxc]
      exact ⟨_, rfl⟩
  | some xl =>
    dsimp only
    cases hxr : (getN t x).right with
    | none =>
      dsimp only
      by_cases hxc : (getN t x).color = false
      · rw [if_pos hxc]
        unfold fixDelete
        refine fixDeleteGo_total (idxs b) (rankOf t) _ _ _ _ _ ?_ ?_ ?_ ?_
        · intro j hj p hp
          rw [transplant_parent] at hp
          by_cases hvj : (some xl : Option Nat) = some j
          · rw [if_pos hvj] at hp
            obtain ⟨hpS, hplt⟩ := hRank x hx p hp
            have hvj2 : xl = j := by injection hvj
            obtain ⟨hjS2, hjlt⟩ := hChild x hx xl (Or.inl hxl)
            rw [hvj2] at hjlt
            exact ⟨hpS, by omega⟩
          · rw [if_neg hvj] at hp
            exact hRank j hj p hp
        · intro y hy
          have hy2 : xl = y := by injection hy
          rw [← hy2]
          exact (hChild x hx xl (Or.inl hxl)).1
        · intro p hn hp
          exact Option.noConfusion hn
        · rw [transplant_size]
          have hle := wfb_rank_le t b hw xl (hChild x hx xl (Or.inl hxl)).1
          show rankOf t xl + 2 ≤ t.size + 3
          omega
      · rw [if_neg hxc]
        exact ⟨_, rfl⟩
    | some xr =>
      dsimp only
      have hx_lt : x < t.size := hall x hx
      obtain ⟨bx, hbx, hsubx, hszx, hge1x, hlex⟩ := wfb_member t b hw x hx
      obtain ⟨bl, br, hL, hR, hbxe⟩ := toBT_node t t.size x bx hbx
      subst hbxe
      rw [hxl] at hL
      rw [hxr] at hR
      obtain ⟨s, hs, hsm⟩ := minimumGo_spec t (t.size + 1) xr br (toBT_mono t t.size _ br hR)
      rw [hs]
      dsimp only
      have hsleft : (getN t s).left = none := minimumGo_left_none t (t.size + 1) xr s hs
      have hsSb : s ∈ idxs b := by
        refine hsubx.subset ?_
        simp only [idxs, List.mem_append, List.mem_cons]
        exact Or.inr (Or.inr hsm)
      obtain ⟨bx2, hbx2, hpokx⟩ := parentOk_sub t (t.size+1) t.root b none hw.1 hw.2.1 x hx
      rw [hbx] at hbx2
      have hbx2e : BT.node bl x br = bx2 := by injection hbx2
      rw [← hbx2e] at hpokx
      obtain ⟨-, hpokbl, hpokbr⟩ := parentOk_node t bl x br _ hpokx
      obtain ⟨⟨bs, hbs, hbssub⟩, -⟩ :=
        wf_edges t t.size (getN t x).right br (some x) (by rw [hxr]; exact hR) hpokbr s hsm
      have hrxs : rankOf t x < rankOf t s := by
        have h1 : subSize t s = sizeB bs := subSize_of t t.size (by omega) s bs hbs
        have h2 : sizeB bs ≤ sizeB br := by
          rw [sizeB_eq_length, sizeB_eq_length]
          exact hbssub.length_le
        have h3 : subSize t x = sizeB bl + sizeB br + 1 := by rw [hszx]; rfl
        unfold rankOf
        omega
      have hxns : x ≠ s := by intro he; rw [he] at hrxs; omega
      have hxl_f := hChild x hx xl (Or.inl hxl)
      have hxr_f := hChild x hx xr (Or.inr hxr)
      have hxlns : xl ≠ s := by
        have hnd : (idxs (BT.node bl x br)).Nodup := hsubx.nodup hw.2.2.1
        have hnd2 : ((idxs bl) ++ x :: idxs br).Nodup := hnd
        rw [List.nodup_append] at hnd2
        obtain ⟨-, -, hdisj⟩ := hnd2
        intro he
        have hxlm : xl ∈ idxs bl := topB_mem bl xl (toBT_top t _ _ _ hL)
        exact hdisj hxlm (by rw [he]; exact List.mem_cons_of_mem x hsm)
      have hsrank := wfb_rank_le t b hw s hsSb
      have hxrank := wfb_rank_le t b hw x hx
      by_cases hspx : (getN t s).parent = some x
      · rw [if_pos hspx, hspx]
        cases hchild : (getN t s).right with
        | none =>
          dsimp only
          split
          next heq =>
            rw [left_setLeft_self] at heq
            rw [transplant_left] at heq
            have hnc : ¬((getN t x).parent = some x ∧ (getN t x).left = some x) := by
              intro hc
              obtain ⟨-, habs⟩ := hRank x hx x hc.1
              omega
            rw [if_neg hnc] at heq
            rw [hxl] at heq
            exact Option.noConfusion heq
          next sl heq =>
            rw [left_setLeft_self] at heq
            rw [transplant_left] at heq
            have hnc : ¬((getN t x).parent = some x ∧ (getN t x).left = some x) := by
              intro hc
              obtain ⟨-, habs⟩ := hRank x hx x hc.1
              omega
            rw [if_neg hnc] at heq
            rw [hxl] at heq
            have heq2 : xl = sl := by injection heq
            by_cases horig : (getN t s).color = false
            · rw [if_pos horig]
              unfold fixDelete
              refine fixDeleteGo_total (idxs b) (rankDel t s x) _ _ _ _ _ ?_ ?_ ?_ ?_
              · intro j hj p hp
                simp only [parent_setColor, parent_setParent, parent_setLeft,
                  transplant_parent] at hp
                by_cases hjxl : j = sl
                · rw [if_pos hjxl] at hp
                  have hps : p = s := by injection hp with h; exact h.symm
                  refine ⟨by rw [hps]; exact hsSb, ?_⟩
                  rw [hps, rankDel_self, hjxl, ← heq2, rankDel_other t s x xl hxlns]
                  exact hxl_f.2
                · rw [if_neg hjxl] at hp
                  by_cases hjs : (some s : Option Nat) = some j
                  · rw [if_pos hjs] at hp
                    have hjs2 : j = s := by injection hjs with h; exact h.symm
                    obtain ⟨hpS, hplt⟩ := hRank x hx p hp
                    refine ⟨hpS, ?_⟩
                    rw [hjs2, rankDel_self]
                    by_cases hps2 : p = s
                    · exfalso
                      rw [hps2] at hplt
                      omega
                    · rw [rankDel_other t s x p hps2]
                      exact hplt
                  · rw [if_neg hjs] at hp
                    obtain ⟨hpS, hplt⟩ := hRank j hj p hp
                    have hjs2 : j ≠ s := fun he => hjs (by rw [he])
                    refine ⟨hpS, ?_⟩
                    rw [rankDel_other t s x j hjs2]
                    by_cases hps2 : p = s
                    · rw [hps2, rankDel_self]
                      rw [hps2] at hplt
                      omega
                    · rw [rankDel_other t s x p hps2]
                      exact hplt
              · intro y hy
                exact Option.noConfusion hy
              · intro p hn hp2
                have hp3 : x = p := by injection hp2
                rw [← hp3]
                exact hx
              · simp only [size_setColor, size_setParent, size_setLeft, transplant_size]
                show rankDel t s x x + 1 + 2 ≤ t.size + 3
                rw [rankDel_other t s x x hxns]
                omega
            · rw [if_neg horig]
              exact ⟨_, rfl⟩
        | some c =>
          dsimp only
          have hc_f := hChild s hsSb c (Or.inr hchild)
          have hcns : c ≠ s := by
            intro he
            have := hc_f.2
            rw [he] at this
            omega
          have hxnc : x ≠ c := by
            intro he
            have := hc_f.2
            rw [← he] at this
            omega
          split
          next heq =>
            rw [left_setLeft_self] at heq
            rw [transplant_left] at heq
            have hnc : ¬((getN (setParent t c (some s)) x).parent = some x ∧
                (getN (setParent t c (some s)) x).left = some x) := by
              intro hc
              have h1 := hc.1
              rw [parent_setParent, if_neg hxnc] at h1
              obtain ⟨-, habs⟩ := hRank x hx x h1
              omega
            rw [if_neg hnc] at heq
            rw [left_setParent] at heq
            rw [hxl] at heq
            exact Option.noConfusion heq
          next sl heq =>
            rw [left_setLeft_self] at heq
            rw [transplant_left] at heq
            have hnc : ¬((getN (setParent t c (some s)) x).parent = some x ∧
                (getN (setParent t c (some s)) x).left = some x) := by
              intro hc
              have h1 := hc.1
              rw [parent_setParent, if_neg hxnc] at h1
              obtain ⟨-, habs⟩ := hRank x hx x h1
              omega
            rw [if_neg hnc] at heq
            rw [left_setParent] at heq
            rw [hxl] at heq
            have heq2 : xl = sl := by injection heq
            by_cases horig : (getN t s).color = false
            · rw [if_pos horig]
              unfold fixDelete
              refine fixDeleteGo_total (idxs b) (rankDel t s x) _ _ _ _ _ ?_ ?_ ?_ ?_
              · intro j hj p hp
                simp only [parent_setColor, parent_setParent, parent_setLeft,
                  transplant_parent] at hp
                by_cases hjxl : j = sl
                · rw [if_pos hjxl] at hp
                  have hps : p = s := by injection hp with h; exact h.symm
                  refine ⟨by rw [hps]; exact hsSb, ?_⟩
                  rw [hps, rankDel_self, hjxl, ← heq2, rankDel_other t s x xl hxlns]
                  exact hxl_f.2
                · rw [if_neg hjxl] at hp
                  by_cases hjs : (some s : Option Nat) = some j
                  · rw [if_pos hjs] at hp
                    have hjs2 : j = s := by injection hjs with h; exact h.symm
                    by_cases hxc2 : x = c
                    · exfalso
                      have := hc_f.2
                      rw [← hxc2] at this
                      omega
                    · rw [if_neg hxc2] at hp
                      obtain ⟨hpS, hplt⟩ := hRank x hx p hp
                      refine ⟨hpS, ?_⟩
                      rw [hjs2, rankDel_self]
                      by_cases hps2 : p = s
                      · exfalso
                        rw [hps2] at hplt
                        omega
                      · rw [rankDel_other t s x p hps2]
                        exact hplt
                  · rw [if_neg hjs] at hp
                    have hjs2 : j ≠ s := fun he => hjs (by rw [he])
                    by_cases hjc : j = c
                    · rw [if_pos hjc] at hp
                      have hps : p = s := by injection hp with h; exact h.symm
                      refine ⟨by rw [hps]; exact hsSb, ?_⟩
                      rw [hps, rankDel_self, hjc, rankDel_other t s x c hcns]
                      have := hc_f.2
                      omega
                    · rw [if_neg hjc] at hp
                      obtain ⟨hpS, hplt⟩ := hRank j hj p hp
                      refine ⟨hpS, ?_⟩
                      rw [rankDel_other t s x j hjs2]
                      by_cases hps2 : p = s
                      · rw [hps2, rankDel_self]
                        rw [hps2] at hplt
                        omega
                      · rw [rankDel_other t s x p hps2]
                        exact hplt
              · intro y hy
                have hy2 : c = y := by injection hy
                rw [← hy2]
                exact hc_f.1
              · intro p hn hp2
                exact Option.noConfusion hn
              · simp only [size_setColor, size_setParent, size_setLeft, transplant_size]
                show rankDel t s x c + 2 ≤ t.size + 3
                rw [rankDel_other t s x c hcns]
                have := wfb_rank_le t b hw c hc_f.1
                omega
            · rw [if_neg horig]
              exact ⟨_, rfl⟩
      · rw [if_neg hspx]
        have hxnxr : x ≠ xr := by
          intro he
          have := hxr_f.2
          rw [he] at this
          omega
        cases hchild : (getN t s).right with
        | none =>
          have hnc2 : ¬((getN t s).parent = some x ∧ ¬((getN t x).left = some s)) :=
            fun hc => hspx hc.1
          have hnc4 : ¬((getN t s).parent = some x ∧ (getN t x).left = some s) :=
            fun hc => hspx hc.1
          split
          next heq =>
            rw [right_setRight_self, transplant_right, if_neg hnc2, hxr] at heq
            dsimp only at heq
            exact Option.noConfusion heq
          next t1 heq =>
            rw [right_setRight_self, transplant_right, if_neg hnc2, hxr] at heq
            dsimp only at heq
            injection heq with heq
            subst heq
            split
            next heqL =>
              rw [left_setLeft_self] at heqL
              rw [transplant_left] at heqL
              have hnc3 : ¬((getN (setParent (setRight (transplant t s none) s
                  (some xr)) xr (some s)) x).parent = some x ∧
                  (getN (setParent (setRight (transplant t s none) s
                  (some xr)) xr (some s)) x).left = some x) := by
                intro hc
                have h1 := hc.1
                rw [parent_setParent, if_neg hxnxr, parent_setRight, transplant_parent,
                  if_neg (by simp : ¬((none : Option Nat) = some x))] at h1
                obtain ⟨-, habs⟩ := hRank x hx x h1
                omega
              rw [if_neg hnc3] at heqL
              rw [left_setParent, left_setRight, transplant_left, if_neg hnc4, hxl] at heqL
              exact Option.noConfusion heqL
            next sl heqL =>
              rw [left_setLeft_self] at heqL
              rw [transplant_left] at heqL
              have hnc3 : ¬((getN (setParent (setRight (transplant t s none) s
                  (some xr)) xr (some s)) x).parent = some x ∧
                  (getN (setParent (setRight (transplant t s none) s
                  (some xr)) xr (some s)) x).left = some x) := by
                intro hc
                have h1 := hc.1
                rw [parent_setParent, if_neg hxnxr, parent_setRight, transplant_parent,
                  if_neg (by simp : ¬((none : Option Nat) = some x))] at h1
                obtain ⟨-, habs⟩ := hRank x hx x h1
                omega
              rw [if_neg hnc3] at heqL
              rw [left_setParent, left_setRight, transplant_left, if_neg hnc4, hxl] at heqL
              have heqL2 : xl = sl := by injection heqL
              by_cases horig : (getN t s).color = false
              · rw [if_pos horig]
                unfold fixDelete
                refine fixDeleteGo_total (idxs b) (rankDel t s x) _ _ _ _ _ ?_ ?_ ?_ ?_
                · intro j hj p hp
                  simp only [parent_setColor, parent_setParent, parent_setLeft,
                    parent_setRight, transplant_parent] at hp
                  by_cases hjxl : j = sl
                  · rw [if_pos hjxl] at hp
                    have hps : p = s := by injection hp with h; exact h.symm
                    refine ⟨by rw [hps]; exact hsSb, ?_⟩
                    rw [hps, rankDel_self, hjxl, ← heqL2, rankDel_other t s x xl hxlns]
                    exact hxl_f.2
                  · rw [if_neg hjxl] at hp
                    by_cases hjs : (some s : Option Nat) = some j
                    · rw [if_pos hjs] at hp
                      have hjs2 : j = s := by injection hjs with h; exact h.symm
                      rw [if_neg hxnxr,
                        if_neg (by simp : ¬((none : Option Nat) = some x))] at hp
                      obtain ⟨hpS, hplt⟩ := hRank x hx p hp
                      refine ⟨hpS, ?_⟩
                      rw [hjs2, rankDel_self]
                      by_cases hps2 : p = s
                      · exfalso
                        rw [hps2] at hplt
                        omega
                      · rw [rankDel_other t s x p hps2]
                        exact hplt
                    · rw [if_neg hjs] at hp
                      have hjs2 : j ≠ s := fun he => hjs (by rw [he])
                      by_cases hjxr : j = xr
                      · rw [if_pos hjxr] at hp
                        have hps : p = s := by injection hp with h; exact h.symm
                        refine ⟨by rw [hps]; exact hsSb, ?_⟩
                        rw [hps, rankDel_self, hjxr,
                          rankDel_other t s x xr (by rw [← hjxr]; exact hjs2)]
                        exact hxr_f.2
                      · rw [if_neg hjxr] at hp
                        rw [if_neg (by simp : ¬((none : Option Nat) = some j))] at hp
                        obtain ⟨hpS, hplt⟩ := hRank j hj p hp
                        refine ⟨hpS, ?_⟩
                        rw [rankDel_other t s x j hjs2]
                        by_cases hps2 : p = s
                        · rw [hps2, rankDel_self]
                          rw [hps2] at hplt
                          omega
                        · rw [rankDel_other t s x p hps2]
                          exact hplt
                · intro y hy
                  exact Option.noConfusion hy
                · intro p hn hp2
                  exact (hRank s hsSb p hp2).1
                · simp only [size_setColor, size_setParent, size_setLeft, size_setRight,
                    transplant_size]
                  cases hqp : (getN t s).parent with
                  | none => show 0 + 2 ≤ t.size + 3; omega
                  | some q =>
                    obtain ⟨hqS, hqlt⟩ := hRank s hsSb q hqp
                    show rankDel t s x q + 1 + 2 ≤ t.size + 3
                    rw [rankDel_other t s x q (by intro he; rw [he] at hqlt; omega)]
                    have := wfb_rank_le t b hw q hqS
                    omega
              · rw [if_neg horig]
                exact ⟨_, rfl⟩
        | some sro =>
          have hsro_f := hChild s hsSb sro (Or.inr hchild)
          have hsrons : sro ≠ s := by
            intro he
            have := hsro_f.2
            rw [he] at this
            omega
          have hnc2 : ¬((getN t s).parent = some x ∧ ¬((getN t x).left = some s)) :=
            fun hc => hspx hc.1
          have hnc4 : ¬((getN t s).parent = some x ∧ (getN t x).left = some s) :=
            fun hc => hspx hc.1
          have hsrax : ¬((some sro : Option Nat) = some x) := by
            intro he
            have he2 : sro = x := by injection he
            have := hsro_f.2
            rw [he2] at this
            omega
          split
          next heq =>
            rw [right_setRight_self, transplant_right, if_neg hnc2, hxr] at heq
            dsimp only at heq
            exact Option.noConfusion heq
          next t1 heq =>
            rw [right_setRight_self, transplant_right, if_neg hnc2, hxr] at heq
            dsimp only at heq
            injection heq with heq
            subst heq
            split
            next heqL =>
              rw [left_setLeft_self] at heqL
              rw [transplant_left] at heqL
              have hnc3 : ¬((getN (setParent (setRight (transplant t s (some sro)) s
                  (some xr)) xr (some s)) x).parent = some x ∧
                  (getN (setParent (setRight (transplant t s (some sro)) s
                  (some xr)) xr (some s)) x).left = some x) := by
                intro hc
                have h1 := hc.1
                rw [parent_setParent, if_neg hxnxr, parent_setRight, transplant_parent,
                  if_neg hsrax] at h1
                obtain ⟨-, habs⟩ := hRank x hx x h1
                omega
              rw [if_neg hnc3] at heqL
              rw [left_setParent, left_setRight, transplant_left, if_neg hnc4, hxl] at heqL
              exact Option.noConfusion heqL
            next sl heqL =>
              rw [left_setLeft_self] at heqL
              rw [transplant_left] at heqL
              have hnc3 : ¬((getN (setParent (setRight (transplant t s (some sro)) s
                  (some xr)) xr (some s)) x).parent = some x ∧
                  (getN (setParent (setRight (transplant t s (some sro)) s
                  (some xr)) xr (some s)) x).left = some x) := by
                intro hc
                have h1 := hc.1
                rw [parent_setParent, if_neg hxnxr, parent_setRight, transplant_parent,
                  if_neg hsrax] at h1
                obtain ⟨-, habs⟩ := hRank x hx x h1
                omega
              rw [if_neg hnc3] at heqL
              rw [left_setParent, left_setRight, transplant_left, if_neg hnc4, hxl] at heqL
              have heqL2 : xl = sl := by injection heqL
              by_cases horig : (getN t s).color = false
              · rw [if_pos horig]
                unfold fixDelete
                refine fixDeleteGo_total (idxs b) (rankDel t s x) _ _ _ _ _ ?_ ?_ ?_ ?_
                · intro j hj p hp
                  simp only [parent_setColor, parent_setParent, parent_setLeft,
                    parent_setRight, transplant_parent] at hp
                  by_cases hjxl : j = sl
                  · rw [if_pos hjxl] at hp
                    have hps : p = s := by injection hp with h; exact h.symm
                    refine ⟨by rw [hps]; exact hsSb, ?_⟩
                    rw [hps, rankDel_self, hjxl, ← heqL2, rankDel_other t s x xl hxlns]
                    exact hxl_f.2
                  · rw [if_neg hjxl] at hp
                    by_cases hjs : (some s : Option Nat) = some j
                    · rw [if_pos hjs] at hp
                      have hjs2 : j = s := by injection hjs with h; exact h.symm
                      rw [if_neg hxnxr, if_neg hsrax] at hp
                      obtain ⟨hpS, hplt⟩ := hRank x hx p hp
                      refine ⟨hpS, ?_⟩
                      rw [hjs2, rankDel_self]
                      by_cases hps2 : p = s
                      · exfalso
                        rw [hps2] at hplt
                        omega
                      · rw [rankDel_other t s x p hps2]
                        exact hplt
                    · rw [if_neg hjs] at hp
                      have hjs2 : j ≠ s := fun he => hjs (by rw [he])
                      by_cases hjxr : j = xr
                      · rw [if_pos hjxr] at hp
                        have hps : p = s := by injection hp with h; exact h.symm
                        refine ⟨by rw [hps]; exact hsSb, ?_⟩
                        rw [hps, rankDel_self, hjxr,
                          rankDel_other t s x xr (by rw [← hjxr]; exact hjs2)]
                        exact hxr_f.2
                      · rw [if_neg hjxr] at hp
                        by_cases hjsro : (some sro : Option Nat) = some j
                        · rw [if_pos hjsro] at hp
                          have hjsro2 : j = sro := by injection hjsro with h; exact h.symm
                          obtain ⟨hpS, hplt⟩ := hRank s hsSb p hp
                          refine ⟨hpS, ?_⟩
                          rw [hjsro2, rankDel_other t s x sro hsrons]
                          by_cases hps2 : p = s
                          · rw [hps2, rankDel_self]
                            have := hsro_f.2
                            omega
                          · rw [rankDel_other t s x p hps2]
                            have := hsro_f.2
                            omega
                        · rw [if_neg hjsro] at hp
                          obtain ⟨hpS, hplt⟩ := hRank j hj p hp
                          refine ⟨hpS, ?_⟩
                          rw [rankDel_other t s x j hjs2]
                          by_cases hps2 : p = s
                          · rw [hps2, rankDel_self]
                            rw [hps2] at hplt
                            omega
                          · rw [rankDel_other t s x p hps2]
                            exact hplt
                · intro y hy
                  have hy2 : sro = y := by injection hy
                  rw [← hy2]
                  exact hsro_f.1
                · intro p hn hp2
                  exact Option.noConfusion hn
                · simp only [size_setColor, size_setParent, size_setLeft, size_setRight,
                    transplant_size]
                  show rankDel t s x sro + 2 ≤ t.size + 3
                  rw [rankDel_other t s x sro hsrons]
                  have := wfb_rank_le t b hw sro hsro_f.1
                  omega
              · rw [if_neg horig]
                exact ⟨_, rfl⟩

/-- `Delete` on a valid tree completes (`some`): the key is either absent
(no-op) or found at a member node, and `deleteNode` is total on members. -/
theorem deleteI_total (t : RBTree) (k : Int) (h : validRB t = true) :
    ∃ res, DeleteI t k = some res := by
  obtain ⟨b, hw, -⟩ := validRB_wfb t h
  unfold DeleteI searchNoLock
  rw [searchGo_toBT t k (t.size + 1) t.root b hw.1]
  cases hs : searchBT t b k with
  | none => exact ⟨(t, false), rfl⟩
  | some i => exact deleteNode_total t b hw i (searchBT_mem t b k i hs)

/-! ## C10: insert-fixup pointer safety on a valid tree -/

/-- C10: under the precondition that the tree satisfies the Red-Black
invariants before `Insert` (modelled as `validRB t = true`), every pointer
dereference in the insert-fixup is safe: `InsertI` returns `some` (no nil
dereference is modelled, i.e. no panic), and the returned defensive flag is
`false` (the nil checks on `node.parent` and `node.parent.parent` inside
the rotation cases never evaluate to nil, so the defensive `break`s do not
run). In particular the grandparent access in the loop body never hits
nil. -/
theorem C10_insert_fixup_safe (t : RBTree) (k v : Int)
    (h : validRB t = true) :
    ∃ u, InsertI t k v = some (u, false) :=
  insertI_total t k v h

/-- Instance of C10 on the concrete valid tree of the spec scenario. -/
theorem C10_insert_fixup_safe_witness :
    validRB tree5 = true ∧ ∃ u, InsertI tree5 2 20 = some (u, false) :=
  ⟨by decide, C10_insert_fixup_safe tree5 2 20 (by decide)⟩

/-! ## C8: Insert and Delete are total on a valid tree -/

/-- C8: for every well-formed input tree (`validRB t = true`), the
insert-fixup and delete-fixup loops terminate — in the fuelled embedding,
`InsertRB` and `Delete` return `some` within the fuel bound for every key,
so Insert and Delete are total functions that never raise a structural
exception (no `none`, which models every nil dereference / panic). -/
theorem C8_insert_delete_total (t : RBTree) (k v ku : Int)
    (h : validRB t = true) :
    (∃ u, InsertRB t k v = some u) ∧ (∃ u, Delete t ku = some u) := by
  constructor
  · obtain ⟨u, hu⟩ := insertI_total t k v h
    refine ⟨u, ?_⟩
    unfold InsertRB
    rw [hu]
    rfl
  · obtain ⟨res, hres⟩ := deleteI_total t ku h
    refine ⟨res.1, ?_⟩
    unfold Delete
    rw [hres]
    rfl

/-- Instance of C8 on the concrete valid tree of the spec scenario. -/
theorem C8_insert_delete_total_witness :
    validRB tree5 = true ∧
    ((∃ u, InsertRB tree5 4 40 = some u) ∧ (∃ u, Delete tree5 9 = some u)) :=
  ⟨by decide, C8_insert_delete_total tree5 4 40 9 (by decide)⟩
